import Mathlib

/-!
A shallow embedding, in Lean 4, of the `formol` text reflow engine
(`formol.py`): the element model, the recursive-descent parser over raw
lines, the width-aware formatter, and the C-block-comment boundary
wrapper.  Python strings are modelled as `List Char`; Python's `None`
results of try-parse rules are `Option`; the two runtime failure modes
are modelled explicitly: an assertion failure / index error inside
`_remove_trailing_empty_lines` is `Res.fail`, and — since the parser's
recursion is general — parsing functions carry a fuel argument whose
exhaustion is `Res.gas` (the separately proved fuel-sufficiency theorem
shows `gas` is never reached for the stated fuel bound, which is the
termination claim of the source's main loop).

Widths are `Int` because the source freely forms `max_line_len - indent`
which can become negative.  Whitespace is the ASCII whitespace set, which
is what Python's `str.strip` and the `\s`/`\S` regex classes use on the
ASCII inputs this program processes.
-/

set_option maxRecDepth 20000

namespace Formol

/-- A Python string: a list of characters. -/
abbrev Str := List Char

/-- Characters of a Lean string literal, used to write concrete inputs. -/
def strL (s : String) : Str := s.data

/-- ASCII whitespace (Python `str.strip` default / regex `\s` on ASCII). -/
def isSpaceC (c : Char) : Bool :=
  c = ' ' || c = '\t' || c = '\n' || c = '\r' || c = '\x0b' || c = '\x0c'

/-- Python `str.lstrip()`. -/
def lstripL (l : Str) : Str := l.dropWhile isSpaceC

/-- Python `str.rstrip()`. -/
def rstripL (l : Str) : Str := (l.reverse.dropWhile isSpaceC).reverse

/-- Python `str.strip()`. -/
def stripL (l : Str) : Str := lstripL (rstripL l)

/-- `_indent_str`: the indentation string for `count` spaces. -/
def indentStr (count : Nat) : Str := List.replicate count ' '

/-- `_remove_trailing_empty_lines`: `lines` without trailing empty lines.
`none` models the runtime failure of the source helper: the initial
assertion (`lines` empty) or the index error of the unguarded loop
(all lines empty). -/
def removeTrailingEmptyLines (lines : List Str) : Option (List Str) :=
  if (lines.reverse.dropWhile (fun l => l.isEmpty)).isEmpty then none
  else some (lines.reverse.dropWhile (fun l => l.isEmpty)).reverse

/-- Python `text.splitlines()` for newline-separated text. -/
def splitNlAux : Str → Str → List Str
  | [], acc => [acc.reverse]
  | '\n' :: rest, acc => acc.reverse :: splitNlAux rest []
  | c :: rest, acc => splitNlAux rest (c :: acc)

/-- Python `text.splitlines()` (for `\n` line separators). -/
def splitLines (s : Str) : List Str :=
  if s.isEmpty then []
  else
    let parts := splitNlAux s []
    if s.getLast? = some '\n' then parts.dropLast else parts

/-- Python `'\n'.join(lines)`. -/
def joinNl (ls : List Str) : Str := List.intercalate ['\n'] ls

/-- Python `' '.join(lines)`. -/
def joinSpace (ls : List Str) : Str := List.intercalate [' '] ls

/-- Little-endian decimal digits of a natural number, with a structural
fuel argument so the kernel can evaluate it (`fuel > n` always holds at
the call site, so the `0` branch is unreachable). -/
def natReprAux : Nat → Nat → Str
  | 0, _ => []
  | f + 1, n =>
    if n < 10 then [Char.ofNat (48 + n)]
    else Char.ofNat (48 + n % 10) :: natReprAux f (n / 10)

/-- Decimal representation of a natural number (Python `str(n)`). -/
def natRepr (n : Nat) : Str := (natReprAux (n + 1) n).reverse

/-- Python `'{:>w}'.format(s)`: right-justify to width `w`, never truncating. -/
def padLeftNum (w : Nat) (s : Str) : Str := List.replicate (w - s.length) ' ' ++ s

/-- Python `s.ljust(n)`. -/
def ljustL (n : Nat) (l : Str) : Str := l ++ List.replicate (n - l.length) ' '

/-- The element model (`_Elem` and its variants).  A simple-list item is
its element list; a definition-list item is its term list paired with its
element list. -/
inductive Elem : Type where
  | p (words : List Str)
  | ul (items : List (List Elem))
  | ol (items : List (List Elem))
  | dl (items : List (List Str × List Elem))
  | pre (lines : List Str)
  | h1 (text : Str)
  | h2 (text : Str)
  | hr
  | blockquote (elems : List Elem)
  | admonBox (elems : List Elem)
  | verbatim (lines : List Str)

/-- Result of a fueled, failure-aware computation: `ok`, assertion
failure (`fail`), or fuel exhaustion (`gas`). -/
inductive Res (α : Type) : Type where
  | ok (a : α)
  | fail
  | gas
deriving DecidableEq

def Res.bind {α β : Type} : Res α → (α → Res β) → Res β
  | .ok a, f => f a
  | .fail, _ => .fail
  | .gas, _ => .gas

instance : Monad Res where
  pure := Res.ok
  bind := Res.bind

/-! ## Paragraph tokenizer (`_Parser._p_elem_from_text`) -/

/-- The optional opening brackets of the literal-span pattern. -/
def literalBrackets : List Char := ['(', '[', '\x7b']

/-- The backtick character. -/
def backtickC : Char := Char.ofNat 96

/-- The backtick-delimited part of `_literal_pat` (backtick + `[^`…`]*` +
backtick + `\S*`) anchored at the start of `t1`, with the already-matched
optional bracket `br`. -/
def literalMatchCore (br : Str) (t1 : Str) : Option (Str × Str) :=
  match t1 with
  | c :: rest =>
    if c = backtickC then
      let inner := rest.takeWhile (fun d => d ≠ backtickC)
      match rest.drop inner.length with
      | d :: rest3 =>
        let tl := rest3.takeWhile (fun e => ¬ isSpaceC e)
        some (br ++ c :: (inner ++ d :: tl), rest3.drop tl.length)
      | [] => none
    else none
  | [] => none

/-- `_literal_pat` (`[\([{]?` + backtick + `[^` + backtick + `]*` + backtick
 + `\S*`) anchored at the start: the matched literal token and the rest. -/
def literalMatch (t : Str) : Option (Str × Str) :=
  match t with
  | c :: rest => if c ∈ literalBrackets then literalMatchCore [c] rest else literalMatchCore [] t
  | [] => none

/-- The zero-width lookahead of `_word_pat`: end of input, a space, a
backtick, or an opening bracket immediately followed by a backtick. -/
def wordEndHere (s : Str) : Bool :=
  match s with
  | [] => true
  | c :: rest =>
    c = ' ' || c = backtickC || (c ∈ literalBrackets && rest.head? = some backtickC)

/-- `_word_pat` (`(.+?)` with the lookahead): the shortest non-empty
prefix whose end satisfies the lookahead, and the rest. -/
def wordScan : Str → Str × Str
  | [] => ([], [])
  | c :: rest =>
    if wordEndHere rest then ([c], rest)
    else
      let (w, r) := wordScan rest
      (c :: w, r)

/-- The scan loop of `_p_elem_from_text`: the token list of a paragraph
text. -/
def tokenizePGo : Nat → Str → List Str
  | 0, _ => []
  | _ + 1, [] => []
  | f + 1, c :: rest =>
    match literalMatch (c :: rest) with
    | some (tok, r) => tok :: tokenizePGo f r
    | none =>
      let w := (wordScan (c :: rest)).1
      let r := (wordScan (c :: rest)).2
      let w' := stripL w
      (if w'.isEmpty then [] else [w']) ++ tokenizePGo f r

/-- The scan loop of `_p_elem_from_text` (every step consumes at least
one character, so the fuel `t.length + 1` is never exhausted). -/
def tokenizeP (t : Str) : List Str := tokenizePGo (t.length + 1) t

/-- `_p_elem_from_text`: a paragraph element from joined paragraph text. -/
def pElemFromText (text : Str) : Elem := .p (tokenizeP text)

/-! ## Parser line matchers (the named regex patterns of `_Parser`) -/

/-- Cursor access `self._lines[self._at]` (call sites guarantee bounds). -/
def curLine (lines : List Str) (i : Nat) : Str := lines.getD i []

/-- `_Parser._next_line`: next line, or an empty line if not available. -/
def nextLine (lines : List Str) (i : Nat) : Str :=
  if i + 1 < lines.length then lines.getD (i + 1) [] else []

/-- The number of leading empty lines of a line-list suffix. -/
def skipCount : List Str → Nat
  | [] => 0
  | l :: rest => if l.isEmpty then skipCount rest + 1 else 0

/-- `_Parser._skip_empty_lines`: first non-empty line index at or after `i`. -/
def skipEmptyLines (lines : List Str) (i : Nat) : Nat :=
  i + skipCount (lines.drop i)

/-- The bullet characters of `_bullet_line_pat`. -/
def bulletChars : List Char := ['*', '•', '‣', '⁃']

/-- `_bullet_line_pat` (`^[*•‣⁃] (\S.*)`): group 1 on a match. -/
def bulletLineMatch (l : Str) : Option Str :=
  match l with
  | c :: ' ' :: d :: rest =>
    if c ∈ bulletChars && ¬ isSpaceC d then some (d :: rest) else none
  | _ => none

/-- `_ul_cont_pat` (`^  .`). -/
def ulContMatch (l : Str) : Bool :=
  match l with
  | ' ' :: ' ' :: _ :: _ => true
  | _ => false

/-- The ordered-list item start `^((?: *\d+)?\. |[a-z]\) )(\S.*)`:
the marker length and group 2 on a match. -/
def olItemStart (l : Str) : Option (Nat × Str) :=
  let spaces := l.takeWhile (fun c => c = ' ')
  let afterSp := l.drop spaces.length
  let digits := afterSp.takeWhile (fun c => c.isDigit)
  let afterDg := afterSp.drop digits.length
  let tryDigits : Option (Nat × Str) :=
    if ¬ digits.isEmpty then
      match afterDg with
      | '.' :: ' ' :: d :: rest =>
        if ¬ isSpaceC d then some (spaces.length + digits.length + 2, d :: rest) else none
      | _ => none
    else none
  match tryDigits with
  | some r => some r
  | none =>
    match l with
    | '.' :: ' ' :: d :: rest => if ¬ isSpaceC d then some (2, d :: rest) else none
    | c :: ')' :: ' ' :: d :: rest =>
      if ('a' ≤ c && c ≤ 'z') && ¬ isSpaceC d then some (3, d :: rest) else none
    | _ => none

/-- The per-item ordered continuation pattern (`^{" " * prefix_len}.`). -/
def olContMatch (pfxLen : Nat) (l : Str) : Bool :=
  (indentStr pfxLen).isPrefixOf l && pfxLen < l.length

/-- `_dt_pat` (`^(\S.*):$`): group 1 on a match. -/
def dtMatch (l : Str) : Option Str :=
  match l with
  | c :: _ :: _ =>
    if ¬ isSpaceC c && l.getLast? = some ':' then some l.dropLast else none
  | _ => none

/-- One split attempt of `_single_line_dt_pat` at term length `k`. -/
def dcolonSplitAt (l : Str) (k : Nat) : Option (Str × Str) :=
  match l.drop k with
  | ':' :: ':' :: ' ' :: d :: rest =>
    if ¬ isSpaceC d then some (l.take k, d :: rest) else none
  | _ => none

/-- Greedy search of `_single_line_dt_pat`: largest term length first. -/
def dcolonSplitDown (l : Str) (k : Nat) : Option (Str × Str) :=
  match k with
  | 0 => none
  | k' + 1 =>
    match dcolonSplitAt l (k' + 1) with
    | some r => some r
    | none => dcolonSplitDown l k'

/-- `_single_line_dt_pat` (`^(\S.*):: (\S.*)`): groups 1 and 2 on a
match; the greedy `.*` picks the last `:: ` split with non-space content
after it. -/
def singleLineDtMatch (l : Str) : Option (Str × Str) :=
  match l with
  | c :: _ => if ¬ isSpaceC c then dcolonSplitDown l l.length else none
  | [] => none

/-- `^    .` (`_indented_content_pat`). -/
def indentedContentMatch (l : Str) : Bool :=
  match l with
  | ' ' :: ' ' :: ' ' :: ' ' :: _ :: _ => true
  | _ => false

/-- `^    \S`. -/
def indented4SMatch (l : Str) : Bool :=
  match l with
  | ' ' :: ' ' :: ' ' :: ' ' :: d :: _ => ¬ isSpaceC d
  | _ => false

/-- `^{prefix} (\S.*)` of `_try_parse_heading`: group 1 on a match. -/
def headingTextMatch (pfx : Str) (l : Str) : Option Str :=
  if (pfx ++ [' ']).isPrefixOf l then
    match l.drop (pfx.length + 1) with
    | d :: rest => if ¬ isSpaceC d then some (d :: rest) else none
    | [] => none
  else none

/-- `^{underscore_ch}+\s*$` of `_try_parse_heading`. -/
def underlineMatch (uch : Char) (l : Str) : Bool :=
  let run := l.takeWhile (fun c => c = uch)
  ¬ run.isEmpty && (l.drop run.length).all isSpaceC

/-- `^\. \S.*` (the paragraph-ending ordered-item shape). -/
def dotStartMatch (l : Str) : Bool :=
  match l with
  | '.' :: ' ' :: d :: _ => ¬ isSpaceC d
  | _ => false

/-- `'***'` or `^┄{3,}$` of `_try_parse_hr`. -/
def hrMatch (l : Str) : Bool :=
  l = strL ("***") || (3 ≤ l.length && l.all (fun c => c = '┄'))

/-- The box-drawing character set of `_verbatim_line_pat`. -/
def verbChars : List Char :=
  ['│', '┃', '┆', '┇', '┊', '┋', '┌', '┍', '┎', '┏', '└', '┕', '┖', '┗',
   '├', '┝', '┞', '┟', '┠', '┡', '┢', '┣', '╎', '╏', '║', '╒', '╓', '╔',
   '╘', '╙', '╚', '╞', '╟', '╠', '╽', '╿']

/-- `_verbatim_line_pat` (`^(?: *\[\d+\]: [hf]|[│┃…╿]).+`). -/
def verbatimLineMatch (l : Str) : Bool :=
  let linkBranch :=
    let sp := l.takeWhile (fun c => c = ' ')
    match l.drop sp.length with
    | '[' :: r2 =>
      let ds := r2.takeWhile Char.isDigit
      ¬ ds.isEmpty &&
        (match r2.drop ds.length with
         | ']' :: ':' :: ' ' :: c :: _ :: _ => c = 'h' || c = 'f'
         | _ => false)
    | _ => false
  let boxBranch :=
    match l with
    | c :: _ :: _ => c ∈ verbChars
    | _ => false
  linkBranch || boxBranch

/-- The admonition tags. -/
def admonTags : List Str :=
  [strL ("CAUTION"), strL ("IMPORTANT"), strL ("NOTE"), strL ("TIP"), strL ("WARNING")]

/-- `^│ (?:CAUTION|IMPORTANT|NOTE|TIP|WARNING): ` as a prefix match. -/
def admonTagMatch (l : Str) : Bool :=
  admonTags.any (fun t => ('│' :: ' ' :: (t ++ [':', ' '])).isPrefixOf l)

/-- `^│?\s*$`. -/
def admonBlankMatch (l : Str) : Bool :=
  match l with
  | '│' :: r => r.all isSpaceC
  | _ => l.all isSpaceC

/-- `[│ ] ([^│]*)` anchored at the start: group 1 on a match. -/
def admonContentMatch (l : Str) : Option Str :=
  match l with
  | a :: ' ' :: rest =>
    if a = '│' || a = ' ' then some (rest.takeWhile (fun c => c ≠ '│')) else none
  | _ => none

/-- `_Parser._unindent_lines`. -/
def unindentLines (count : Nat) (lines : List Str) : List Str :=
  lines.map (fun l => if (indentStr count).isPrefixOf l then l.drop count else l)

/-! ## Parser cursor collectors (the per-rule `while` loops)

Each collector walks the cursor from line index `i` and returns the
collected content lines together with the number of input lines it
consumed. -/

/-- The shared `while` loop shape of `_try_parse_ul_item`,
`_try_parse_ol_item`, `_try_parse_dl_item` (definition body) and
`_try_parse_pre_indented`, walking the remaining line suffix: keep empty
lines as empty content lines, keep lines matching `pred`, stop at the
first other line.  Returns the collected lines and the consumed count. -/
def collectContLines (pred : Str → Bool) : List Str → List Str × Nat
  | [] => ([], 0)
  | cur :: rest =>
    if cur.isEmpty then
      let (ls, n) := collectContLines pred rest
      ([] :: ls, n + 1)
    else if pred cur then
      let (ls, n) := collectContLines pred rest
      (cur :: ls, n + 1)
    else ([], 0)

/-- The scan loop of `_try_parse_delim_block` after the opening
delimiter: content lines up to (and consuming) the closing delimiter or
the end of input. -/
def collectDelimLines (delim : Str) : List Str → List Str × Nat
  | [] => ([], 0)
  | cur :: rest =>
    if cur = delim then ([], 1)
    else
      let (ls, n) := collectDelimLines delim rest
      (cur :: ls, n + 1)

/-- The loop of `_try_parse_blockquote_prefixed`. -/
def collectBqLines : List Str → List Str × Nat
  | [] => ([], 0)
  | cur :: rest =>
    if cur = ['>'] then
      let (ls, n) := collectBqLines rest
      ([] :: ls, n + 1)
    else if ('>' :: [' ']).isPrefixOf cur then
      let (ls, n) := collectBqLines rest
      (cur.drop 2 :: ls, n + 1)
    else ([], 0)

/-- The loop of `_try_parse_verbatim`. -/
def collectVerbatimLines : List Str → List Str × Nat
  | [] => ([], 0)
  | cur :: rest =>
    if verbatimLineMatch cur then
      let (ls, n) := collectVerbatimLines rest
      (cur :: ls, n + 1)
    else ([], 0)

/-- The loop of `_try_parse_p`: consume lines until a blank line, a
bullet-list start, or a `'. '` ordered start. -/
def collectPLines : List Str → List Str × Nat
  | [] => ([], 0)
  | cur :: rest =>
    if cur.isEmpty || (bulletLineMatch cur).isSome || dotStartMatch cur then ([], 0)
    else
      let (ls, n) := collectPLines rest
      (cur :: ls, n + 1)

/-- The term loop of `_try_parse_dl_item`. -/
def collectDlTerms : List Str → List Str × Nat
  | [] => ([], 0)
  | cur :: rest =>
    match dtMatch cur with
    | some t =>
      let (ts, n) := collectDlTerms rest
      (t :: ts, n + 1)
    | none => ([], 0)

/-- The interior loop of `_try_parse_admon_box` (after the `┌` line):
stops at (and consumes) a `└` line, keeps blanks, unwraps `│ ` content
lines, silently drops non-matching lines. -/
def collectAdmonLines : List Str → List Str × Nat
  | [] => ([], 0)
  | cur :: rest =>
    if cur.head? = some '└' then ([], 1)
    else if admonBlankMatch cur then
      let (ls, n) := collectAdmonLines rest
      ([] :: ls, n + 1)
    else
      match admonContentMatch cur with
      | some g =>
        let (ls, n) := collectAdmonLines rest
        (rstripL g :: ls, n + 1)
      | none =>
        let (ls, n) := collectAdmonLines rest
        (ls, n + 1)

/-! ## Parser rules without sub-parsing -/

/-- `_try_parse_heading`, generic over the element constructor, the
prefix and the underline character. -/
def tryParseHeadingG (mk : Str → Elem) (pfx : Str) (uch : Char)
    (lines : List Str) (i : Nat) : Option (Elem × Nat) :=
  match headingTextMatch pfx (curLine lines i) with
  | some g =>
    if (nextLine lines i).isEmpty then some (mk g, i + 1)
    else if underlineMatch uch (nextLine lines i) then some (mk (curLine lines i), i + 2)
    else none
  | none =>
    if underlineMatch uch (nextLine lines i) then some (mk (curLine lines i), i + 2)
    else none

/-- `_try_parse_h1`. -/
def tryParseH1 (lines : List Str) (i : Nat) : Option (Elem × Nat) :=
  tryParseHeadingG Elem.h1 ['='] '━' lines i

/-- `_try_parse_h2`. -/
def tryParseH2 (lines : List Str) (i : Nat) : Option (Elem × Nat) :=
  tryParseHeadingG Elem.h2 ['=', '='] '─' lines i

/-- `_try_parse_pre_indented`. -/
def tryParsePreIndented (lines : List Str) (i : Nat) : Res (Option (Elem × Nat)) :=
  if ¬ indented4SMatch (curLine lines i) then .ok none
  else
    let (ls, n) := collectContLines indentedContentMatch (lines.drop i)
    match removeTrailingEmptyLines ls with
    | none => .fail
    | some ls2 => .ok (some (.pre (unindentLines 4 ls2), i + n))

/-- `_try_parse_delim_block`: the content lines of a block delimited
with `delim`, or `none` when the rule does not match; `fail` models the
trailing-blank-trim assertion on an empty content list. -/
def tryParseDelimBlock (delim : Str) (lines : List Str) (i : Nat) :
    Res (Option (List Str × Nat)) :=
  if curLine lines i ≠ delim then .ok none
  else
    let (ls, n) := collectDelimLines delim (lines.drop (i + 1))
    match removeTrailingEmptyLines ls with
    | none => .fail
    | some ls2 => .ok (some (ls2, i + 1 + n))

/-- `_try_parse_pre_delim`. -/
def tryParsePreDelim (lines : List Str) (i : Nat) : Res (Option (Elem × Nat)) :=
  match tryParseDelimBlock (strL ("```")) lines i with
  | .ok none => .ok none
  | .ok (some (ls, k)) => .ok (some (.pre ls, k))
  | .fail => .fail
  | .gas => .gas

/-- `_try_parse_hr`. -/
def tryParseHr (lines : List Str) (i : Nat) : Option (Elem × Nat) :=
  if hrMatch (curLine lines i) then some (.hr, i + 1) else none

/-- `_try_parse_verbatim`. -/
def tryParseVerbatim (lines : List Str) (i : Nat) : Option (Elem × Nat) :=
  let (ls, n) := collectVerbatimLines (lines.drop i)
  if ls.isEmpty then none else some (.verbatim ls, i + n)

/-- `_try_parse_p`. -/
def tryParseP (lines : List Str) (i : Nat) : Option (Elem × Nat) :=
  let (ls, n) := collectPLines (lines.drop i)
  if ls.isEmpty then none else some (pElemFromText (joinSpace ls), i + n)

/-! ## The fueled recursive-descent parser (`_Parser._parse` and the
rules that re-parse sub-blocks)

Every function consumes one fuel unit per call and hands the rest down,
so the recursion is structural on fuel; the fuel-sufficiency theorem for
claim C10 shows a fuel linear in the input size never runs out. -/

mutual

/-- `_Parser.__init__` / `_Parser._parse`: parse raw lines into elements. -/
def parse (fuel : Nat) (lines : List Str) : Res (List Elem) :=
  match fuel with
  | 0 => .gas
  | f + 1 => parseLoop f lines 0 []

termination_by structural fuel
/-- The `while` loop of `_Parser._parse`: skip blanks, try the rules in
priority order, append the produced element.  When no rule matches the
source loop retries forever at the same cursor, which the fueled model
renders as eventual fuel exhaustion. -/
def parseLoop (fuel : Nat) (lines : List Str) (i : Nat) (acc : List Elem) :
    Res (List Elem) :=
  match fuel with
  | 0 => .gas
  | f + 1 =>
    if skipEmptyLines lines i < lines.length then
      match tryFuncs f lines (skipEmptyLines lines i) with
      | .ok (some (e, k)) => parseLoop f lines k (acc ++ [e])
      | .ok none => parseLoop f lines (skipEmptyLines lines i) acc
      | .fail => .fail
      | .gas => .gas
    else .ok acc

termination_by structural fuel
/-- The ordered rule chain (`funcs`) of `_Parser._parse`: first success
wins; a rule that does not match leaves the cursor untouched. -/
def tryFuncs (fuel : Nat) (lines : List Str) (i : Nat) : Res (Option (Elem × Nat)) :=
  match fuel with
  | 0 => .gas
  | f + 1 =>
    match tryParseH1 lines i with
    | some r => .ok (some r)
    | none =>
    match tryParseH2 lines i with
    | some r => .ok (some r)
    | none =>
    match tryParseUl f lines i with
    | .fail => .fail
    | .gas => .gas
    | .ok (some r) => .ok (some r)
    | .ok none =>
    match tryParseOl f lines i with
    | .fail => .fail
    | .gas => .gas
    | .ok (some r) => .ok (some r)
    | .ok none =>
    match tryParseDl f lines i with
    | .fail => .fail
    | .gas => .gas
    | .ok (some r) => .ok (some r)
    | .ok none =>
    match tryParsePreDelim lines i with
    | .fail => .fail
    | .gas => .gas
    | .ok (some r) => .ok (some r)
    | .ok none =>
    match tryParsePreIndented lines i with
    | .fail => .fail
    | .gas => .gas
    | .ok (some r) => .ok (some r)
    | .ok none =>
    match tryParseHr lines i with
    | some r => .ok (some r)
    | none =>
    match tryParseBqDelim f lines i with
    | .fail => .fail
    | .gas => .gas
    | .ok (some r) => .ok (some r)
    | .ok none =>
    match tryParseBqPrefixed f lines i with
    | .fail => .fail
    | .gas => .gas
    | .ok (some r) => .ok (some r)
    | .ok none =>
    match tryParseAdmonDelim f lines i with
    | .fail => .fail
    | .gas => .gas
    | .ok (some r) => .ok (some r)
    | .ok none =>
    match tryParseAdmonBoxRule f lines i with
    | .fail => .fail
    | .gas => .gas
    | .ok (some r) => .ok (some r)
    | .ok none =>
    match tryParseVerbatim lines i with
    | some r => .ok (some r)
    | none =>
    match tryParseP lines i with
    | some r => .ok (some r)
    | none => .ok none

termination_by structural fuel
/-- `_try_parse_ul_item`. -/
def tryParseUlItem (fuel : Nat) (lines : List Str) (i : Nat) :
    Res (Option (List Elem × Nat)) :=
  match fuel with
  | 0 => .gas
  | f + 1 =>
    match bulletLineMatch (curLine lines i) with
    | none => .ok none
    | some g1 =>
      let (cont, n) := collectContLines ulContMatch (lines.drop (i + 1))
      match removeTrailingEmptyLines (g1 :: cont) with
      | none => .fail
      | some ls =>
        match parse f (unindentLines 2 ls) with
        | .ok elems => .ok (some (elems, i + 1 + n))
        | .fail => .fail
        | .gas => .gas

termination_by structural fuel
/-- `_try_parse_ol_item`. -/
def tryParseOlItem (fuel : Nat) (lines : List Str) (i : Nat) :
    Res (Option (List Elem × Nat)) :=
  match fuel with
  | 0 => .gas
  | f + 1 =>
    match olItemStart (curLine lines i) with
    | none => .ok none
    | some (pfxLen, g2) =>
      let (cont, n) := collectContLines (olContMatch pfxLen) (lines.drop (i + 1))
      match removeTrailingEmptyLines (g2 :: cont) with
      | none => .fail
      | some ls =>
        match parse f (unindentLines pfxLen ls) with
        | .ok elems => .ok (some (elems, i + 1 + n))
        | .fail => .fail
        | .gas => .gas

termination_by structural fuel
/-- The item loop of `_try_parse_simple_list` (for `isOl = true` with
`_try_parse_ol_item`, else with `_try_parse_ul_item`): skip blank lines,
collect consecutive items. -/
def simpleListItems (fuel : Nat) (isOl : Bool) (lines : List Str) (i : Nat) :
    Res (List (List Elem) × Nat) :=
  match fuel with
  | 0 => .gas
  | f + 1 =>
    if skipEmptyLines lines i < lines.length then
      match (if isOl then tryParseOlItem f lines (skipEmptyLines lines i)
             else tryParseUlItem f lines (skipEmptyLines lines i)) with
      | .ok none => .ok ([], skipEmptyLines lines i)
      | .ok (some (it, k)) =>
        match simpleListItems f isOl lines k with
        | .ok (rest, e) => .ok (it :: rest, e)
        | .fail => .fail
        | .gas => .gas
      | .fail => .fail
      | .gas => .gas
    else .ok ([], skipEmptyLines lines i)

termination_by structural fuel
/-- `_try_parse_ul`. -/
def tryParseUl (fuel : Nat) (lines : List Str) (i : Nat) : Res (Option (Elem × Nat)) :=
  match fuel with
  | 0 => .gas
  | f + 1 =>
    match simpleListItems f false lines i with
    | .ok (items, e) => if items.isEmpty then .ok none else .ok (some (.ul items, e))
    | .fail => .fail
    | .gas => .gas

termination_by structural fuel
/-- `_try_parse_ol`. -/
def tryParseOl (fuel : Nat) (lines : List Str) (i : Nat) : Res (Option (Elem × Nat)) :=
  match fuel with
  | 0 => .gas
  | f + 1 =>
    match simpleListItems f true lines i with
    | .ok (items, e) => if items.isEmpty then .ok none else .ok (some (.ol items, e))
    | .fail => .fail
    | .gas => .gas

termination_by structural fuel
/-- `_try_parse_dl_item` (including `_try_parse_single_line_dl_item`). -/
def tryParseDlItem (fuel : Nat) (lines : List Str) (i : Nat) :
    Res (Option ((List Str × List Elem) × Nat)) :=
  match fuel with
  | 0 => .gas
  | f + 1 =>
    match singleLineDtMatch (curLine lines i) with
    | some (t, d) =>
      match parse f [d] with
      | .ok elems => .ok (some (([t], elems), i + 1))
      | .fail => .fail
      | .gas => .gas
    | none =>
      match collectDlTerms (lines.drop i) with
      | (terms, n) =>
        if terms.isEmpty then .ok none
        else if i + n < lines.length ∧ indented4SMatch (curLine lines (i + n)) then
          match collectContLines indentedContentMatch (lines.drop (i + n)) with
          | (defLs, m) =>
            match removeTrailingEmptyLines defLs with
            | none => .fail
            | some ls =>
              match parse f (unindentLines 4 ls) with
              | .ok elems => .ok (some ((terms, elems), i + n + m))
              | .fail => .fail
              | .gas => .gas
        else .ok none

termination_by structural fuel
/-- The item loop of `_try_parse_dl`. -/
def dlItems (fuel : Nat) (lines : List Str) (i : Nat) :
    Res (List (List Str × List Elem) × Nat) :=
  match fuel with
  | 0 => .gas
  | f + 1 =>
    if skipEmptyLines lines i < lines.length then
      match tryParseDlItem f lines (skipEmptyLines lines i) with
      | .ok none => .ok ([], skipEmptyLines lines i)
      | .ok (some (it, k)) =>
        match dlItems f lines k with
        | .ok (rest, e) => .ok (it :: rest, e)
        | .fail => .fail
        | .gas => .gas
      | .fail => .fail
      | .gas => .gas
    else .ok ([], skipEmptyLines lines i)

termination_by structural fuel
/-- `_try_parse_dl`. -/
def tryParseDl (fuel : Nat) (lines : List Str) (i : Nat) : Res (Option (Elem × Nat)) :=
  match fuel with
  | 0 => .gas
  | f + 1 =>
    match dlItems f lines i with
    | .ok (items, e) => if items.isEmpty then .ok none else .ok (some (.dl items, e))
    | .fail => .fail
    | .gas => .gas

termination_by structural fuel
/-- `_try_parse_blockquote_delim`. -/
def tryParseBqDelim (fuel : Nat) (lines : List Str) (i : Nat) : Res (Option (Elem × Nat)) :=
  match fuel with
  | 0 => .gas
  | f + 1 =>
    match tryParseDelimBlock (strL (">>>")) lines i with
    | .ok none => .ok none
    | .ok (some (ls, k)) =>
      match parse f ls with
      | .ok es => .ok (some (.blockquote es, k))
      | .fail => .fail
      | .gas => .gas
    | .fail => .fail
    | .gas => .gas

termination_by structural fuel
/-- `_try_parse_blockquote_prefixed`. -/
def tryParseBqPrefixed (fuel : Nat) (lines : List Str) (i : Nat) : Res (Option (Elem × Nat)) :=
  match fuel with
  | 0 => .gas
  | f + 1 =>
    let (ls, n) := collectBqLines (lines.drop i)
    if ls.isEmpty then .ok none
    else
      match parse f ls with
      | .ok es => .ok (some (.blockquote es, i + n))
      | .fail => .fail
      | .gas => .gas

termination_by structural fuel
/-- `_try_parse_admon_box_delim`. -/
def tryParseAdmonDelim (fuel : Nat) (lines : List Str) (i : Nat) : Res (Option (Elem × Nat)) :=
  match fuel with
  | 0 => .gas
  | f + 1 =>
    match tryParseDelimBlock (strL ("!!!")) lines i with
    | .ok none => .ok none
    | .ok (some (ls, k)) =>
      match parse f ls with
      | .ok es => .ok (some (.admonBox es, k))
      | .fail => .fail
      | .gas => .gas
    | .fail => .fail
    | .gas => .gas

termination_by structural fuel
/-- `_try_parse_admon_box`. -/
def tryParseAdmonBoxRule (fuel : Nat) (lines : List Str) (i : Nat) : Res (Option (Elem × Nat)) :=
  match fuel with
  | 0 => .gas
  | f + 1 =>
    if (curLine lines i).head? = some '┌' then
      if admonTagMatch (nextLine lines i) then
        let (ls, n) := collectAdmonLines (lines.drop (i + 1))
        match parse f ls with
        | .ok es => .ok (some (.admonBox es, i + 1 + n))
        | .fail => .fail
        | .gas => .gas
      else .ok none
    else .ok none

termination_by structural fuel
end

/-! ## Formatter (`_Formatter`)

The constructor parameters `max_line_len`, `cur_ul_level`, `cur_ol_level`
are threaded as explicit `Int` arguments (`max_line_len - indent` can go
negative in the source, and the levels start at `-1`). -/

/-- `_Formatter._p_line_list_len`: total length of a token group. -/
def pLineListLen (lst : List Str) : Nat := (lst.map List.length).sum

/-- The wrapping loop of `_p_lines`: `cur` is the growing last line,
`done` the finished lines in reverse order. -/
def wrapAux (maxLen : Int) (cur : List Str) (done : List (List Str)) :
    List Str → List (List Str)
  | [] => (cur :: done).reverse
  | w :: rest =>
    let ta := w ++ [' ']
    if cur.isEmpty then wrapAux maxLen (cur ++ [ta]) done rest
    else if (pLineListLen cur : Int) + (w.length : Int) > maxLen then
      wrapAux maxLen [ta] (cur :: done) rest
    else wrapAux maxLen (cur ++ [ta]) done rest

/-- The greedy word wrap of `_p_lines`, starting from the single empty
line `[[]]`. -/
def wrapWords (maxLen : Int) (ws : List Str) : List (List Str) :=
  wrapAux maxLen [] [] ws

/-- The runt correction of `_p_lines`: when there are at least two lines
and the last holds a single token that fits after the previous line's
last token, merge the two tokens into the last line. -/
def runtFix (maxLen : Int) (lines : List (List Str)) : List (List Str) :=
  match lines.reverse with
  | [w] :: prev :: rest =>
    match prev.reverse with
    | pt :: prevR =>
      if (pt.length : Int) + (w.length : Int) - 1 ≤ maxLen then
        ([pt, w] :: prevR.reverse :: rest).reverse
      else lines
    | [] => lines
  | _ => lines

/-- `_Formatter._p_lines`: wrap, runt-correct, join the token groups,
trim trailing blanks (`none` models the assertion failure on a paragraph
that produces only empty lines), append the separator blank. -/
def pLines (maxLen : Int) (words : List Str) : Option (List Str) :=
  match removeTrailingEmptyLines ((runtFix maxLen (wrapWords maxLen words)).map List.flatten) with
  | none => none
  | some r => some (r ++ [[]])

/-- `_Formatter._compact_list` for a list of `nItems` items. -/
def compactList (nItems : Nat) (lines : List Str) : List Str :=
  if lines.length = 2 * nItems then
    (lines.filter (fun l => 1 ≤ (stripL l).length)) ++ [[]]
  else lines

/-- The bullet glyph (`['•', '‣', '⁃'][self._cur_ul_level % 3]`). -/
def bulletForLevel (ul : Int) : Char := (['•', '‣', '⁃']).getD (ul % 3).toNat '•'

/-- `_Formatter._make_ol_item_num` for a list of `n` items at ordered
level `ol`. -/
def makeOlItemNum (ol : Int) (n : Nat) (idx : Nat) : Str :=
  if ol % 2 = 0 then
    padLeftNum (natRepr (n - 1)).length (natRepr (idx + 1)) ++ ['.']
  else [Char.ofNat ('a'.toNat + idx % 26), ')']

/-- `_Formatter._pre_lines`. -/
def preLines (lines : List Str) : List Str :=
  lines.map (fun l => indentStr 4 ++ l) ++ [[]]

/-- `_Formatter._hr_lines`. -/
def hrLines (maxLen : Int) : List Str := [List.replicate maxLen.toNat '┄', []]

/-- `_Formatter._heading_lines`. -/
def headingLines (text : Str) (uch : Char) : List Str :=
  [text, List.replicate text.length uch]

/-- The indenting loop of `_format_elems_indented`: prefix every
non-empty line with `indentLen` spaces. -/
def indentNonEmpty (indentLen : Nat) (ls : List Str) : List Str :=
  ls.map (fun l => if 1 ≤ l.length then indentStr indentLen ++ l else l)

/-- The box-drawing part of `_admon_box_lines` around already formatted
content lines. -/
def admonBoxRender (contentLines : List Str) : List Str :=
  let longest := (contentLines.map List.length).foldl Nat.max 0
  let top := '┌' :: '─' :: (List.replicate longest '─' ++ ['─', '┐'])
  let bottom := '└' :: '─' :: (List.replicate longest '─' ++ ['─', '┘'])
  let body := contentLines.map (fun l => '│' :: ' ' :: (ljustL longest l ++ [' ', '│']))
  (top :: body) ++ [bottom, []]

mutual

/-- `_Formatter._elems_lines` (the `_format_elems` entry): concatenate
per-element lines, right-strip every line, trim trailing blank lines
(`fail` on an empty result, like the source assertion). -/
def formatElems (fuel : Nat) (maxLen ul ol : Int) (elems : List Elem) : Res (List Str) :=
  match fuel with
  | 0 => .gas
  | f + 1 =>
    match elemsConcat f maxLen ul ol elems with
    | .ok ls =>
      match removeTrailingEmptyLines (ls.map rstripL) with
      | none => .fail
      | some r => .ok r
    | .fail => .fail
    | .gas => .gas

termination_by structural fuel
/-- The per-element concatenation loop of `_elems_lines`. -/
def elemsConcat (fuel : Nat) (maxLen ul ol : Int) (elems : List Elem) : Res (List Str) :=
  match fuel with
  | 0 => .gas
  | f + 1 =>
    match elems with
    | [] => .ok []
    | e :: rest =>
      match elemLines f maxLen ul ol e with
      | .ok l1 =>
        match elemsConcat f maxLen ul ol rest with
        | .ok l2 => .ok (l1 ++ l2)
        | .fail => .fail
        | .gas => .gas
      | .fail => .fail
      | .gas => .gas

termination_by structural fuel
/-- `_Formatter._elem_lines`: dispatch on the element variant. -/
def elemLines (fuel : Nat) (maxLen ul ol : Int) (e : Elem) : Res (List Str) :=
  match fuel with
  | 0 => .gas
  | f + 1 =>
    match e with
    | .p ws =>
      match pLines maxLen ws with
      | none => .fail
      | some r => .ok r
    | .ul items =>
      match ulItemsLines f maxLen (ul + 1) ol items with
      | .ok ls => .ok (compactList items.length ls)
      | .fail => .fail
      | .gas => .gas
    | .ol items =>
      match olItemsLines f maxLen ul (ol + 1) items.length 0 items with
      | .ok ls => .ok (compactList items.length ls)
      | .fail => .fail
      | .gas => .gas
    | .dl items => dlItemsLines f maxLen ul ol items
    | .pre ls => .ok (preLines ls)
    | .h1 t => .ok (headingLines (t.map Char.toUpper) '━')
    | .h2 t => .ok (headingLines t '─')
    | .hr => .ok (hrLines maxLen)
    | .blockquote es => bqLines f maxLen ul ol es
    | .admonBox es => admonLines f maxLen ul ol es
    | .verbatim ls => .ok ls

termination_by structural fuel
/-- `_Formatter._format_elems_indented`. -/
def indentedElemsLines (fuel : Nat) (maxLen ul ol : Int) (elems : List Elem)
    (indentLen : Nat) : Res (List Str) :=
  match fuel with
  | 0 => .gas
  | f + 1 =>
    match formatElems f (maxLen - indentLen) ul ol elems with
    | .ok ls => .ok (indentNonEmpty indentLen ls)
    | .fail => .fail
    | .gas => .gas

termination_by structural fuel
/-- `_Formatter._ul_item_lines` (at the already incremented level `ul`). -/
def ulItemLines (fuel : Nat) (maxLen ul ol : Int) (item : List Elem) : Res (List Str) :=
  match fuel with
  | 0 => .gas
  | f + 1 =>
    match indentedElemsLines f maxLen ul ol item 2 with
    | .ok [] => .fail
    | .ok (l0 :: rest) =>
      match removeTrailingEmptyLines ((bulletForLevel ul :: ' ' :: l0.drop 2) :: rest) with
      | none => .fail
      | some r => .ok (r ++ [[]])
    | .fail => .fail
    | .gas => .gas

termination_by structural fuel
/-- The item loop of `_ul_lines`. -/
def ulItemsLines (fuel : Nat) (maxLen ul ol : Int) (items : List (List Elem)) :
    Res (List Str) :=
  match fuel with
  | 0 => .gas
  | f + 1 =>
    match items with
    | [] => .ok []
    | it :: rest =>
      match ulItemLines f maxLen ul ol it with
      | .ok l1 =>
        match ulItemsLines f maxLen ul ol rest with
        | .ok l2 => .ok (l1 ++ l2)
        | .fail => .fail
        | .gas => .gas
      | .fail => .fail
      | .gas => .gas

termination_by structural fuel
/-- `_Formatter._ol_item_lines` (at the already incremented level `ol`,
for a list of `n` items, item index `idx`). -/
def olItemLines (fuel : Nat) (maxLen ul ol : Int) (n idx : Nat) (item : List Elem) :
    Res (List Str) :=
  match fuel with
  | 0 => .gas
  | f + 1 =>
    match indentedElemsLines f maxLen ul ol item ((makeOlItemNum ol n idx).length + 1) with
    | .ok [] => .fail
    | .ok (l0 :: rest) =>
      match removeTrailingEmptyLines
          ((makeOlItemNum ol n idx ++ ' ' :: l0.drop ((makeOlItemNum ol n idx).length + 1)) :: rest) with
      | none => .fail
      | some r => .ok (r ++ [[]])
    | .fail => .fail
    | .gas => .gas

termination_by structural fuel
/-- The item loop of `_ol_lines`. -/
def olItemsLines (fuel : Nat) (maxLen ul ol : Int) (n idx : Nat)
    (items : List (List Elem)) : Res (List Str) :=
  match fuel with
  | 0 => .gas
  | f + 1 =>
    match items with
    | [] => .ok []
    | it :: rest =>
      match olItemLines f maxLen ul ol n idx it with
      | .ok l1 =>
        match olItemsLines f maxLen ul ol n (idx + 1) rest with
        | .ok l2 => .ok (l1 ++ l2)
        | .fail => .fail
        | .gas => .gas
      | .fail => .fail
      | .gas => .gas

termination_by structural fuel
/-- `_Formatter._dl_item_lines`. -/
def dlItemLines (fuel : Nat) (maxLen ul ol : Int) (item : List Str × List Elem) :
    Res (List Str) :=
  match fuel with
  | 0 => .gas
  | f + 1 =>
    match indentedElemsLines f maxLen ul ol item.2 4 with
    | .ok body =>
      match removeTrailingEmptyLines (item.1.map (fun t => t ++ [':']) ++ body) with
      | none => .fail
      | some r => .ok (r ++ [[]])
    | .fail => .fail
    | .gas => .gas

termination_by structural fuel
/-- The item loop of `_dl_lines`. -/
def dlItemsLines (fuel : Nat) (maxLen ul ol : Int) (items : List (List Str × List Elem)) :
    Res (List Str) :=
  match fuel with
  | 0 => .gas
  | f + 1 =>
    match items with
    | [] => .ok []
    | it :: rest =>
      match dlItemLines f maxLen ul ol it with
      | .ok l1 =>
        match dlItemsLines f maxLen ul ol rest with
        | .ok l2 => .ok (l1 ++ l2)
        | .fail => .fail
        | .gas => .gas
      | .fail => .fail
      | .gas => .gas

termination_by structural fuel
/-- `_Formatter._blockquote_lines`. -/
def bqLines (fuel : Nat) (maxLen ul ol : Int) (elems : List Elem) : Res (List Str) :=
  match fuel with
  | 0 => .gas
  | f + 1 =>
    match indentedElemsLines f maxLen ul ol elems 2 with
    | .ok ls =>
      match removeTrailingEmptyLines ls with
      | none => .fail
      | some r => .ok ((r.map (fun l => '>' :: ' ' :: l.drop 2)) ++ [[]])
    | .fail => .fail
    | .gas => .gas

termination_by structural fuel
/-- `_Formatter._admon_box_lines`. -/
def admonLines (fuel : Nat) (maxLen ul ol : Int) (elems : List Elem) : Res (List Str) :=
  match fuel with
  | 0 => .gas
  | f + 1 =>
    match formatElems f (maxLen - 4) ul ol elems with
    | .ok [] => .fail
    | .ok (c :: cs) => .ok (admonBoxRender (c :: cs))
    | .fail => .fail
    | .gas => .gas

termination_by structural fuel
end

/-! ## Entry points -/

/-- `format(text, max_line_len)`: split into lines, parse, format, join. -/
def format (fuel : Nat) (text : Str) (maxLineLen : Int) : Res Str :=
  match parse fuel (splitLines text) with
  | .ok elems =>
    match formatElems fuel maxLineLen (-1) (-1) elems with
    | .ok ls => .ok (joinNl ls)
    | .fail => .fail
    | .gas => .gas
  | .fail => .fail
  | .gas => .gas

/-- The per-line pattern `\s*\* (.+)` of `format_c_block_comment`,
applied to an already stripped line: group 1 on a match. -/
def cBlockLineMatch (s : Str) : Option Str :=
  let sp := s.takeWhile isSpaceC
  match s.drop sp.length with
  | '*' :: ' ' :: c :: rest => some (c :: rest)
  | _ => none

/-- The content-extraction loop of `format_c_block_comment`: content
lines, or the first offending (stripped) line as the `ValueError`
payload. -/
def extractCContentLines : List Str → Except Str (List Str)
  | [] => .ok []
  | l :: rest =>
    let s := stripL l
    if s = strL ("/*") || s = strL ("*/") then extractCContentLines rest
    else if s = ['*'] then
      match extractCContentLines rest with
      | .ok r => .ok ([] :: r)
      | .error e => .error e
    else
      match cBlockLineMatch s with
      | some g =>
        match extractCContentLines rest with
        | .ok r => .ok (g :: r)
        | .error e => .error e
      | none => .error s

/-- `format_c_block_comment(comment, start_col, max_line_len)`:
`.ok (.error l)` is the `ValueError` identifying the offending line `l`;
the core engine runs only on successful extraction. -/
def formatCBlockComment (fuel : Nat) (comment : Str) (startCol maxLineLen : Int) :
    Res (Except Str Str) :=
  match extractCContentLines (splitLines comment) with
  | .error l => .ok (.error l)
  | .ok contentLines =>
    match parse fuel contentLines with
    | .ok elems =>
      match formatElems fuel (maxLineLen - startCol - 3) (-1) (-1) elems with
      | .ok ls =>
        .ok (.ok (joinNl ((strL ("/*")
          :: ls.map (fun r => rstripL (indentStr startCol.toNat ++ ' ' :: '*' :: ' ' :: r)))
          ++ [indentStr startCol.toNat ++ strL (" */")])))
      | .fail => .fail
      | .gas => .gas
    | .fail => .fail
    | .gas => .gas

/-! ## Predicates and measures used by the statements -/

/-- The malformed-envelope condition of `format_c_block_comment`: after
stripping, a line is neither `/*`, `*/`, `*`, nor a `\s*\* (.+)` match. -/
def cCommentBadLine (l : Str) : Bool :=
  let s := stripL l
  ¬ (s = strL ("/*") || s = strL ("*/") || s = ['*'] || (cBlockLineMatch s).isSome)

/-- The list non-emptiness invariant over the element tree: every
unordered list, ordered list and definition list holds at least one
item, recursively. -/
inductive ElemGood : Elem → Prop where
  | p (ws : List Str) : ElemGood (.p ws)
  | ul (items : List (List Elem)) (hne : items ≠ [])
      (hrec : ∀ it ∈ items, ∀ e ∈ it, ElemGood e) : ElemGood (.ul items)
  | ol (items : List (List Elem)) (hne : items ≠ [])
      (hrec : ∀ it ∈ items, ∀ e ∈ it, ElemGood e) : ElemGood (.ol items)
  | dl (items : List (List Str × List Elem)) (hne : items ≠ [])
      (hrec : ∀ it ∈ items, ∀ e ∈ it.2, ElemGood e) : ElemGood (.dl items)
  | pre (ls : List Str) : ElemGood (.pre ls)
  | h1 (t : Str) : ElemGood (.h1 t)
  | h2 (t : Str) : ElemGood (.h2 t)
  | hr : ElemGood .hr
  | blockquote (es : List Elem) (hrec : ∀ e ∈ es, ElemGood e) :
      ElemGood (.blockquote es)
  | admonBox (es : List Elem) (hrec : ∀ e ∈ es, ElemGood e) :
      ElemGood (.admonBox es)
  | verbatim (ls : List Str) : ElemGood (.verbatim ls)

/-- The size of a line list: total character count plus one per line. -/
def muL (ls : List Str) : Nat := (ls.map (fun l => l.length + 1)).sum

/-- A fuel amount sufficient for `parse` on `lines` (claim C10). -/
def parseFuelBound (lines : List Str) : Nat := 10 * muL lines + 10

/-! ## Theorems -/

theorem literalMatchCore_rest_lt (br t1 tok r : Str)
    (h : literalMatchCore br t1 = some (tok, r)) : r.length < t1.length := by
  unfold literalMatchCore at h
  match t1 with
  | [] => simp at h
  | c :: rest =>
    simp only at h
    by_cases hc : c = backtickC
    · rw [if_pos hc] at h
      match hr2 : rest.drop (rest.takeWhile (fun d => d ≠ backtickC)).length with
      | [] => rw [hr2] at h; simp at h
      | d :: rest3 =>
        rw [hr2] at h
        simp only [Option.some.injEq, Prod.mk.injEq] at h
        have h3 : rest3.length < rest.length := by
          have := congrArg List.length hr2
          simp only [List.length_drop, List.length_cons] at this
          omega
        rw [← h.2]
        simp only [List.length_drop, List.length_cons]
        omega
    · rw [if_neg hc] at h; exact absurd h (by simp)

theorem literalMatch_rest_lt (t tok r : Str) (h : literalMatch t = some (tok, r)) :
    r.length < t.length := by
  unfold literalMatch at h
  match t with
  | [] => simp at h
  | c :: rest =>
    simp only at h
    by_cases hc : c ∈ literalBrackets
    · rw [if_pos hc] at h
      have := literalMatchCore_rest_lt _ _ _ _ h
      simp only [List.length_cons]
      omega
    · rw [if_neg hc] at h
      exact literalMatchCore_rest_lt _ _ _ _ h

theorem wordScan_rest_lt (t : Str) (h : t ≠ []) : (wordScan t).2.length < t.length := by
  induction t with
  | nil => exact absurd rfl h
  | cons c rest ih =>
    unfold wordScan
    cases he : wordEndHere rest with
    | true => simp [he]
    | false =>
      simp only [he, Bool.false_eq_true, if_false]
      by_cases hr : rest = []
      · subst hr
        simp [wordEndHere] at he
      · have := ih hr
        simp only [List.length_cons]
        omega

/-! ## Decimal-representation lemmas -/

theorem natReprAux_length (n : Nat) : ∀ f : Nat, n < f →
    (natReprAux f n).length = Nat.log 10 n + 1 := by
  induction n using Nat.strong_induction_on with
  | _ n ih =>
    intro f hf
    match f with
    | 0 => omega
    | f' + 1 =>
      by_cases h10 : n < 10
      · have hlog : Nat.log 10 n = 0 := Nat.log_eq_zero_iff.mpr (Or.inl h10)
        simp [natReprAux, h10, hlog]
      · have hn0 : 0 < n := by omega
        have hdiv : n / 10 < n := Nat.div_lt_self hn0 (by omega)
        have hrec := ih (n / 10) hdiv f' (by omega)
        have hlog : Nat.log 10 (n / 10) = Nat.log 10 n - 1 := Nat.log_div_base 10 n
        have hpos : 0 < Nat.log 10 n := Nat.log_pos (by omega) (by omega)
        simp only [natReprAux, h10, if_false, List.length_cons, hrec]
        omega

theorem natRepr_length (n : Nat) : (natRepr n).length = Nat.log 10 n + 1 := by
  simp [natRepr, natReprAux_length n (n + 1) (Nat.lt_succ_self n)]

theorem natRepr_length_mono {a b : Nat} (h : a ≤ b) :
    (natRepr a).length ≤ (natRepr b).length := by
  rw [natRepr_length, natRepr_length]
  have := Nat.log_mono_right (b := 10) h
  omega

theorem padLeftNum_length (w : Nat) (s : Str) :
    (padLeftNum w s).length = max w s.length := by
  simp only [padLeftNum, List.length_append, List.length_replicate]
  omega

/-! ## Claim C1 -/

/-- C1: the claim states `format` never raises and the non-empty-line
precondition of `_remove_trailing_empty_lines` holds at every call site,
including for empty or all-blank input.  The code contradicts this:
for the empty text, a text of only blank lines, or a text of only
whitespace (whose paragraph receives zero tokens), the final
`_elems_lines` (resp. `_p_lines`) call hands the helper an empty line
list and the run fails. -/
theorem C1_format_fails_on_blank_input :
    format 100 (strL ("")) 72 = Res.fail ∧
    format 100 (strL ("\n\n")) 72 = Res.fail ∧
    format 100 (strL (" ")) 72 = Res.fail :=
  ⟨rfl, rfl, rfl⟩

/-! ## Claim C2 -/

/-- C2 counterexample: `format` is not idempotent.  The two-line
paragraph `"2.\nbar"` formats to the single line `"2. bar"`, which
re-parses as an ordered-list item and re-formats to `"1. bar"`, so
`format (format t) ≠ format t` at this `t`. -/
theorem C2_counterexample :
    format 100 (strL ("2.\nbar")) 72 = Res.ok (strL ("2. bar")) ∧
    format 100 (strL ("2. bar")) 72 = Res.ok (strL ("1. bar")) ∧
    strL ("1. bar") ≠ strL ("2. bar") :=
  ⟨rfl, rfl, by decide⟩

/-- C2 (amended): the formatted output is a fixed point of `format`
whenever re-parsing the formatted text yields the same element sequence
as parsing the original text; the counterexample shows the proviso can
fail (a wrapped paragraph line may re-parse as new structure). -/
theorem C2_format_idempotent_of_reparse_stable (fuel : Nat) (t s : Str) (w : Int)
    (h1 : format fuel t w = .ok s)
    (h2 : parse fuel (splitLines s) = parse fuel (splitLines t)) :
    format fuel s w = .ok s := by
  unfold format
  rw [h2]
  unfold format at h1
  exact h1

/-- Witness for `C2_format_idempotent_of_reparse_stable` at
`t = "Hello.\n"`, whose formatted output `"Hello."` re-parses stably. -/
theorem C2_format_idempotent_witness :
    format 100 (strL ("Hello.")) 72 = .ok (strL ("Hello.")) :=
  C2_format_idempotent_of_reparse_stable 100 (strL ("Hello.\n")) (strL ("Hello.")) 72
    rfl rfl

/-! ## Claim C4 -/

/-- C4 counterexample: in a 10-item ordered list at even depth the
numeric markers do not all occupy the same width: item 10 gets `"10."`
(width 3) while item 1 gets `"1."` (width 2), because the code
right-aligns to the width of `len(items) - 1 = 9`, not to the width of
the largest printed index `10`; the full rendering shows both widths. -/
theorem C4_counterexample :
    makeOlItemNum 0 10 9 = strL ("10.") ∧
    makeOlItemNum 0 10 0 = strL ("1.") ∧
    (makeOlItemNum 0 10 9).length = 3 ∧
    (makeOlItemNum 0 10 0).length = 2 ∧
    format 100 (strL ("1. a\n2. a\n3. a\n4. a\n5. a\n6. a\n7. a\n8. a\n9. a\n10. a\n")) 72
      = .ok (strL ("1. a\n2. a\n3. a\n4. a\n5. a\n6. a\n7. a\n8. a\n9. a\n10. a")) :=
  ⟨rfl, rfl, rfl, rfl, rfl⟩

/-- C4 (amended): at even ordered depth the marker for 0-based item
`idx` is `str(idx+1)` right-aligned to the width of the largest 0-based
index `n - 1`, so all markers of one list share the width
`len(str(n-1)) + 1` exactly when `n` and `n - 1` have equally many
digits (which fails when `n` is a power of ten); at odd depth the marker
is the lowercase letter `a) … z)` wrapping after 26 items. -/
theorem C4_ol_marker (ol : Int) (n idx : Nat) (hidx : idx < n) :
    (ol % 2 = 0 →
      makeOlItemNum ol n idx
        = padLeftNum (natRepr (n - 1)).length (natRepr (idx + 1)) ++ ['.'] ∧
      (makeOlItemNum ol n idx).length
        = max (natRepr (n - 1)).length (natRepr (idx + 1)).length + 1) ∧
    (ol % 2 = 0 → (natRepr n).length = (natRepr (n - 1)).length →
      (makeOlItemNum ol n idx).length = (natRepr (n - 1)).length + 1) ∧
    (ol % 2 ≠ 0 →
      makeOlItemNum ol n idx = [Char.ofNat ('a'.toNat + idx % 26), ')']) := by
  refine ⟨fun he => ?_, fun he hd => ?_, fun ho => ?_⟩
  · rw [makeOlItemNum, if_pos he]
    refine ⟨rfl, ?_⟩
    rw [List.length_append, padLeftNum_length]
    simp
  · rw [makeOlItemNum, if_pos he, List.length_append, padLeftNum_length]
    have hle : (natRepr (idx + 1)).length ≤ (natRepr (n - 1)).length := by
      rw [← hd]
      exact natRepr_length_mono (by omega)
    simp only [List.length_cons, List.length_nil]
    omega
  · rw [makeOlItemNum, if_neg ho]

/-- Witness for `C4_ol_marker` at a 3-item list: numeric marker of item
index 1 at even depth, letter marker at odd depth. -/
theorem C4_ol_marker_witness :
    makeOlItemNum 0 3 1 = padLeftNum (natRepr 2).length (natRepr 2) ++ ['.'] ∧
    (makeOlItemNum 0 3 1).length = (natRepr 2).length + 1 ∧
    makeOlItemNum 1 3 1 = [Char.ofNat ('a'.toNat + 1 % 26), ')'] :=
  ⟨((C4_ol_marker 0 3 1 (by omega)).1 (by decide)).1,
   (C4_ol_marker 0 3 1 (by omega)).2.1 (by decide) (by decide),
   (C4_ol_marker 1 3 1 (by omega)).2.2 (by decide)⟩

/-! ## Helper lemmas about `removeTrailingEmptyLines` and wrapping -/

theorem dropWhile_cons_head {α : Type} (p : α → Bool) (l : List α) (c : α) (tl : List α)
    (h : l.dropWhile p = c :: tl) : p c = false := by
  induction l with
  | nil => simp at h
  | cons a as ih =>
    rw [List.dropWhile_cons] at h
    by_cases hp : p a
    · rw [if_pos hp] at h
      exact ih h
    · rw [if_neg hp] at h
      cases h
      simpa using hp

theorem removeTrailingEmptyLines_some {ls r : List Str}
    (h : removeTrailingEmptyLines ls = some r) :
    ∃ c cs, r = cs ++ [c] ∧ c ≠ [] := by
  unfold removeTrailingEmptyLines at h
  rcases hm : ls.reverse.dropWhile (fun l => l.isEmpty) with _ | ⟨c, tl⟩
  · rw [hm] at h
    simp at h
  · rw [hm] at h
    simp only [List.isEmpty_cons, if_false, Option.some.injEq, Bool.false_eq_true] at h
    have hc : c.isEmpty = false := dropWhile_cons_head _ _ _ _ hm
    refine ⟨c, tl.reverse, ?_, ?_⟩
    · rw [← h, List.reverse_cons]
    · intro hne
      rw [hne] at hc
      simp at hc

theorem removeTrailingEmptyLines_flatten {ls r : List Str}
    (h : removeTrailingEmptyLines ls = some r) : r.flatten = ls.flatten := by
  unfold removeTrailingEmptyLines at h
  by_cases he : (ls.reverse.dropWhile (fun l => l.isEmpty)).isEmpty
  · rw [if_pos he] at h
    exact absurd h (by simp)
  · rw [if_neg he] at h
    simp only [Option.some.injEq] at h
    have hsplit := List.takeWhile_append_dropWhile (p := fun l : Str => l.isEmpty)
      (l := ls.reverse)
    have htw : ∀ l ∈ ls.reverse.takeWhile (fun l : Str => l.isEmpty), l = [] := by
      intro l hl
      have := List.mem_takeWhile_imp hl
      simpa using this
    have hflat : (ls.reverse.takeWhile (fun l : Str => l.isEmpty)).reverse.flatten = [] := by
      rw [List.flatten_eq_nil_iff]
      intro l hl
      exact htw l (List.mem_reverse.mp hl)
    rw [← h]
    calc (ls.reverse.dropWhile (fun l => l.isEmpty)).reverse.flatten
        = (ls.reverse.dropWhile (fun l => l.isEmpty)).reverse.flatten
            ++ (ls.reverse.takeWhile (fun l : Str => l.isEmpty)).reverse.flatten := by
          rw [hflat, List.append_nil]
      _ = ((ls.reverse.takeWhile (fun l : Str => l.isEmpty)
            ++ ls.reverse.dropWhile (fun l => l.isEmpty)).reverse).flatten := by
          rw [List.reverse_append, List.flatten_append]
      _ = (ls.reverse.reverse).flatten := by rw [hsplit]
      _ = ls.flatten := by rw [List.reverse_reverse]

/-- Flatten of the greedy wrap accumulator. -/
theorem wrapAux_flatten (m : Int) :
    ∀ (ws : List Str) (cur : List Str) (done : List (List Str)),
      (wrapAux m cur done ws).flatten
        = (cur :: done).reverse.flatten ++ ws.map (fun w => w ++ [' ']) := by
  intro ws
  induction ws with
  | nil => intro cur done; simp [wrapAux]
  | cons w rest ih =>
    intro cur done
    unfold wrapAux
    by_cases hc : cur.isEmpty
    · rw [if_pos hc, ih]
      simp [List.flatten_append]
    · rw [if_neg hc]
      by_cases hover : (pLineListLen cur : Int) + (w.length : Int) > m
      · rw [if_pos hover, ih]
        simp [List.flatten_append]
      · rw [if_neg hover, ih]
        simp [List.flatten_append]

/-- The runt correction only rearranges tokens between the last two
lines: the token concatenation is unchanged. -/
theorem runtFix_flatten (m : Int) (lines : List (List Str)) :
    (runtFix m lines).flatten = lines.flatten := by
  unfold runtFix
  split
  · rename_i w prev rest hrev
    split
    · rename_i pt prevR hprev
      split
      · rename_i hcond
        have hlines : lines = rest.reverse ++ [prev, [w]] := by
          have := congrArg List.reverse hrev
          simpa using this
        have hprevEq : prev = prevR.reverse ++ [pt] := by
          have := congrArg List.reverse hprev
          simpa using this
        rw [hlines, hprevEq]
        simp [List.flatten_append]
      · rfl
    · rfl
  · rfl

/-! ## Claim C9 -/

/-- C9: word preservation.  Flattening the token groups of the wrapped,
runt-corrected lines of a paragraph reproduces exactly the original
token sequence (each carried with the single trailing separator space
the wrapper attaches); consequently the character content of the lines
`_p_lines` produces is the concatenation of the tokens with one space
after each.  No token is lost, duplicated, split or reordered. -/
theorem C9_word_preservation :
    (∀ (m : Int) (ws : List Str),
      (runtFix m (wrapWords m ws)).flatten = ws.map (fun w => w ++ [' '])) ∧
    (∀ (m : Int) (ws : List Str) (out : List Str), pLines m ws = some out →
      out.flatten = (ws.map (fun w => w ++ [' '])).flatten) := by
  have hcore : ∀ (m : Int) (ws : List Str),
      (runtFix m (wrapWords m ws)).flatten = ws.map (fun w => w ++ [' ']) := by
    intro m ws
    rw [runtFix_flatten, wrapWords, wrapAux_flatten]
    simp
  refine ⟨hcore, ?_⟩
  intro m ws out hout
  unfold pLines at hout
  set joined := (runtFix m (wrapWords m ws)).map List.flatten with hj
  match hrem : removeTrailingEmptyLines joined with
  | none => rw [hrem] at hout; exact absurd hout (by simp)
  | some r =>
    rw [hrem] at hout
    simp only [Option.some.injEq] at hout
    have h1 : r.flatten = joined.flatten := removeTrailingEmptyLines_flatten hrem
    have h2 : joined.flatten = (runtFix m (wrapWords m ws)).flatten.flatten := by
      rw [hj]
      induction (runtFix m (wrapWords m ws)) with
      | nil => simp
      | cons x xs ih => simp [ih]
    rw [← hout]
    simp only [List.flatten_append]
    rw [h1, h2, hcore]
    simp

/-- Witness for the `pLines` part of `C9_word_preservation`. -/
theorem C9_word_preservation_witness :
    pLines 72 [strL ("Hello."), strL ("world.")]
        = some [strL ("Hello. world. "), []] ∧
    (strL ("Hello. world. ") ++ []
        : Str) = ([strL ("Hello. "), strL ("world. ")] : List Str).flatten := by
  refine ⟨rfl, ?_⟩
  have := C9_word_preservation.2 72 [strL ("Hello."), strL ("world.")]
    [strL ("Hello. world. "), []] rfl
  simpa using this

/-! ## Claim C6 -/

/-- C6: the runt correction of `_p_lines`.  When the wrapped result has
at least two lines, the final line holds exactly one token `w`, and the
previous line's last token `pt` followed by `w` joined by a single space
(length `pt + w - 1`, tokens carrying one trailing space each) still
fits in `max_width`, the two tokens are merged into the final line and
the second-to-last line loses its last token; in every other case
(merge would not fit, final line not a single token, fewer than two
lines) the wrapped lines are returned unchanged. -/
theorem C6_runt_correction :
    (∀ (W : Int) (front : List (List Str)) (prev : List Str) (pt w : Str),
       (pt.length : Int) + (w.length : Int) - 1 ≤ W →
       runtFix W (front ++ [prev ++ [pt], [w]]) = front ++ [prev, [pt, w]]) ∧
    (∀ (W : Int) (front : List (List Str)) (prev : List Str) (pt w : Str),
       ¬ ((pt.length : Int) + (w.length : Int) - 1 ≤ W) →
       runtFix W (front ++ [prev ++ [pt], [w]]) = front ++ [prev ++ [pt], [w]]) ∧
    (∀ (W : Int) (front : List (List Str)) (lastL : List Str),
       lastL.length ≠ 1 →
       runtFix W (front ++ [lastL]) = front ++ [lastL]) ∧
    (∀ (W : Int) (ls : List (List Str)), ls.length < 2 → runtFix W ls = ls) := by
  refine ⟨?_, ?_, ?_, ?_⟩
  · intro W front prev pt w hfit
    have h1 : (front ++ [prev ++ [pt], [w]]).reverse
        = [w] :: (prev ++ [pt]) :: front.reverse := by simp
    have h2 : (prev ++ [pt]).reverse = pt :: prev.reverse := by simp
    unfold runtFix
    rw [h1]
    dsimp only
    rw [h2]
    dsimp only
    rw [if_pos hfit]
    simp
  · intro W front prev pt w hfit
    have h1 : (front ++ [prev ++ [pt], [w]]).reverse
        = [w] :: (prev ++ [pt]) :: front.reverse := by simp
    have h2 : (prev ++ [pt]).reverse = pt :: prev.reverse := by simp
    unfold runtFix
    rw [h1]
    dsimp only
    rw [h2]
    dsimp only
    rw [if_neg hfit]
  · intro W front lastL hlen
    unfold runtFix
    split
    · rename_i w prev rest hrev
      have h1 : (front ++ [lastL]).reverse = lastL :: front.reverse := by simp
      rw [h1] at hrev
      have : lastL = [w] := (List.cons.injEq .. ▸ hrev).1
      rw [this] at hlen
      simp at hlen
    · rfl
  · intro W ls hlen
    match ls with
    | [] => rfl
    | [a] =>
      unfold runtFix
      split
      · rename_i w prev rest hrev
        simp at hrev
      · rfl
    | a :: b :: t =>
      simp only [List.length_cons] at hlen
      omega

/-- Witness for `C6_runt_correction`: a fitting merge, a non-fitting
merge, a multi-token last line, and a single-line wrap. -/
theorem C6_runt_correction_witness :
    runtFix 10 [[strL ("to "), strL ("be ")], [strL ("or ")]]
      = [[strL ("to ")], [strL ("be "), strL ("or ")]] ∧
    runtFix 4 [[strL ("to "), strL ("be ")], [strL ("or ")]]
      = [[strL ("to "), strL ("be ")], [strL ("or ")]] ∧
    runtFix 10 [[strL ("ab ")], [strL ("cd "), strL ("ef ")]]
      = [[strL ("ab ")], [strL ("cd "), strL ("ef ")]] ∧
    runtFix 10 [[strL ("ab ")]] = [[strL ("ab ")]] := by
  refine ⟨?_, ?_, ?_, ?_⟩
  · exact C6_runt_correction.1 10 [] [strL ("to ")] (strL ("be ")) (strL ("or "))
      (by decide)
  · exact C6_runt_correction.2.1 4 [] [strL ("to ")] (strL ("be ")) (strL ("or "))
      (by decide)
  · exact C6_runt_correction.2.2.1 10 [[strL ("ab ")]] [strL ("cd "), strL ("ef ")]
      (by decide)
  · exact C6_runt_correction.2.2.2 10 [[strL ("ab ")]] (by decide)

/-! ## Claim C5 -/

/-- C5: list compaction.  `_compact_list` strips every blank
(whitespace-only) line and re-appends a single trailing blank exactly
when the rendered line count equals twice the item count, and leaves the
lines unchanged otherwise; an unordered item always renders to at least
a content line plus a trailing blank, so the trigger holds exactly when
every item occupies two lines (one non-blank content line, one blank);
and concretely `format "* Hello.\n* World.\n"` at width 72 yields the
two compacted bullet lines with no interior blank and the trailing blank
trimmed. -/
theorem C5_list_compaction :
    (∀ (n : Nat) (lines : List Str), lines.length = 2 * n →
       compactList n lines = lines.filter (fun l => 1 ≤ (stripL l).length) ++ [[]]) ∧
    (∀ (n : Nat) (lines : List Str), lines.length ≠ 2 * n →
       compactList n lines = lines) ∧
    (∀ (fuel : Nat) (m u o : Int) (it : List Elem) (out : List Str),
       ulItemLines fuel m u o it = .ok out →
       2 ≤ out.length ∧ out.getLast? = some [] ∧
       (out.length = 2 → ∃ c, out = [c, []] ∧ c ≠ [])) ∧
    (∀ (lss : List (List Str)), (∀ l ∈ lss, 2 ≤ l.length) →
       ((lss.map List.length).sum = 2 * lss.length ↔ ∀ l ∈ lss, l.length = 2)) ∧
    format 100 (strL ("* Hello.\n* World.\n")) 72
      = .ok (strL ("• Hello.\n• World.")) := by
  refine ⟨?_, ?_, ?_, ?_, rfl⟩
  · intro n lines h
    unfold compactList
    rw [if_pos h]
  · intro n lines h
    unfold compactList
    rw [if_neg h]
  · intro fuel m u o it out h
    match fuel with
    | 0 => exact absurd h (by simp [ulItemLines])
    | f + 1 =>
      unfold ulItemLines at h
      split at h
      · exact absurd h (by simp)
      · rename_i l0 rest heq
        split at h
        · exact absurd h (by simp)
        · rename_i r hrem
          simp only [Res.ok.injEq] at h
          obtain ⟨c, cs, hrc, hcne⟩ := removeTrailingEmptyLines_some hrem
          subst h
          subst hrc
          refine ⟨by simp, by simp [List.getLast?_append], ?_⟩
          intro hlen2
          have : cs = [] := by
            rcases cs with _ | ⟨x, xs⟩
            · rfl
            · simp at hlen2
          subst this
          exact ⟨c, by simp, hcne⟩
      · exact absurd h (by simp)
      · exact absurd h (by simp)
  · intro lss hall
    induction lss with
    | nil => simp
    | cons l rest ih =>
      have hl := hall l (by simp)
      have hrest : ∀ x ∈ rest, 2 ≤ x.length := fun x hx => hall x (by simp [hx])
      have hsum : 2 * rest.length ≤ (rest.map List.length).sum := by
        clear ih hall hl
        induction rest with
        | nil => simp
        | cons y ys ihy =>
          have hy := hrest y (by simp)
          have hys : ∀ x ∈ ys, 2 ≤ x.length := fun x hx => hrest x (by simp [hx])
          have := ihy hys
          simp only [List.map_cons, List.sum_cons, List.length_cons]
          omega
      have ihr := ih hrest
      simp only [List.map_cons, List.sum_cons, List.length_cons]
      constructor
      · intro heq
        have hleq : l.length = 2 := by omega
        have hreq : (rest.map List.length).sum = 2 * rest.length := by omega
        intro x hx
        rcases List.mem_cons.mp hx with hx1 | hx2
        · rw [hx1]; exact hleq
        · exact (ihr.mp hreq) x hx2
      · intro hallx
        have hleq : l.length = 2 := hallx l (by simp)
        have hreq : (rest.map List.length).sum = 2 * rest.length :=
          ihr.mpr (fun x hx => hallx x (by simp [hx]))
        omega

/-- Witness for `C5_list_compaction`: the compaction equation at a
triggering and a non-triggering line count, and the two-line shape of a
concrete unordered item. -/
theorem C5_list_compaction_witness :
    compactList 2 [strL ("• a"), [], strL ("• b"), []]
      = [strL ("• a"), strL ("• b"), []] ∧
    compactList 2 [strL ("• a"), []] = [strL ("• a"), []] ∧
    (2 ≤ ([strL ("• Hi."), []] : List Str).length ∧
     ([strL ("• Hi."), []] : List Str).getLast? = some [] ∧
     (([strL ("• Hi."), []] : List Str).length = 2 →
       ∃ c, ([strL ("• Hi."), []] : List Str) = [c, []] ∧ c ≠ [])) ∧
    (([[strL ("x"), []], [strL ("y"), [], []]] : List (List Str)).map List.length).sum
      ≠ 2 * ([[strL ("x"), []], [strL ("y"), [], []]] : List (List Str)).length := by
  refine ⟨?_, ?_, ?_, ?_⟩
  · have := C5_list_compaction.1 2 [strL ("• a"), [], strL ("• b"), []] (by decide)
    rw [this]
    decide
  · exact C5_list_compaction.2.1 2 [strL ("• a"), []] (by decide)
  · exact C5_list_compaction.2.2.1 50 72 0 (-1) [Elem.p [strL ("Hi.")]]
      [strL ("• Hi."), []] rfl
  · intro hc
    have := (C5_list_compaction.2.2.2.1 [[strL ("x"), []], [strL ("y"), [], []]]
      (by decide)).mp hc
    have hx := this [strL ("y"), [], []] (by simp)
    simp at hx

/-! ## Helper lemmas for the width bound (claim C3) -/

theorem pLineListLen_append_single (l : List Str) (t : Str) :
    pLineListLen (l ++ [t]) = pLineListLen l + t.length := by
  simp [pLineListLen]

theorem flatten_length_eq (l : List Str) :
    (List.flatten l).length = pLineListLen l := by
  simp [pLineListLen, List.length_flatten]

theorem rstripL_length_le (l : Str) : (rstripL l).length ≤ l.length := by
  rw [rstripL, List.length_reverse]
  calc (l.reverse.dropWhile isSpaceC).length
      ≤ l.reverse.length := (List.dropWhile_sublist _).length_le
    _ = l.length := List.length_reverse _

theorem rstripL_append_space (xs : Str) : rstripL (xs ++ [' ']) = rstripL xs := by
  simp [rstripL, List.dropWhile_cons, isSpaceC]

theorem rstripL_indentStr (k : Nat) : rstripL (indentStr k) = [] := by
  have : ∀ n : Nat, (List.replicate n ' ').dropWhile isSpaceC = [] := by
    intro n
    induction n with
    | zero => simp
    | succ n ih => simp [List.replicate_succ, List.dropWhile_cons, isSpaceC, ih]
  have h2 : (indentStr k).reverse = indentStr k := by
    simp [indentStr, List.reverse_replicate]
  rw [rstripL, h2]
  unfold indentStr
  rw [this k]
  rfl

theorem rstripL_append (a b : Str) :
    rstripL (a ++ b) = if rstripL b = [] then rstripL a else a ++ rstripL b := by
  rw [rstripL, List.reverse_append, List.dropWhile_append]
  by_cases hb : (b.reverse.dropWhile isSpaceC).isEmpty
  · have hbe : rstripL b = [] := by
      rw [rstripL]
      rw [List.isEmpty_iff] at hb
      rw [hb]
      rfl
    rw [if_pos hb, if_pos hbe]
    rfl
  · have hbe : rstripL b ≠ [] := by
      rw [rstripL]
      intro hc
      rw [List.isEmpty_iff] at hb
      exact hb (by simpa using congrArg List.reverse hc)
    rw [if_neg hb, if_neg hbe, List.reverse_append, rstripL]
    simp

theorem removeTrailingEmptyLines_mem {ls r : List Str}
    (h : removeTrailingEmptyLines ls = some r) : ∀ l ∈ r, l ∈ ls := by
  unfold removeTrailingEmptyLines at h
  by_cases he : (ls.reverse.dropWhile (fun l => l.isEmpty)).isEmpty
  · rw [if_pos he] at h
    exact absurd h (by simp)
  · rw [if_neg he] at h
    simp only [Option.some.injEq] at h
    intro l hl
    rw [← h] at hl
    have h1 : l ∈ ls.reverse.dropWhile (fun l => l.isEmpty) := List.mem_reverse.mp hl
    have h2 : l ∈ ls.reverse := (List.dropWhile_sublist _).mem h1
    exact List.mem_reverse.mp h2

theorem foldl_max_le {l : List Nat} {a b : Nat} (ha : a ≤ b)
    (h : ∀ x ∈ l, x ≤ b) : l.foldl Nat.max a ≤ b := by
  induction l generalizing a with
  | nil => exact ha
  | cons x xs ih =>
    simp only [List.foldl_cons]
    exact ih (Nat.max_le.mpr ⟨ha, h x (by simp)⟩) (fun y hy => h y (by simp [hy]))

theorem foldl_max_init_le (l : List Nat) : ∀ a : Nat, a ≤ l.foldl Nat.max a := by
  induction l with
  | nil => intro a; exact Nat.le_refl a
  | cons y ys ih =>
    intro a
    simp only [List.foldl_cons]
    exact Nat.le_trans (Nat.le_max_left a y) (ih (Nat.max a y))

theorem le_foldl_max {l : List Nat} {x : Nat} (h : x ∈ l) :
    ∀ a : Nat, x ≤ l.foldl Nat.max a := by
  induction l with
  | nil => simp at h
  | cons y ys ih =>
    intro a
    simp only [List.foldl_cons]
    rcases List.mem_cons.mp h with h1 | h2
    · subst h1
      exact Nat.le_trans (Nat.le_max_right a x) (foldl_max_init_le ys (Nat.max a x))
    · exact ih h2 (Nat.max a y)

/-- The joint invariant of the greedy wrap: every produced line's tokens
come from the word list (each with one trailing space), and a line with
at least two tokens has total token length at most `m + 1`. -/
theorem wrapAux_inv (m : Int) (S : List Str) :
    ∀ (ws : List Str) (cur : List Str) (done : List (List Str)),
      (∀ w ∈ ws, w ∈ S) →
      (∀ t ∈ cur, ∃ w ∈ S, t = w ++ [' ']) →
      (2 ≤ cur.length → (pLineListLen cur : Int) ≤ m + 1) →
      (∀ l ∈ done, (∀ t ∈ l, ∃ w ∈ S, t = w ++ [' ']) ∧
        (2 ≤ l.length → (pLineListLen l : Int) ≤ m + 1)) →
      ∀ l ∈ wrapAux m cur done ws,
        (∀ t ∈ l, ∃ w ∈ S, t = w ++ [' ']) ∧
        (2 ≤ l.length → (pLineListLen l : Int) ≤ m + 1) := by
  intro ws
  induction ws with
  | nil =>
    intro cur done _ hcur hbound hdone l hl
    simp only [wrapAux, List.mem_reverse, List.mem_cons] at hl
    rcases hl with h1 | h2
    · subst h1
      exact ⟨hcur, hbound⟩
    · exact hdone l h2
  | cons w rest ih =>
    intro cur done hws hcur hbound hdone l hl
    have hwS : w ∈ S := hws w (by simp)
    have hrest : ∀ x ∈ rest, x ∈ S := fun x hx => hws x (by simp [hx])
    unfold wrapAux at hl
    by_cases hc : cur.isEmpty
    · rw [if_pos hc] at hl
      have hcurnil : cur = [] := List.isEmpty_iff.mp hc
      subst hcurnil
      refine ih ([] ++ [w ++ [' ']]) done hrest ?_ ?_ hdone l hl
      · intro t ht
        simp only [List.nil_append, List.mem_singleton] at ht
        exact ⟨w, hwS, ht⟩
      · intro h2
        simp at h2
    · rw [if_neg hc] at hl
      by_cases hover : (pLineListLen cur : Int) + (w.length : Int) > m
      · rw [if_pos hover] at hl
        refine ih [w ++ [' ']] (cur :: done) hrest ?_ ?_ ?_ l hl
        · intro t ht
          simp only [List.mem_singleton] at ht
          exact ⟨w, hwS, ht⟩
        · intro h2
          simp at h2
        · intro x hx
          rcases List.mem_cons.mp hx with h1 | h2
          · subst h1
            exact ⟨hcur, hbound⟩
          · exact hdone x h2
      · rw [if_neg hover] at hl
        refine ih (cur ++ [w ++ [' ']]) done hrest ?_ ?_ hdone l hl
        · intro t ht
          rcases List.mem_append.mp ht with h1 | h2
          · exact hcur t h1
          · simp only [List.mem_singleton] at h2
            exact ⟨w, hwS, h2⟩
        · intro _
          rw [pLineListLen_append_single]
          simp only [List.length_append, List.length_singleton]
          push_cast
          omega

/-- The runt correction preserves the wrap invariant. -/
theorem runtFix_inv (m : Int) (S : List Str) (lines : List (List Str))
    (hinv : ∀ l ∈ lines, (∀ t ∈ l, ∃ w ∈ S, t = w ++ [' ']) ∧
      (2 ≤ l.length → (pLineListLen l : Int) ≤ m + 1)) :
    ∀ l ∈ runtFix m lines,
      (∀ t ∈ l, ∃ w ∈ S, t = w ++ [' ']) ∧
      (2 ≤ l.length → (pLineListLen l : Int) ≤ m + 1) := by
  unfold runtFix
  split
  · rename_i w prev rest hrev
    split
    · rename_i pt prevR hprev
      split
      · rename_i hcond
        have hlines : lines = rest.reverse ++ [prev, [w]] := by
          have := congrArg List.reverse hrev
          simpa using this
        have hprevEq : prev = prevR.reverse ++ [pt] := by
          have := congrArg List.reverse hprev
          simpa using this
        have hwmem : [w] ∈ lines := by rw [hlines]; simp
        have hprevmem : prev ∈ lines := by rw [hlines]; simp
        have hw := (hinv [w] hwmem).1 w (by simp)
        have hptoks := (hinv prev hprevmem).1
        have hpt : ∃ x ∈ S, pt = x ++ [' '] := hptoks pt (by rw [hprevEq]; simp)
        intro l hl
        simp only [List.mem_reverse, List.mem_cons] at hl
        rcases hl with h1 | h2 | h3
        · subst h1
          refine ⟨?_, ?_⟩
          · intro t ht
            rcases List.mem_cons.mp ht with he1 | he2
            · subst he1; exact hpt
            · simp only [List.mem_singleton] at he2
              subst he2; exact hw
          · intro _
            have : pLineListLen [pt, w] = pt.length + w.length := by
              simp [pLineListLen]
            rw [this]
            push_cast
            omega
        · subst h2
          refine ⟨?_, ?_⟩
          · intro t ht
            exact hptoks t (by rw [hprevEq]; simp; left; simpa using ht)
          · intro hlen
            have hpl : pLineListLen prev = pLineListLen prevR.reverse + pt.length := by
              rw [hprevEq, pLineListLen_append_single]
            have hprevlen : 2 ≤ prev.length := by
              rw [hprevEq]
              simp only [List.length_append, List.length_reverse, List.length_singleton]
              simp only [List.length_reverse] at hlen
              omega
            have := (hinv prev hprevmem).2 hprevlen
            rw [hpl] at this
            push_cast at this ⊢
            omega
        · have hmem : l ∈ lines := by
            rw [hlines]
            refine List.mem_append.mpr (Or.inl ?_)
            exact List.mem_reverse.mpr h3
          exact hinv l hmem
      · exact hinv
    · exact hinv
  · exact hinv

/-! ## Claim C3 -/

/-- C3 counterexample: at width 10, an admonition box around a long word
produces output lines of length 20 (the box borders and padded interior
lines), which exceed `max_width` yet are not single atomic tokens of the
source — the parsed paragraph's only tokens are `"NOTE:"` and
`"abcdefghijklmnop"`, and the border line equals neither. -/
theorem C3_counterexample :
    format 100 (strL ("!!!\nNOTE: abcdefghijklmnop\n!!!")) 10
      = .ok (strL ("┌──────────────────┐\n│ NOTE:            │\n│ abcdefghijklmnop │\n└──────────────────┘")) ∧
    parse 100 (splitLines (strL ("!!!\nNOTE: abcdefghijklmnop\n!!!")))
      = .ok [.admonBox [.p [strL ("NOTE:"), strL ("abcdefghijklmnop")]]] ∧
    (strL ("┌──────────────────┐")).length = 20 ∧
    strL ("┌──────────────────┐") ≠ strL ("NOTE:") ∧
    strL ("┌──────────────────┐") ≠ strL ("abcdefghijklmnop") :=
  ⟨rfl, rfl, rfl, by decide, by decide⟩

/-- C3 (amended): the width bound holds piecewise with one more
exception for admonition boxes.  (i) Every line `_p_lines` produces is
the blank separator, or right-stripped at most `max_width` columns wide,
or exactly one atomic token followed by its separator space, emitted in
full.  (ii) Indenting by `k` the lines rendered at inner width `W - k`
preserves the bound `W` on right-stripped lines.  (iii) Every non-blank
line of a rendered admonition box has length `longest content line + 4`:
within `max_width` when every content line fits in `max_width - 4`, but
all exceeding `max_width` as soon as one content line (for example one
holding an over-long atomic token) exceeds it. -/
theorem C3_width_bound :
    (∀ (m : Int) (ws out : List Str), pLines m ws = some out →
       ∀ l ∈ out, l = [] ∨ ((rstripL l).length : Int) ≤ m ∨ ∃ w ∈ ws, l = w ++ [' ']) ∧
    (∀ (k : Nat) (W : Int) (ls : List Str),
       (∀ l ∈ ls, ((rstripL l).length : Int) ≤ W - k) →
       ∀ l2 ∈ indentNonEmpty k ls, ((rstripL l2).length : Int) ≤ W) ∧
    (∀ (cls : List Str), cls ≠ [] →
       (∀ l ∈ admonBoxRender cls,
          l = [] ∨ l.length = (cls.map List.length).foldl Nat.max 0 + 4) ∧
       (∀ (W : Int), (∀ c ∈ cls, (c.length : Int) ≤ W - 4) →
          ∀ l ∈ admonBoxRender cls, (l.length : Int) ≤ W) ∧
       (∀ (W : Int) (c : Str), c ∈ cls → W < (c.length : Int) + 4 →
          ∀ l ∈ admonBoxRender cls, l ≠ [] → W < (l.length : Int))) := by
  refine ⟨?_, ?_, ?_⟩
  · -- (i) the paragraph wrap bound
    intro m ws out h l hl
    have hinvAll : ∀ lg ∈ runtFix m (wrapWords m ws),
        (∀ t ∈ lg, ∃ w ∈ ws, t = w ++ [' ']) ∧
        (2 ≤ lg.length → (pLineListLen lg : Int) ≤ m + 1) := by
      refine runtFix_inv m ws _ ?_
      refine wrapAux_inv m ws ws [] [] (fun w hw => hw) ?_ ?_ ?_
      · intro t ht; simp at ht
      · intro h2; simp at h2
      · intro x hx; simp at hx
    unfold pLines at h
    split at h
    · exact absurd h (by simp)
    · rename_i r hrem
      simp only [Option.some.injEq] at h
      subst h
      rcases List.mem_append.mp hl with hr | hblank
      · have hmem := removeTrailingEmptyLines_mem hrem l hr
        obtain ⟨lg, hlg, hfl⟩ := List.mem_map.mp hmem
        have hinv := hinvAll lg hlg
        match hlg2 : lg with
        | [] =>
          left
          rw [← hfl]
          simp
        | [t] =>
          obtain ⟨w, hwmem, hwt⟩ := hinv.1 t (by simp)
          right; right
          exact ⟨w, hwmem, by rw [← hfl, hwt]; simp⟩
        | t1 :: t2 :: ts =>
          right; left
          have hbound := hinv.2 (by simp)
          obtain ⟨init, tl, hconcat⟩ :
              ∃ init tl, (t1 :: t2 :: ts : List Str) = init ++ [tl] := by
            rcases List.eq_nil_or_concat (l := (t1 :: t2 :: ts : List Str)) with he | hc
            · simp at he
            · obtain ⟨L, b, hb⟩ := hc
              exact ⟨L, b, by rw [hb, List.concat_eq_append]⟩
          obtain ⟨w, hwmem, hwt⟩ := hinv.1 tl (by rw [hconcat]; simp)
          have hflat : List.flatten (t1 :: t2 :: ts : List Str)
              = (init.flatten ++ w) ++ [' '] := by
            rw [hconcat, List.flatten_append, hwt]
            simp
          have hlenf : (List.flatten (t1 :: t2 :: ts : List Str)).length
              = pLineListLen (t1 :: t2 :: ts : List Str) := flatten_length_eq _
          rw [← hfl, hflat, rstripL_append_space]
          have h1 : (rstripL (init.flatten ++ w)).length
              ≤ (init.flatten ++ w).length := rstripL_length_le _
          have h2 : ((init.flatten ++ w).length : Nat) + 1
              = pLineListLen (t1 :: t2 :: ts : List Str) := by
            rw [← hlenf, hflat]
            simp
            omega
          push_cast at hbound ⊢
          omega
      · left
        simpa using hblank
  · -- (ii) indentation preserves the bound
    intro k W ls hbound l2 hl2
    unfold indentNonEmpty at hl2
    obtain ⟨l, hlmem, hl⟩ := List.mem_map.mp hl2
    have hb := hbound l hlmem
    by_cases hne : 1 ≤ l.length
    · rw [if_pos hne] at hl
      subst hl
      rw [rstripL_append]
      by_cases hrs : rstripL l = []
      · rw [if_pos hrs, rstripL_indentStr]
        rw [hrs] at hb
        simp only [List.length_nil, Nat.cast_zero] at hb ⊢
        omega
      · rw [if_neg hrs]
        simp only [List.length_append]
        rw [indentStr, List.length_replicate]
        push_cast
        omega
    · rw [if_neg hne] at hl
      subst hl
      have : l = [] := by
        rcases l with _ | ⟨c, cs⟩
        · rfl
        · simp at hne
      subst this
      simp only [rstripL, List.reverse_nil, List.dropWhile_nil, List.length_nil,
        Nat.cast_zero] at hb ⊢
      omega
  · -- (iii) the admonition box geometry
    intro cls hne
    have hlenline : ∀ l ∈ admonBoxRender cls,
        l = [] ∨ l.length = (cls.map List.length).foldl Nat.max 0 + 4 := by
      intro l hl
      simp only [admonBoxRender] at hl
      rcases List.mem_append.mp hl with h1 | h2
      · rcases List.mem_cons.mp h1 with htop | hbody
        · right
          rw [htop]
          simp
        · obtain ⟨c, hc, hcl⟩ := List.mem_map.mp hbody
          right
          have hcle : c.length ≤ (cls.map List.length).foldl Nat.max 0 :=
            le_foldl_max (List.mem_map.mpr ⟨c, hc, rfl⟩) 0
          rw [← hcl]
          simp [ljustL]
          omega
      · rcases List.mem_cons.mp h2 with hbot | hblank
        · right
          rw [hbot]
          simp
        · left
          simpa using hblank
    refine ⟨hlenline, ?_, ?_⟩
    · intro W hfit l hl
      rcases hlenline l hl with h1 | h2
      · subst h1
        obtain ⟨c0, hc0⟩ := List.exists_mem_of_ne_nil cls hne
        have := hfit c0 hc0
        simp only [List.length_nil, Nat.cast_zero]
        omega
      · have hW4 : (0 : Int) ≤ W - 4 := by
          obtain ⟨c0, hc0⟩ := List.exists_mem_of_ne_nil cls hne
          have := hfit c0 hc0
          omega
        have hball : ∀ x ∈ cls.map List.length, x ≤ (W - 4).toNat := by
          intro x hx
          obtain ⟨c, hc, hxc⟩ := List.mem_map.mp hx
          have := hfit c hc
          subst hxc
          omega
        have hM : (cls.map List.length).foldl Nat.max 0 ≤ (W - 4).toNat :=
          foldl_max_le (Nat.zero_le _) hball
        have hMi : (((cls.map List.length).foldl Nat.max 0 : Nat) : Int) ≤ W - 4 := by
          calc (((cls.map List.length).foldl Nat.max 0 : Nat) : Int)
              ≤ ((W - 4).toNat : Int) := by exact_mod_cast hM
            _ = W - 4 := Int.toNat_of_nonneg hW4
        rw [h2]
        push_cast
        omega
    · intro W c hc hover l hl hlne
      rcases hlenline l hl with h1 | h2
      · exact absurd h1 hlne
      · have hcle : c.length ≤ (cls.map List.length).foldl Nat.max 0 :=
          le_foldl_max (List.mem_map.mpr ⟨c, hc, rfl⟩) 0
        rw [h2]
        push_cast
        omega

/-- Witness for `C3_width_bound` at concrete inputs: a two-word wrap at
width 6 (an in-bound line and an over-long single token emitted in
full), a concrete indentation, and the box around a long content line. -/
theorem C3_width_bound_witness :
    (∀ l ∈ [strL ("NOTE: "), strL ("abcdefghijklmnop "), ([] : Str)],
       l = [] ∨ ((rstripL l).length : Int) ≤ 6 ∨
         ∃ w ∈ [strL ("NOTE:"), strL ("abcdefghijklmnop")], l = w ++ [' ']) ∧
    (∀ l2 ∈ indentNonEmpty 2 [strL ("abcd"), ([] : Str)],
       ((rstripL l2).length : Int) ≤ 6) ∧
    (∀ l ∈ admonBoxRender [strL ("abcdefghijklmnop")],
       l ≠ [] → (10 : Int) < (l.length : Int)) := by
  refine ⟨?_, ?_, ?_⟩
  · exact C3_width_bound.1 6 [strL ("NOTE:"), strL ("abcdefghijklmnop")]
      [strL ("NOTE: "), strL ("abcdefghijklmnop "), []] rfl
  · exact C3_width_bound.2.1 2 6 [strL ("abcd"), []] (by decide)
  · exact fun l hl hlne =>
      (C3_width_bound.2.2 [strL ("abcdefghijklmnop")] (by decide)).2.2 10
        (strL ("abcdefghijklmnop")) (by simp) (by decide) l hl hlne

/-! ## Claim C7 -/

theorem extractCContentLines_error {ls : List Str} {e : Str}
    (h : extractCContentLines ls = .error e) :
    ∃ line ∈ ls, cCommentBadLine line ∧ e = stripL line := by
  induction ls with
  | nil => simp [extractCContentLines] at h
  | cons l rest ih =>
    unfold extractCContentLines at h
    by_cases h1 : stripL l = strL ("/*") || stripL l = strL ("*/")
    · rw [if_pos h1] at h
      obtain ⟨line, hmem, hbad, he⟩ := ih h
      exact ⟨line, by simp [hmem], hbad, he⟩
    · rw [if_neg h1] at h
      by_cases h2 : stripL l = ['*']
      · rw [if_pos h2] at h
        split at h
        · exact absurd h (by simp)
        · rename_i e' he'
          simp only [Except.error.injEq] at h
          subst h
          obtain ⟨line, hmem, hbad, he⟩ := ih he'
          exact ⟨line, by simp [hmem], hbad, he⟩
      · rw [if_neg h2] at h
        split at h
        · rename_i g hg
          split at h
          · exact absurd h (by simp)
          · rename_i e' he'
            simp only [Except.error.injEq] at h
            subst h
            obtain ⟨line, hmem, hbad, he⟩ := ih he'
            exact ⟨line, by simp [hmem], hbad, he⟩
        · rename_i hg
          simp only [Except.error.injEq] at h
          refine ⟨l, by simp, ?_, h.symm⟩
          unfold cCommentBadLine
          simp only [Bool.or_eq_true, decide_eq_true_eq, not_or] at h1
          simp [h1.1, h1.2, h2, hg]

theorem extractCContentLines_of_bad {ls : List Str}
    (h : ∃ line ∈ ls, cCommentBadLine line) :
    ∃ e, extractCContentLines ls = .error e := by
  induction ls with
  | nil => simp at h
  | cons l rest ih =>
    unfold extractCContentLines
    by_cases h1 : stripL l = strL ("/*") || stripL l = strL ("*/")
    · rw [if_pos h1]
      refine ih ?_
      obtain ⟨line, hmem, hbad⟩ := h
      rcases List.mem_cons.mp hmem with he | hm
      · subst he
        simp only [Bool.or_eq_true, decide_eq_true_eq] at h1
        rcases h1 with ha | hb
        · simp [cCommentBadLine, ha] at hbad
        · simp [cCommentBadLine, hb] at hbad
      · exact ⟨line, hm, hbad⟩
    · rw [if_neg h1]
      by_cases h2 : stripL l = ['*']
      · rw [if_pos h2]
        have hrest : ∃ line ∈ rest, cCommentBadLine line := by
          obtain ⟨line, hmem, hbad⟩ := h
          rcases List.mem_cons.mp hmem with he | hm
          · subst he
            unfold cCommentBadLine at hbad
            simp [h2] at hbad
          · exact ⟨line, hm, hbad⟩
        obtain ⟨e, he⟩ := ih hrest
        rw [he]
        exact ⟨e, rfl⟩
      · rw [if_neg h2]
        match hg : cBlockLineMatch (stripL l) with
        | some g =>
          have hrest : ∃ line ∈ rest, cCommentBadLine line := by
            obtain ⟨line, hmem, hbad⟩ := h
            rcases List.mem_cons.mp hmem with he | hm
            · subst he
              unfold cCommentBadLine at hbad
              simp [hg] at hbad
            · exact ⟨line, hm, hbad⟩
          obtain ⟨e, he⟩ := ih hrest
          rw [he]
          exact ⟨e, rfl⟩
        | none => exact ⟨stripL l, rfl⟩

theorem formatCBlockComment_error_iff (fuel : Nat) (c : Str) (startCol maxLen : Int)
    (l : Str) :
    formatCBlockComment fuel c startCol maxLen = .ok (.error l) ↔
      extractCContentLines (splitLines c) = .error l := by
  constructor
  · intro h
    unfold formatCBlockComment at h
    split at h
    · rename_i e he
      simp only [Res.ok.injEq, Except.error.injEq] at h
      rw [he, h]
    · split at h
      · split at h
        · simp at h
        · exact absurd h (by simp)
        · exact absurd h (by simp)
      · exact absurd h (by simp)
      · exact absurd h (by simp)
  · intro h
    unfold formatCBlockComment
    rw [h]

/-- C7: `format_c_block_comment` reports the error that identifies an
offending line exactly when some line of the comment, after stripping,
is not `/*`, `*/` or `*` and does not match `\s*\* (.+)`; the reported
payload is the (stripped) offending line, it is produced by the
extraction pass alone, and — as the result is the same for every fuel
value — the parser/formatter engine plays no part in that outcome. -/
theorem C7_c_block_comment_error (c : Str) (startCol maxLen : Int) :
    ((∃ l, ∀ fuel, formatCBlockComment fuel c startCol maxLen = .ok (.error l)) ↔
      ∃ line ∈ splitLines c, cCommentBadLine line) ∧
    (∀ fuel l, formatCBlockComment fuel c startCol maxLen = .ok (.error l) →
      extractCContentLines (splitLines c) = .error l ∧
      ∃ line ∈ splitLines c, cCommentBadLine line ∧ l = stripL line) := by
  constructor
  · constructor
    · intro ⟨l, hl⟩
      have := (formatCBlockComment_error_iff 0 c startCol maxLen l).mp (hl 0)
      obtain ⟨line, hmem, hbad, _⟩ := extractCContentLines_error this
      exact ⟨line, hmem, hbad⟩
    · intro hbad
      obtain ⟨e, he⟩ := extractCContentLines_of_bad hbad
      exact ⟨e, fun fuel => (formatCBlockComment_error_iff fuel c startCol maxLen e).mpr he⟩
  · intro fuel l h
    have hext := (formatCBlockComment_error_iff fuel c startCol maxLen l).mp h
    exact ⟨hext, extractCContentLines_error hext⟩

/-- Witness for `C7_c_block_comment_error` at the malformed comment
`"/*\nhi\n*/"` (the `hi` line lacks the `* ` marker). -/
theorem C7_c_block_comment_error_witness :
    extractCContentLines (splitLines (strL ("/*\nhi\n*/"))) = .error (strL ("hi")) ∧
    (∃ l, ∀ fuel,
      formatCBlockComment fuel (strL ("/*\nhi\n*/")) 0 72 = .ok (.error l)) := by
  refine ⟨?_, ?_⟩
  · exact ((C7_c_block_comment_error (strL ("/*\nhi\n*/")) 0 72).2 100
      (strL ("hi")) rfl).1
  · exact (C7_c_block_comment_error (strL ("/*\nhi\n*/")) 0 72).1.mpr
      ⟨strL ("hi"), by decide, by decide⟩

/-! ## Claim C8 -/

theorem tryParseHeadingG_good (mk : Str → Elem) (pfx : Str) (uch : Char)
    (hmk : ∀ t, ElemGood (mk t)) (lines : List Str) (i : Nat)
    (r : Elem × Nat) (h : tryParseHeadingG mk pfx uch lines i = some r) :
    ElemGood r.1 := by
  unfold tryParseHeadingG at h
  split at h
  · split at h
    · simp only [Option.some.injEq] at h
      rw [← h]
      exact hmk _
    · split at h
      · simp only [Option.some.injEq] at h
        rw [← h]
        exact hmk _
      · exact absurd h (by simp)
  · split at h
    · simp only [Option.some.injEq] at h
      rw [← h]
      exact hmk _
    · exact absurd h (by simp)

theorem tryParsePreDelim_good (lines : List Str) (i : Nat) (r : Elem × Nat)
    (h : tryParsePreDelim lines i = .ok (some r)) : ElemGood r.1 := by
  unfold tryParsePreDelim at h
  split at h
  · exact absurd h (by simp)
  · rename_i ls k heq
    simp only [Res.ok.injEq, Option.some.injEq] at h
    rw [← h]
    exact .pre ls
  · exact absurd h (by simp)
  · exact absurd h (by simp)

theorem tryParsePreIndented_good (lines : List Str) (i : Nat) (r : Elem × Nat)
    (h : tryParsePreIndented lines i = .ok (some r)) : ElemGood r.1 := by
  unfold tryParsePreIndented at h
  split at h
  · exact absurd h (by simp)
  · split at h
    split at h
    · exact absurd h (by simp)
    · simp only [Res.ok.injEq, Option.some.injEq] at h
      rw [← h]
      exact .pre _

theorem tryParseHr_good (lines : List Str) (i : Nat) (r : Elem × Nat)
    (h : tryParseHr lines i = some r) : ElemGood r.1 := by
  unfold tryParseHr at h
  split at h
  · simp only [Option.some.injEq] at h
    rw [← h]
    exact .hr
  · exact absurd h (by simp)

theorem tryParseVerbatim_good (lines : List Str) (i : Nat) (r : Elem × Nat)
    (h : tryParseVerbatim lines i = some r) : ElemGood r.1 := by
  unfold tryParseVerbatim at h
  split at h
  split at h
  · exact absurd h (by simp)
  · simp only [Option.some.injEq] at h
    rw [← h]
    exact .verbatim _

theorem tryParseP_good (lines : List Str) (i : Nat) (r : Elem × Nat)
    (h : tryParseP lines i = some r) : ElemGood r.1 := by
  unfold tryParseP at h
  split at h
  split at h
  · exact absurd h (by simp)
  · simp only [Option.some.injEq] at h
    rw [← h]
    exact .p _

/-- The joint goodness statement over the fueled parser functions,
proved by induction on the fuel. -/
theorem parserGood : ∀ fuel : Nat,
    (∀ lines i r, tryParseUlItem fuel lines i = .ok (some r) →
       ∀ e ∈ r.1, ElemGood e) ∧
    (∀ lines i r, tryParseOlItem fuel lines i = .ok (some r) →
       ∀ e ∈ r.1, ElemGood e) ∧
    (∀ isOl lines i r, simpleListItems fuel isOl lines i = .ok r →
       ∀ it ∈ r.1, ∀ e ∈ it, ElemGood e) ∧
    (∀ lines i r, tryParseUl fuel lines i = .ok (some r) → ElemGood r.1) ∧
    (∀ lines i r, tryParseOl fuel lines i = .ok (some r) → ElemGood r.1) ∧
    (∀ lines i r, tryParseDlItem fuel lines i = .ok (some r) →
       ∀ e ∈ r.1.2, ElemGood e) ∧
    (∀ lines i r, dlItems fuel lines i = .ok r →
       ∀ it ∈ r.1, ∀ e ∈ it.2, ElemGood e) ∧
    (∀ lines i r, tryParseDl fuel lines i = .ok (some r) → ElemGood r.1) ∧
    (∀ lines i r, tryParseBqDelim fuel lines i = .ok (some r) → ElemGood r.1) ∧
    (∀ lines i r, tryParseBqPrefixed fuel lines i = .ok (some r) → ElemGood r.1) ∧
    (∀ lines i r, tryParseAdmonDelim fuel lines i = .ok (some r) → ElemGood r.1) ∧
    (∀ lines i r, tryParseAdmonBoxRule fuel lines i = .ok (some r) → ElemGood r.1) ∧
    (∀ lines i r, tryFuncs fuel lines i = .ok (some r) → ElemGood r.1) ∧
    (∀ lines i acc es, parseLoop fuel lines i acc = .ok es →
       (∀ e ∈ acc, ElemGood e) → ∀ e ∈ es, ElemGood e) ∧
    (∀ lines es, parse fuel lines = .ok es → ∀ e ∈ es, ElemGood e) := by
  intro fuel
  induction fuel with
  | zero =>
    refine ⟨?_, ?_, ?_, ?_, ?_, ?_, ?_, ?_, ?_, ?_, ?_, ?_, ?_, ?_, ?_⟩
    · intro lines i r h; exact absurd h (by simp [tryParseUlItem])
    · intro lines i r h; exact absurd h (by simp [tryParseOlItem])
    · intro isOl lines i r h; exact absurd h (by simp [simpleListItems])
    · intro lines i r h; exact absurd h (by simp [tryParseUl])
    · intro lines i r h; exact absurd h (by simp [tryParseOl])
    · intro lines i r h; exact absurd h (by simp [tryParseDlItem])
    · intro lines i r h; exact absurd h (by simp [dlItems])
    · intro lines i r h; exact absurd h (by simp [tryParseDl])
    · intro lines i r h; exact absurd h (by simp [tryParseBqDelim])
    · intro lines i r h; exact absurd h (by simp [tryParseBqPrefixed])
    · intro lines i r h; exact absurd h (by simp [tryParseAdmonDelim])
    · intro lines i r h; exact absurd h (by simp [tryParseAdmonBoxRule])
    · intro lines i r h; exact absurd h (by simp [tryFuncs])
    · intro lines i acc es h; exact absurd h (by simp [parseLoop])
    · intro lines es h; exact absurd h (by simp [parse])
  | succ f ih =>
    obtain ⟨ihUlItem, ihOlItem, ihItems, ihUl, ihOl, ihDlItem, ihDlItems, ihDl,
      ihBqD, ihBqP, ihAdD, ihAdB, ihFuncs, ihLoop, ihParse⟩ := ih
    have hUlItem : ∀ lines i r, tryParseUlItem (f + 1) lines i = .ok (some r) →
        ∀ e ∈ r.1, ElemGood e := by
      intro lines i r h
      unfold tryParseUlItem at h
      split at h
      · exact absurd h (by simp)
      · split at h
        split at h
        · exact absurd h (by simp)
        · split at h
          · rename_i elems heq
            simp only [Res.ok.injEq, Option.some.injEq] at h
            rw [← h]
            exact ihParse _ _ heq
          · exact absurd h (by simp)
          · exact absurd h (by simp)
    have hOlItem : ∀ lines i r, tryParseOlItem (f + 1) lines i = .ok (some r) →
        ∀ e ∈ r.1, ElemGood e := by
      intro lines i r h
      unfold tryParseOlItem at h
      split at h
      · exact absurd h (by simp)
      · split at h
        split at h
        · exact absurd h (by simp)
        · split at h
          · rename_i elems heq
            simp only [Res.ok.injEq, Option.some.injEq] at h
            rw [← h]
            exact ihParse _ _ heq
          · exact absurd h (by simp)
          · exact absurd h (by simp)
    have hItems : ∀ isOl lines i r, simpleListItems (f + 1) isOl lines i = .ok r →
        ∀ it ∈ r.1, ∀ e ∈ it, ElemGood e := by
      intro isOl lines i r h
      unfold simpleListItems at h
      split at h
      · split at h
        · simp only [Res.ok.injEq] at h
          rw [← h]
          intro it hit
          simp at hit
        · rename_i it' k heq
          split at h
          · rename_i rest e heq2
            simp only [Res.ok.injEq] at h
            rw [← h]
            intro it hit
            rcases List.mem_cons.mp hit with h1 | h2
            · subst h1
              split at heq
              · exact ihOlItem _ _ _ heq
              · exact ihUlItem _ _ _ heq
            · exact ihItems _ _ _ _ heq2 it h2
          · exact absurd h (by simp)
          · exact absurd h (by simp)
        · exact absurd h (by simp)
        · exact absurd h (by simp)
      · simp only [Res.ok.injEq] at h
        rw [← h]
        intro it hit
        simp at hit
    have hUl : ∀ lines i r, tryParseUl (f + 1) lines i = .ok (some r) →
        ElemGood r.1 := by
      intro lines i r h
      unfold tryParseUl at h
      split at h
      · rename_i items e heq
        split at h
        · exact absurd h (by simp)
        · rename_i hne
          simp only [Res.ok.injEq, Option.some.injEq] at h
          rw [← h]
          exact .ul items (by simpa [List.isEmpty_iff] using hne)
            (ihItems _ _ _ _ heq)
      · exact absurd h (by simp)
      · exact absurd h (by simp)
    have hOl : ∀ lines i r, tryParseOl (f + 1) lines i = .ok (some r) →
        ElemGood r.1 := by
      intro lines i r h
      unfold tryParseOl at h
      split at h
      · rename_i items e heq
        split at h
        · exact absurd h (by simp)
        · rename_i hne
          simp only [Res.ok.injEq, Option.some.injEq] at h
          rw [← h]
          exact .ol items (by simpa [List.isEmpty_iff] using hne)
            (ihItems _ _ _ _ heq)
      · exact absurd h (by simp)
      · exact absurd h (by simp)
    have hDlItem : ∀ lines i r, tryParseDlItem (f + 1) lines i = .ok (some r) →
        ∀ e ∈ r.1.2, ElemGood e := by
      intro lines i r h
      unfold tryParseDlItem at h
      split at h
      · split at h
        · rename_i elems heq
          simp only [Res.ok.injEq, Option.some.injEq] at h
          rw [← h]
          exact ihParse _ _ heq
        · exact absurd h (by simp)
        · exact absurd h (by simp)
      · split at h
        split at h
        · exact absurd h (by simp)
        · split at h
          · split at h
            split at h
            · exact absurd h (by simp)
            · split at h
              · rename_i elems heq
                simp only [Res.ok.injEq, Option.some.injEq] at h
                rw [← h]
                exact ihParse _ _ heq
              · exact absurd h (by simp)
              · exact absurd h (by simp)
          · exact absurd h (by simp)
    have hDlItems : ∀ lines i r, dlItems (f + 1) lines i = .ok r →
        ∀ it ∈ r.1, ∀ e ∈ it.2, ElemGood e := by
      intro lines i r h
      unfold dlItems at h
      split at h
      · split at h
        · simp only [Res.ok.injEq] at h
          rw [← h]
          intro it hit
          simp at hit
        · rename_i it' k heq
          split at h
          · rename_i rest e heq2
            simp only [Res.ok.injEq] at h
            rw [← h]
            intro it hit
            rcases List.mem_cons.mp hit with h1 | h2
            · subst h1
              exact ihDlItem _ _ _ heq
            · exact ihDlItems _ _ _ heq2 it h2
          · exact absurd h (by simp)
          · exact absurd h (by simp)
        · exact absurd h (by simp)
        · exact absurd h (by simp)
      · simp only [Res.ok.injEq] at h
        rw [← h]
        intro it hit
        simp at hit
    have hDl : ∀ lines i r, tryParseDl (f + 1) lines i = .ok (some r) →
        ElemGood r.1 := by
      intro lines i r h
      unfold tryParseDl at h
      split at h
      · rename_i items e heq
        split at h
        · exact absurd h (by simp)
        · rename_i hne
          simp only [Res.ok.injEq, Option.some.injEq] at h
          rw [← h]
          exact .dl items (by simpa [List.isEmpty_iff] using hne)
            (ihDlItems _ _ _ heq)
      · exact absurd h (by simp)
      · exact absurd h (by simp)
    have hBqD : ∀ lines i r, tryParseBqDelim (f + 1) lines i = .ok (some r) →
        ElemGood r.1 := by
      intro lines i r h
      unfold tryParseBqDelim at h
      split at h
      · exact absurd h (by simp)
      · split at h
        · rename_i es heq
          simp only [Res.ok.injEq, Option.some.injEq] at h
          rw [← h]
          exact .blockquote es (ihParse _ _ heq)
        · exact absurd h (by simp)
        · exact absurd h (by simp)
      · exact absurd h (by simp)
      · exact absurd h (by simp)
    have hBqP : ∀ lines i r, tryParseBqPrefixed (f + 1) lines i = .ok (some r) →
        ElemGood r.1 := by
      intro lines i r h
      unfold tryParseBqPrefixed at h
      split at h
      split at h
      · exact absurd h (by simp)
      · split at h
        · rename_i es heq
          simp only [Res.ok.injEq, Option.some.injEq] at h
          rw [← h]
          exact .blockquote es (ihParse _ _ heq)
        · exact absurd h (by simp)
        · exact absurd h (by simp)
    have hAdD : ∀ lines i r, tryParseAdmonDelim (f + 1) lines i = .ok (some r) →
        ElemGood r.1 := by
      intro lines i r h
      unfold tryParseAdmonDelim at h
      split at h
      · exact absurd h (by simp)
      · split at h
        · rename_i es heq
          simp only [Res.ok.injEq, Option.some.injEq] at h
          rw [← h]
          exact .admonBox es (ihParse _ _ heq)
        · exact absurd h (by simp)
        · exact absurd h (by simp)
      · exact absurd h (by simp)
      · exact absurd h (by simp)
    have hAdB : ∀ lines i r, tryParseAdmonBoxRule (f + 1) lines i = .ok (some r) →
        ElemGood r.1 := by
      intro lines i r h
      unfold tryParseAdmonBoxRule at h
      split at h
      · split at h
        · split at h
          split at h
          · rename_i es heq
            simp only [Res.ok.injEq, Option.some.injEq] at h
            rw [← h]
            exact .admonBox es (ihParse _ _ heq)
          · exact absurd h (by simp)
          · exact absurd h (by simp)
        · exact absurd h (by simp)
      · exact absurd h (by simp)
    have hFuncs : ∀ lines i r, tryFuncs (f + 1) lines i = .ok (some r) →
        ElemGood r.1 := by
      intro lines i r h
      unfold tryFuncs at h
      split at h
      · rename_i r' heq
        simp only [Res.ok.injEq, Option.some.injEq] at h
        rw [← h]
        exact tryParseHeadingG_good Elem.h1 ['='] '━' (fun t => ElemGood.h1 t) _ _ _ heq
      · split at h
        · rename_i r' heq
          simp only [Res.ok.injEq, Option.some.injEq] at h
          rw [← h]
          exact tryParseHeadingG_good Elem.h2 ['=', '='] '─' (fun t => ElemGood.h2 t) _ _ _ heq
        · split at h
          · exact absurd h (by simp)
          · exact absurd h (by simp)
          · rename_i r' heq
            simp only [Res.ok.injEq, Option.some.injEq] at h
            rw [← h]
            exact ihUl _ _ _ heq
          · split at h
            · exact absurd h (by simp)
            · exact absurd h (by simp)
            · rename_i r' heq
              simp only [Res.ok.injEq, Option.some.injEq] at h
              rw [← h]
              exact ihOl _ _ _ heq
            · split at h
              · exact absurd h (by simp)
              · exact absurd h (by simp)
              · rename_i r' heq
                simp only [Res.ok.injEq, Option.some.injEq] at h
                rw [← h]
                exact ihDl _ _ _ heq
              · split at h
                · exact absurd h (by simp)
                · exact absurd h (by simp)
                · rename_i r' heq
                  simp only [Res.ok.injEq, Option.some.injEq] at h
                  rw [← h]
                  exact tryParsePreDelim_good _ _ _ heq
                · split at h
                  · exact absurd h (by simp)
                  · exact absurd h (by simp)
                  · rename_i r' heq
                    simp only [Res.ok.injEq, Option.some.injEq] at h
                    rw [← h]
                    exact tryParsePreIndented_good _ _ _ heq
                  · split at h
                    · rename_i r' heq
                      simp only [Res.ok.injEq, Option.some.injEq] at h
                      rw [← h]
                      exact tryParseHr_good _ _ _ heq
                    · split at h
                      · exact absurd h (by simp)
                      · exact absurd h (by simp)
                      · rename_i r' heq
                        simp only [Res.ok.injEq, Option.some.injEq] at h
                        rw [← h]
                        exact ihBqD _ _ _ heq
                      · split at h
                        · exact absurd h (by simp)
                        · exact absurd h (by simp)
                        · rename_i r' heq
                          simp only [Res.ok.injEq, Option.some.injEq] at h
                          rw [← h]
                          exact ihBqP _ _ _ heq
                        · split at h
                          · exact absurd h (by simp)
                          · exact absurd h (by simp)
                          · rename_i r' heq
                            simp only [Res.ok.injEq, Option.some.injEq] at h
                            rw [← h]
                            exact ihAdD _ _ _ heq
                          · split at h
                            · exact absurd h (by simp)
                            · exact absurd h (by simp)
                            · rename_i r' heq
                              simp only [Res.ok.injEq, Option.some.injEq] at h
                              rw [← h]
                              exact ihAdB _ _ _ heq
                            · split at h
                              · rename_i r' heq
                                simp only [Res.ok.injEq, Option.some.injEq] at h
                                rw [← h]
                                exact tryParseVerbatim_good _ _ _ heq
                              · split at h
                                · rename_i r' heq
                                  simp only [Res.ok.injEq, Option.some.injEq] at h
                                  rw [← h]
                                  exact tryParseP_good _ _ _ heq
                                · exact absurd h (by simp)
    have hLoop : ∀ lines i acc es, parseLoop (f + 1) lines i acc = .ok es →
        (∀ e ∈ acc, ElemGood e) → ∀ e ∈ es, ElemGood e := by
      intro lines i acc es h hacc
      unfold parseLoop at h
      split at h
      · split at h
        · rename_i e' k heq
          refine ihLoop _ _ _ _ h ?_
          intro e he
          rcases List.mem_append.mp he with h1 | h2
          · exact hacc e h1
          · have := ihFuncs _ _ _ heq
            simp only [List.mem_singleton] at h2
            rw [h2]
            exact this
        · exact ihLoop _ _ _ _ h hacc
        · exact absurd h (by simp)
        · exact absurd h (by simp)
      · simp only [Res.ok.injEq] at h
        rw [← h]
        exact hacc
    have hParse : ∀ lines es, parse (f + 1) lines = .ok es →
        ∀ e ∈ es, ElemGood e := by
      intro lines es h
      unfold parse at h
      refine ihLoop lines 0 [] es h ?_
      intro e he
      simp at he
    exact ⟨hUlItem, hOlItem, hItems, hUl, hOl, hDlItem, hDlItems, hDl,
      hBqD, hBqP, hAdD, hAdB, hFuncs, hLoop, hParse⟩

/-- C8: the parser never produces an empty `UnorderedList`,
`OrderedList` or `DefinitionList` at any nesting depth: every element of
a successful parse satisfies the recursive non-emptiness invariant
`ElemGood`. -/
theorem C8_no_empty_lists (fuel : Nat) (lines : List Str) (es : List Elem)
    (h : parse fuel lines = .ok es) : ∀ e ∈ es, ElemGood e :=
  (parserGood fuel).2.2.2.2.2.2.2.2.2.2.2.2.2.2 lines es h

/-- Witness for `C8_no_empty_lists` on a nested concrete input. -/
theorem C8_no_empty_lists_witness :
    ElemGood (Elem.ul [[Elem.p [strL ("Hi.")]], [Elem.p [strL ("Yo.")]]]) :=
  C8_no_empty_lists 100 (splitLines (strL ("* Hi.\n* Yo.\n")))
    [Elem.ul [[Elem.p [strL ("Hi.")]], [Elem.p [strL ("Yo.")]]]] rfl
    (Elem.ul [[Elem.p [strL ("Hi.")]], [Elem.p [strL ("Yo.")]]]) (by simp)

/-! ## Claim C10: size measure lemmas

`muL` sums `length + 1` over the lines, so consuming a line always
shrinks the measure even when the line is empty. -/

theorem muL_nil : muL [] = 0 := rfl

theorem muL_cons (l : Str) (ls : List Str) :
    muL (l :: ls) = l.length + 1 + muL ls := by
  simp only [muL, List.map_cons, List.sum_cons]

theorem muL_drop_le (ls : List Str) (n : Nat) : muL (ls.drop n) ≤ muL ls := by
  induction ls generalizing n with
  | nil => simp
  | cons l rest ih =>
    match n with
    | 0 => exact Nat.le_refl _
    | k + 1 =>
      simp only [List.drop_succ_cons]
      calc muL (rest.drop k) ≤ muL rest := ih k
        _ ≤ muL (l :: rest) := by rw [muL_cons]; omega

theorem muL_drop_add (ls : List Str) (n : Nat) (h : n ≤ ls.length) :
    muL (ls.drop n) + n ≤ muL ls := by
  induction ls generalizing n with
  | nil =>
    simp only [List.length_nil, Nat.le_zero] at h
    subst h
    simp
  | cons l rest ih =>
    match n with
    | 0 => simp
    | k + 1 =>
      simp only [List.drop_succ_cons]
      have := ih k (by simpa using h)
      rw [muL_cons]
      omega

theorem muAt_between (lines : List Str) (i k : Nat) (hik : i ≤ k)
    (hk : k ≤ lines.length) :
    muL (lines.drop k) + (k - i) ≤ muL (lines.drop i) := by
  have h1 : lines.drop k = (lines.drop i).drop (k - i) := by
    rw [List.drop_drop]
    congr 1
    omega
  have h2 : k - i ≤ (lines.drop i).length := by
    rw [List.length_drop]
    omega
  rw [h1]
  exact muL_drop_add (lines.drop i) (k - i) h2

theorem muL_drop_mono (lines : List Str) (i k : Nat) (hik : i ≤ k) :
    muL (lines.drop k) ≤ muL (lines.drop i) := by
  have h1 : lines.drop k = (lines.drop i).drop (k - i) := by
    rw [List.drop_drop]
    congr 1
    omega
  rw [h1]
  exact muL_drop_le _ _

theorem muAt_cons (lines : List Str) (i : Nat) (h : i < lines.length) :
    muL (lines.drop i) = (curLine lines i).length + 1 + muL (lines.drop (i + 1)) := by
  rw [List.drop_eq_getElem_cons h, muL_cons, curLine, List.getD_eq_getElem _ _ h]

theorem curLine_ne_nil_lt (lines : List Str) (i : Nat) (h : curLine lines i ≠ []) :
    i < lines.length := by
  by_contra hc
  push_neg at hc
  rw [curLine, List.getD_eq_default _ _ hc] at h
  exact h rfl

theorem muL_sublist {l₁ l₂ : List Str} (h : l₁.Sublist l₂) : muL l₁ ≤ muL l₂ := by
  unfold muL
  refine List.Sublist.sum_le_sum (h.map _) ?_
  intro a ha
  exact Nat.zero_le a

theorem muL_removeTrailing {ls r : List Str}
    (h : removeTrailingEmptyLines ls = some r) : muL r ≤ muL ls := by
  unfold removeTrailingEmptyLines at h
  split at h
  · exact absurd h (by simp)
  · simp only [Option.some.injEq] at h
    subst h
    have h1 : (ls.reverse.dropWhile (fun l => l.isEmpty)).Sublist ls.reverse :=
      List.dropWhile_sublist _
    have h2 := h1.reverse
    rw [List.reverse_reverse] at h2
    exact muL_sublist h2

theorem muL_unindent (k : Nat) (ls : List Str) :
    muL (unindentLines k ls) ≤ muL ls := by
  induction ls with
  | nil => simp [unindentLines]
  | cons l rest ih =>
    unfold unindentLines at ih ⊢
    simp only [List.map_cons]
    rw [muL_cons, muL_cons]
    have hlen : (if (indentStr k).isPrefixOf l then l.drop k else l).length ≤ l.length := by
      split
      · simp only [List.length_drop]
        omega
      · exact Nat.le_refl _
    omega

/-! ## Claim C10: blank-line skipping -/

theorem skipCount_le (ls : List Str) : skipCount ls ≤ ls.length := by
  induction ls with
  | nil => simp [skipCount]
  | cons l rest ih =>
    unfold skipCount
    split
    · simp only [List.length_cons]
      omega
    · simp

theorem skipEmptyLines_ge (lines : List Str) (i : Nat) :
    i ≤ skipEmptyLines lines i := by
  unfold skipEmptyLines
  omega

theorem skipEmptyLines_le (lines : List Str) (i : Nat) (h : i ≤ lines.length) :
    skipEmptyLines lines i ≤ lines.length := by
  unfold skipEmptyLines
  have := skipCount_le (lines.drop i)
  rw [List.length_drop] at this
  omega

theorem getD_drop_eq (ls : List Str) (i n : Nat) :
    (ls.drop i).getD n [] = ls.getD (i + n) [] := by
  simp [List.getD, List.getElem?_drop]

theorem skipCount_get (ls : List Str) (h : skipCount ls < ls.length) :
    ls.getD (skipCount ls) [] ≠ [] := by
  induction ls with
  | nil => simp at h
  | cons l rest ih =>
    unfold skipCount at h ⊢
    by_cases hl : l.isEmpty
    · rw [if_pos hl] at h ⊢
      simp only [List.getD_cons_succ]
      exact ih (by simpa using h)
    · rw [if_neg hl]
      simp only [List.getD_cons_zero]
      exact fun hc => hl (by rw [hc]; rfl)

theorem skipEmptyLines_cur (lines : List Str) (i : Nat)
    (h : skipEmptyLines lines i < lines.length) :
    curLine lines (skipEmptyLines lines i) ≠ [] := by
  have hi : i ≤ lines.length := by
    have := skipEmptyLines_ge lines i
    omega
  unfold skipEmptyLines at h ⊢
  unfold curLine
  rw [← getD_drop_eq]
  apply skipCount_get
  rw [List.length_drop]
  omega

theorem skipEmptyLines_stay (lines : List Str) (i : Nat)
    (h : curLine lines i ≠ []) : skipEmptyLines lines i = i := by
  have hi : i < lines.length := curLine_ne_nil_lt lines i h
  unfold skipEmptyLines
  rw [List.drop_eq_getElem_cons hi]
  simp only [skipCount]
  rw [curLine, List.getD_eq_getElem _ _ hi] at h
  rw [if_neg (by simp only [List.isEmpty_iff]; exact h)]
  omega

/-! ## Claim C10: collector consumption bounds -/

theorem collectContLines_spec (pred : Str → Bool) (rest ls : List Str) (n : Nat)
    (h : collectContLines pred rest = (ls, n)) :
    n ≤ rest.length ∧ ls.length ≤ n ∧ muL ls + muL (rest.drop n) ≤ muL rest := by
  induction rest generalizing ls n with
  | nil =>
    unfold collectContLines at h
    simp only [Prod.mk.injEq] at h
    obtain ⟨h1, h2⟩ := h
    subst h1 h2
    simp [muL_nil]
  | cons cur tail ih =>
    unfold collectContLines at h
    rcases hrec : collectContLines pred tail with ⟨ls0, n0⟩
    rw [hrec] at h
    obtain ⟨ih1, ih2, ih3⟩ := ih ls0 n0 hrec
    split at h
    · rename_i hc
      simp only [Prod.mk.injEq] at h
      obtain ⟨h1, h2⟩ := h
      subst h1 h2
      have hcur : cur = [] := List.isEmpty_iff.mp hc
      subst hcur
      refine ⟨by simp; omega, by simp; omega, ?_⟩
      simp only [List.drop_succ_cons]
      rw [muL_cons, muL_cons]
      simp only [List.length_nil]
      omega
    · split at h
      · simp only [Prod.mk.injEq] at h
        obtain ⟨h1, h2⟩ := h
        subst h1 h2
        refine ⟨by simp; omega, by simp; omega, ?_⟩
        simp only [List.drop_succ_cons]
        rw [muL_cons, muL_cons]
        omega
      · simp only [Prod.mk.injEq] at h
        obtain ⟨h1, h2⟩ := h
        subst h1 h2
        simp [muL_nil]

theorem collectContLines_pos (pred : Str → Bool) (cur : Str) (tail ls : List Str)
    (n : Nat) (h : collectContLines pred (cur :: tail) = (ls, n))
    (hc : ¬ cur.isEmpty) (hp : pred cur) : 1 ≤ n := by
  unfold collectContLines at h
  rcases hrec : collectContLines pred tail with ⟨ls0, n0⟩
  rw [hrec, if_neg hc, if_pos hp] at h
  simp only [Prod.mk.injEq] at h
  omega

theorem collectDelimLines_spec (delim : Str) (rest ls : List Str) (n : Nat)
    (h : collectDelimLines delim rest = (ls, n)) :
    n ≤ rest.length ∧ muL ls + muL (rest.drop n) ≤ muL rest := by
  induction rest generalizing ls n with
  | nil =>
    unfold collectDelimLines at h
    simp only [Prod.mk.injEq] at h
    obtain ⟨h1, h2⟩ := h
    subst h1 h2
    simp [muL_nil]
  | cons cur tail ih =>
    unfold collectDelimLines at h
    rcases hrec : collectDelimLines delim tail with ⟨ls0, n0⟩
    rw [hrec] at h
    obtain ⟨ih1, ih2⟩ := ih ls0 n0 hrec
    split at h
    · simp only [Prod.mk.injEq] at h
      obtain ⟨h1, h2⟩ := h
      subst h1 h2
      simp only [List.drop_succ_cons, List.drop_zero]
      rw [muL_cons, muL_nil]
      refine ⟨by simp, by omega⟩
    · simp only [Prod.mk.injEq] at h
      obtain ⟨h1, h2⟩ := h
      subst h1 h2
      refine ⟨by simp; omega, ?_⟩
      simp only [List.drop_succ_cons]
      rw [muL_cons, muL_cons]
      omega

theorem collectBqLines_spec (rest : List Str) (ls : List Str) (n : Nat)
    (h : collectBqLines rest = (ls, n)) :
    n ≤ rest.length ∧ ls.length ≤ n ∧
      muL ls + n + muL (rest.drop n) ≤ muL rest := by
  induction rest generalizing ls n with
  | nil =>
    unfold collectBqLines at h
    simp only [Prod.mk.injEq] at h
    obtain ⟨h1, h2⟩ := h
    subst h1 h2
    simp [muL_nil]
  | cons cur tail ih =>
    unfold collectBqLines at h
    rcases hrec : collectBqLines tail with ⟨ls0, n0⟩
    rw [hrec] at h
    obtain ⟨ih1, ih2, ih3⟩ := ih ls0 n0 hrec
    split at h
    · rename_i hc
      simp only [Prod.mk.injEq] at h
      obtain ⟨h1, h2⟩ := h
      subst h1 h2
      subst hc
      refine ⟨by simp; omega, by simp; omega, ?_⟩
      simp only [List.drop_succ_cons]
      rw [muL_cons, muL_cons]
      simp only [List.length_nil, List.length_cons]
      omega
    · split at h
      · rename_i hpre
        simp only [Prod.mk.injEq] at h
        obtain ⟨h1, h2⟩ := h
        subst h1 h2
        have hp2 : ('>' :: [' ']) <+: cur := List.isPrefixOf_iff_prefix.mp hpre
        have hlen2 : 2 ≤ cur.length := by
          have := hp2.length_le
          simpa using this
        refine ⟨by simp; omega, by simp; omega, ?_⟩
        simp only [List.drop_succ_cons]
        rw [muL_cons, muL_cons]
        simp only [List.length_drop]
        omega
      · simp only [Prod.mk.injEq] at h
        obtain ⟨h1, h2⟩ := h
        subst h1 h2
        simp [muL_nil]

theorem admonContentMatch_length (l g : Str) (h : admonContentMatch l = some g) :
    g.length + 2 ≤ l.length := by
  unfold admonContentMatch at h
  split at h
  · rename_i a rest
    split at h
    · simp only [Option.some.injEq] at h
      subst h
      have ht : (rest.takeWhile (fun c : Char => c ≠ '│')).length ≤ rest.length :=
        (List.takeWhile_sublist _).length_le
      simp only [List.length_cons]
      omega
    · exact absurd h (by simp)
  · exact absurd h (by simp)

theorem collectAdmonLines_spec (rest : List Str) (ls : List Str) (n : Nat)
    (h : collectAdmonLines rest = (ls, n)) :
    n ≤ rest.length ∧ muL ls + muL (rest.drop n) ≤ muL rest := by
  induction rest generalizing ls n with
  | nil =>
    unfold collectAdmonLines at h
    simp only [Prod.mk.injEq] at h
    obtain ⟨h1, h2⟩ := h
    subst h1 h2
    simp [muL_nil]
  | cons cur tail ih =>
    unfold collectAdmonLines at h
    rcases hrec : collectAdmonLines tail with ⟨ls0, n0⟩
    rw [hrec] at h
    obtain ⟨ih1, ih2⟩ := ih ls0 n0 hrec
    split at h
    · simp only [Prod.mk.injEq] at h
      obtain ⟨h1, h2⟩ := h
      subst h1 h2
      simp only [List.drop_succ_cons, List.drop_zero]
      rw [muL_cons, muL_nil]
      refine ⟨by simp, by omega⟩
    · split at h
      · simp only [Prod.mk.injEq] at h
        obtain ⟨h1, h2⟩ := h
        subst h1 h2
        refine ⟨by simp; omega, ?_⟩
        simp only [List.drop_succ_cons]
        rw [muL_cons, muL_cons]
        simp only [List.length_nil]
        omega
      · split at h
        · rename_i g hm
          simp only [Prod.mk.injEq] at h
          obtain ⟨h1, h2⟩ := h
          subst h1 h2
          have hg := admonContentMatch_length cur g hm
          have hrs : (rstripL g).length ≤ g.length := rstripL_length_le g
          refine ⟨by simp; omega, ?_⟩
          simp only [List.drop_succ_cons]
          rw [muL_cons, muL_cons]
          omega
        · simp only [Prod.mk.injEq] at h
          obtain ⟨h1, h2⟩ := h
          subst h1 h2
          refine ⟨by simp; omega, ?_⟩
          simp only [List.drop_succ_cons]
          rw [muL_cons]
          omega

theorem collectVerbatimLines_spec (rest : List Str) (ls : List Str) (n : Nat)
    (h : collectVerbatimLines rest = (ls, n)) :
    ls.length = n ∧ n ≤ rest.length := by
  induction rest generalizing ls n with
  | nil =>
    unfold collectVerbatimLines at h
    simp only [Prod.mk.injEq] at h
    obtain ⟨h1, h2⟩ := h
    subst h1 h2
    simp
  | cons cur tail ih =>
    unfold collectVerbatimLines at h
    rcases hrec : collectVerbatimLines tail with ⟨ls0, n0⟩
    rw [hrec] at h
    split at h
    · simp only [Prod.mk.injEq] at h
      obtain ⟨h1, h2⟩ := h
      subst h1 h2
      obtain ⟨ih1, ih2⟩ := ih ls0 n0 hrec
      simp only [List.length_cons]
      omega
    · simp only [Prod.mk.injEq] at h
      obtain ⟨h1, h2⟩ := h
      subst h1 h2
      simp

theorem collectPLines_spec (rest : List Str) (ls : List Str) (n : Nat)
    (h : collectPLines rest = (ls, n)) :
    ls.length = n ∧ n ≤ rest.length := by
  induction rest generalizing ls n with
  | nil =>
    unfold collectPLines at h
    simp only [Prod.mk.injEq] at h
    obtain ⟨h1, h2⟩ := h
    subst h1 h2
    simp
  | cons cur tail ih =>
    unfold collectPLines at h
    rcases hrec : collectPLines tail with ⟨ls0, n0⟩
    rw [hrec] at h
    split at h
    · simp only [Prod.mk.injEq] at h
      obtain ⟨h1, h2⟩ := h
      subst h1 h2
      simp
    · simp only [Prod.mk.injEq] at h
      obtain ⟨h1, h2⟩ := h
      subst h1 h2
      obtain ⟨ih1, ih2⟩ := ih ls0 n0 hrec
      simp only [List.length_cons]
      omega

theorem collectDlTerms_spec (rest : List Str) (ts : List Str) (n : Nat)
    (h : collectDlTerms rest = (ts, n)) :
    ts.length = n ∧ n ≤ rest.length := by
  induction rest generalizing ts n with
  | nil =>
    unfold collectDlTerms at h
    simp only [Prod.mk.injEq] at h
    obtain ⟨h1, h2⟩ := h
    subst h1 h2
    simp
  | cons cur tail ih =>
    unfold collectDlTerms at h
    rcases hrec : collectDlTerms tail with ⟨ls0, n0⟩
    rw [hrec] at h
    split at h
    · simp only [Prod.mk.injEq] at h
      obtain ⟨h1, h2⟩ := h
      subst h1 h2
      obtain ⟨ih1, ih2⟩ := ih ls0 n0 hrec
      simp only [List.length_cons]
      omega
    · simp only [Prod.mk.injEq] at h
      obtain ⟨h1, h2⟩ := h
      subst h1 h2
      simp

/-! ## Claim C10: matcher shape lemmas -/

theorem bulletLineMatch_length (l g : Str) (h : bulletLineMatch l = some g) :
    l.length = g.length + 2 := by
  unfold bulletLineMatch at h
  split at h
  · split at h
    · simp only [Option.some.injEq] at h
      subst h
      simp
    · exact absurd h (by simp)
  · exact absurd h (by simp)

theorem bulletLineMatch_ne_nil (l g : Str) (h : bulletLineMatch l = some g) :
    l ≠ [] := by
  intro he
  subst he
  simp [bulletLineMatch] at h

theorem olItemStart_length (l : Str) (p : Nat) (g : Str)
    (h : olItemStart l = some (p, g)) : l.length = p + g.length ∧ 2 ≤ p := by
  have t1 : (l.takeWhile (fun c => c = ' ')).length ≤ l.length :=
    (List.takeWhile_sublist _).length_le
  have t2 : ((l.drop (l.takeWhile (fun c => c = ' ')).length).takeWhile
      (fun c => c.isDigit)).length ≤
      (l.drop (l.takeWhile (fun c => c = ' ')).length).length :=
    (List.takeWhile_sublist _).length_le
  simp only [olItemStart] at h
  split at h
  · rename_i r heq
    simp only [Option.some.injEq] at h
    subst h
    split at heq
    · split at heq
      · rename_i hpat
        split at heq
        · simp only [Option.some.injEq, Prod.mk.injEq] at heq
          obtain ⟨hp, hg⟩ := heq
          subst hp hg
          have t3 := congrArg List.length hpat
          simp only [List.length_drop, List.length_cons] at t2 t3
          constructor
          · simp only [List.length_cons]
            omega
          · omega
        · exact absurd heq (by simp)
      · exact absurd heq (by simp)
    · exact absurd heq (by simp)
  · split at h
    · rename_i d rest
      split at h
      · simp only [Option.some.injEq, Prod.mk.injEq] at h
        obtain ⟨hp, hg⟩ := h
        subst hp hg
        refine ⟨?_, by omega⟩
        simp only [List.length_cons]
        omega
      · exact absurd h (by simp)
    · rename_i c d rest
      split at h
      · simp only [Option.some.injEq, Prod.mk.injEq] at h
        obtain ⟨hp, hg⟩ := h
        subst hp hg
        refine ⟨?_, by omega⟩
        simp only [List.length_cons]
        omega
      · exact absurd h (by simp)
    · exact absurd h (by simp)

theorem olItemStart_ne_nil (l : Str) (r : Nat × Str)
    (h : olItemStart l = some r) : l ≠ [] := by
  intro he
  subst he
  have hnone : olItemStart ([] : Str) = none := rfl
  rw [hnone] at h
  exact Option.noConfusion h

theorem dcolonSplitAt_length (l : Str) (k : Nat) (t d : Str)
    (hk : 1 ≤ k) (h : dcolonSplitAt l k = some (t, d)) :
    d.length + 4 ≤ l.length := by
  unfold dcolonSplitAt at h
  split at h
  · rename_i hpat
    split at h
    · simp only [Option.some.injEq, Prod.mk.injEq] at h
      obtain ⟨ht, hd⟩ := h
      subst ht hd
      have hkl : k < l.length := by
        by_contra hc
        push_neg at hc
        rw [List.drop_eq_nil_of_le hc] at hpat
        exact List.noConfusion hpat
      have t3 := congrArg List.length hpat
      simp only [List.length_drop, List.length_cons] at t3
      simp only [List.length_cons]
      omega
    · exact absurd h (by simp)
  · exact absurd h (by simp)

theorem dcolonSplitDown_length (l : Str) (k : Nat) (t d : Str)
    (h : dcolonSplitDown l k = some (t, d)) : d.length + 4 ≤ l.length := by
  induction k with
  | zero => exact absurd h (by simp [dcolonSplitDown])
  | succ k' ih =>
    unfold dcolonSplitDown at h
    split at h
    · rename_i r heq
      simp only [Option.some.injEq] at h
      subst h
      exact dcolonSplitAt_length l (k' + 1) t d (by omega) heq
    · exact ih h

theorem singleLineDtMatch_length (l : Str) (t d : Str)
    (h : singleLineDtMatch l = some (t, d)) :
    d.length + 4 ≤ l.length ∧ l ≠ [] := by
  unfold singleLineDtMatch at h
  split at h
  · split at h
    · exact ⟨dcolonSplitDown_length _ _ t d h, by simp⟩
    · exact absurd h (by simp)
  · exact absurd h (by simp)

theorem dotStart_olItemStart (l : Str) (h : dotStartMatch l = true) :
    olItemStart l ≠ none := by
  unfold dotStartMatch at h
  split at h
  · rename_i d rest
    have hd : ¬ isSpaceC d = true := of_decide_eq_true h
    have key : olItemStart ('.' :: ' ' :: d :: rest) =
        if ¬ isSpaceC d then some (2, d :: rest) else none := rfl
    rw [key, if_pos hd]
    simp
  · exact absurd h (by simp)

theorem underlineMatch_next (uch : Char) (lines : List Str) (i : Nat)
    (h : underlineMatch uch (nextLine lines i) = true) : i + 1 < lines.length := by
  by_contra hc
  unfold nextLine at h
  rw [if_neg hc] at h
  simp [underlineMatch] at h

theorem headingTextMatch_nil (pfx : Str) : headingTextMatch pfx [] = none := by
  unfold headingTextMatch
  split
  · simp
  · rfl

theorem hrMatch_ne_nil (l : Str) (h : hrMatch l = true) : l ≠ [] := by
  intro he
  subst he
  exact absurd h (by decide)

theorem indented4SMatch_shape (l : Str) (h : indented4SMatch l = true) :
    l ≠ [] ∧ indentedContentMatch l = true := by
  unfold indented4SMatch at h
  split at h
  · exact ⟨by simp, rfl⟩
  · exact absurd h (by simp)

theorem head?_ne_nil (l : Str) (c : Char) (h : l.head? = some c) : l ≠ [] := by
  intro he
  subst he
  simp at h

/-! ## Claim C10: cursor advancement of the non-recursive rules -/

theorem drop_cur_cons (lines : List Str) (i : Nat) (h : i < lines.length) :
    lines.drop i = curLine lines i :: lines.drop (i + 1) := by
  rw [curLine, List.getD_eq_getElem _ _ h]
  exact List.drop_eq_getElem_cons h

theorem tryParseDelimBlock_ne_gas (delim : Str) (lines : List Str) (i : Nat) :
    tryParseDelimBlock delim lines i ≠ .gas := by
  unfold tryParseDelimBlock
  split
  · simp
  · split
    split
    · simp
    · simp

theorem tryParseDelimBlock_adv (delim : Str) (lines : List Str) (i : Nat)
    (ls2 : List Str) (k : Nat) (hi : i ≤ lines.length) (hd : delim ≠ [])
    (h : tryParseDelimBlock delim lines i = .ok (some (ls2, k))) :
    i < k ∧ k ≤ lines.length ∧ muL ls2 + 1 ≤ muL (lines.drop i) := by
  unfold tryParseDelimBlock at h
  split at h
  · exact absurd h (by simp)
  · rename_i hcur
    have hceq : curLine lines i = delim := not_not.mp hcur
    have hne : curLine lines i ≠ [] := by rw [hceq]; exact hd
    have hlt : i < lines.length := curLine_ne_nil_lt lines i hne
    split at h
    rename_i ls0 n hcol
    split at h
    · exact absurd h (by simp)
    · rename_i ls' hrm
      simp only [Res.ok.injEq, Option.some.injEq, Prod.mk.injEq] at h
      obtain ⟨h1, h2⟩ := h
      subst h1 h2
      obtain ⟨c1, c2⟩ := collectDelimLines_spec delim (lines.drop (i + 1)) ls0 n hcol
      have hrm2 := muL_removeTrailing hrm
      have hmu := muAt_cons lines i hlt
      have hlen := List.length_drop (i + 1) lines
      have hc : (curLine lines i).length = delim.length := by rw [hceq]
      have hdlen : 1 ≤ delim.length := by
        cases delim
        · exact absurd rfl hd
        · simp
      refine ⟨by omega, by omega, by omega⟩

theorem tryParsePreIndented_ne_gas (lines : List Str) (i : Nat) :
    tryParsePreIndented lines i ≠ .gas := by
  unfold tryParsePreIndented
  split
  · simp
  · split
    split
    · simp
    · simp

theorem tryParsePreIndented_adv (lines : List Str) (i : Nat) (e : Elem) (k : Nat)
    (hi : i ≤ lines.length)
    (h : tryParsePreIndented lines i = .ok (some (e, k))) :
    i < k ∧ k ≤ lines.length := by
  unfold tryParsePreIndented at h
  split at h
  · exact absurd h (by simp)
  · rename_i hm
    have hmatch : indented4SMatch (curLine lines i) = true := not_not.mp hm
    obtain ⟨hne, hcont⟩ := indented4SMatch_shape _ hmatch
    have hlt : i < lines.length := curLine_ne_nil_lt lines i hne
    split at h
    rename_i ls n hcol
    split at h
    · exact absurd h (by simp)
    · rename_i ls2 hrm
      simp only [Res.ok.injEq, Option.some.injEq, Prod.mk.injEq] at h
      obtain ⟨h1, h2⟩ := h
      subst h2
      obtain ⟨c1, c2, c3⟩ := collectContLines_spec _ _ _ _ hcol
      rw [drop_cur_cons lines i hlt] at hcol
      have hpos : 1 ≤ n := collectContLines_pos _ _ _ _ _ hcol
        (by simp only [List.isEmpty_iff]; exact hne) hcont
      have hlen := List.length_drop i lines
      exact ⟨by omega, by omega⟩

theorem tryParseHeadingG_adv (mk : Str → Elem) (pfx : Str) (uch : Char)
    (lines : List Str) (i : Nat) (e : Elem) (k : Nat)
    (h : tryParseHeadingG mk pfx uch lines i = some (e, k)) :
    i < k ∧ k ≤ lines.length := by
  unfold tryParseHeadingG at h
  split at h
  · rename_i g hmt
    have hne : curLine lines i ≠ [] := by
      intro he
      rw [he, headingTextMatch_nil] at hmt
      exact Option.noConfusion hmt
    have hlt : i < lines.length := curLine_ne_nil_lt lines i hne
    split at h
    · simp only [Option.some.injEq, Prod.mk.injEq] at h
      obtain ⟨h1, h2⟩ := h
      omega
    · split at h
      · rename_i hu
        have := underlineMatch_next uch lines i hu
        simp only [Option.some.injEq, Prod.mk.injEq] at h
        obtain ⟨h1, h2⟩ := h
        omega
      · exact absurd h (by simp)
  · split at h
    · rename_i hu
      have := underlineMatch_next uch lines i hu
      simp only [Option.some.injEq, Prod.mk.injEq] at h
      obtain ⟨h1, h2⟩ := h
      omega
    · exact absurd h (by simp)

theorem tryParseHr_adv (lines : List Str) (i : Nat) (e : Elem) (k : Nat)
    (h : tryParseHr lines i = some (e, k)) : i < k ∧ k ≤ lines.length := by
  unfold tryParseHr at h
  split at h
  · rename_i hhr
    have hlt : i < lines.length := curLine_ne_nil_lt lines i (hrMatch_ne_nil _ hhr)
    simp only [Option.some.injEq, Prod.mk.injEq] at h
    obtain ⟨h1, h2⟩ := h
    omega
  · exact absurd h (by simp)

theorem tryParseVerbatim_adv (lines : List Str) (i : Nat) (e : Elem) (k : Nat)
    (hi : i ≤ lines.length)
    (h : tryParseVerbatim lines i = some (e, k)) : i < k ∧ k ≤ lines.length := by
  unfold tryParseVerbatim at h
  split at h
  rename_i ls n hcol
  split at h
  · exact absurd h (by simp)
  · rename_i hemp
    simp only [Option.some.injEq, Prod.mk.injEq] at h
    obtain ⟨h1, h2⟩ := h
    obtain ⟨c1, c2⟩ := collectVerbatimLines_spec _ _ _ hcol
    have hlen := List.length_drop i lines
    have hne : ls ≠ [] := by
      intro he
      rw [he] at hemp
      exact hemp rfl
    have hn : 1 ≤ n := by
      rcases ls with _ | ⟨a, tl⟩
      · exact absurd rfl hne
      · simp only [List.length_cons] at c1
        omega
    omega

theorem tryParseP_adv (lines : List Str) (i : Nat) (e : Elem) (k : Nat)
    (hi : i ≤ lines.length)
    (h : tryParseP lines i = some (e, k)) : i < k ∧ k ≤ lines.length := by
  unfold tryParseP at h
  split at h
  rename_i ls n hcol
  split at h
  · exact absurd h (by simp)
  · rename_i hemp
    simp only [Option.some.injEq, Prod.mk.injEq] at h
    obtain ⟨h1, h2⟩ := h
    obtain ⟨c1, c2⟩ := collectPLines_spec _ _ _ hcol
    have hlen := List.length_drop i lines
    have hne : ls ≠ [] := by
      intro he
      rw [he] at hemp
      exact hemp rfl
    have hn : 1 ≤ n := by
      rcases ls with _ | ⟨a, tl⟩
      · exact absurd rfl hne
      · simp only [List.length_cons] at c1
        omega
    omega

theorem tryParseP_none (lines : List Str) (i : Nat) (hlt : i < lines.length)
    (hne : curLine lines i ≠ []) (h : tryParseP lines i = none) :
    (bulletLineMatch (curLine lines i)).isSome = true ∨
      dotStartMatch (curLine lines i) = true := by
  unfold tryParseP at h
  split at h
  rename_i ls n hcol
  split at h
  · rename_i hemp
    rw [drop_cur_cons lines i hlt] at hcol
    unfold collectPLines at hcol
    split at hcol
    · rename_i hcond
      simp only [Bool.or_eq_true] at hcond
      rcases hcond with (hc | hb) | hd
      · exact absurd (List.isEmpty_iff.mp hc) hne
      · exact Or.inl hb
      · exact Or.inr hd
    · split at hcol
      rename_i ls0 n0 hrec
      simp only [Prod.mk.injEq] at hcol
      obtain ⟨h1, h2⟩ := hcol
      subst h1
      simp at hemp
  · exact absurd h (by simp)

/-! ## Claim C10: item rules advance the cursor and refuse only
non-matching lines -/

theorem tryParseUlItem_adv (f : Nat) (lines : List Str) (i : Nat)
    (it : List Elem) (k : Nat) (hi : i ≤ lines.length)
    (h : tryParseUlItem f lines i = .ok (some (it, k))) :
    i < k ∧ k ≤ lines.length := by
  match f with
  | 0 => exact absurd h (by simp [tryParseUlItem])
  | f' + 1 =>
    unfold tryParseUlItem at h
    split at h
    · exact absurd h (by simp)
    · rename_i g1 hbul
      have hlt : i < lines.length :=
        curLine_ne_nil_lt lines i (bulletLineMatch_ne_nil _ _ hbul)
      split at h
      rename_i cont n hcol
      split at h
      · exact absurd h (by simp)
      · split at h
        · simp only [Res.ok.injEq, Option.some.injEq, Prod.mk.injEq] at h
          obtain ⟨h1, h2⟩ := h
          obtain ⟨c1, c2, c3⟩ := collectContLines_spec _ _ _ _ hcol
          have hlen := List.length_drop (i + 1) lines
          omega
        · exact absurd h (by simp)
        · exact absurd h (by simp)

theorem tryParseOlItem_adv (f : Nat) (lines : List Str) (i : Nat)
    (it : List Elem) (k : Nat) (hi : i ≤ lines.length)
    (h : tryParseOlItem f lines i = .ok (some (it, k))) :
    i < k ∧ k ≤ lines.length := by
  match f with
  | 0 => exact absurd h (by simp [tryParseOlItem])
  | f' + 1 =>
    unfold tryParseOlItem at h
    split at h
    · exact absurd h (by simp)
    · rename_i pfxLen g2 hol
      have hlt : i < lines.length :=
        curLine_ne_nil_lt lines i (olItemStart_ne_nil _ _ hol)
      split at h
      rename_i cont n hcol
      split at h
      · exact absurd h (by simp)
      · split at h
        · simp only [Res.ok.injEq, Option.some.injEq, Prod.mk.injEq] at h
          obtain ⟨h1, h2⟩ := h
          obtain ⟨c1, c2, c3⟩ := collectContLines_spec _ _ _ _ hcol
          have hlen := List.length_drop (i + 1) lines
          omega
        · exact absurd h (by simp)
        · exact absurd h (by simp)

theorem tryParseDlItem_adv (f : Nat) (lines : List Str) (i : Nat)
    (it : List Str × List Elem) (k : Nat) (hi : i ≤ lines.length)
    (h : tryParseDlItem f lines i = .ok (some (it, k))) :
    i < k ∧ k ≤ lines.length := by
  match f with
  | 0 => exact absurd h (by simp [tryParseDlItem])
  | f' + 1 =>
    unfold tryParseDlItem at h
    split at h
    · rename_i t d hsl
      obtain ⟨hd4, hnil⟩ := singleLineDtMatch_length _ t d hsl
      have hlt : i < lines.length := curLine_ne_nil_lt lines i hnil
      split at h
      · simp only [Res.ok.injEq, Option.some.injEq, Prod.mk.injEq] at h
        obtain ⟨h1, h2⟩ := h
        omega
      · exact absurd h (by simp)
      · exact absurd h (by simp)
    · split at h
      rename_i terms n hterms
      split at h
      · exact absurd h (by simp)
      · rename_i hne0
        split at h
        · rename_i hguard
          obtain ⟨hg1, hg2⟩ := hguard
          split at h
          rename_i defLs m hcol
          split at h
          · exact absurd h (by simp)
          · split at h
            · simp only [Res.ok.injEq, Option.some.injEq, Prod.mk.injEq] at h
              obtain ⟨h1, h2⟩ := h
              obtain ⟨t1, t2⟩ := collectDlTerms_spec _ _ _ hterms
              have hterms_ne : terms ≠ [] := by
                intro he
                rw [he] at hne0
                exact hne0 rfl
              have hn1 : 1 ≤ n := by
                rcases terms with _ | ⟨x, xs⟩
                · exact absurd rfl hterms_ne
                · simp only [List.length_cons] at t1
                  omega
              obtain ⟨c1, c2, c3⟩ := collectContLines_spec _ _ _ _ hcol
              have hlen := List.length_drop (i + n) lines
              omega
            · exact absurd h (by simp)
            · exact absurd h (by simp)
        · exact absurd h (by simp)

theorem tryParseUlItem_none (f : Nat) (lines : List Str) (i : Nat)
    (h : tryParseUlItem f lines i = .ok none) :
    bulletLineMatch (curLine lines i) = none := by
  match f with
  | 0 => exact absurd h (by simp [tryParseUlItem])
  | f' + 1 =>
    unfold tryParseUlItem at h
    split at h
    · rename_i hb
      exact hb
    · split at h
      rename_i cont n hcol
      split at h
      · exact absurd h (by simp)
      · split at h
        · exact absurd h (by simp)
        · exact absurd h (by simp)
        · exact absurd h (by simp)

theorem tryParseOlItem_none (f : Nat) (lines : List Str) (i : Nat)
    (h : tryParseOlItem f lines i = .ok none) :
    olItemStart (curLine lines i) = none := by
  match f with
  | 0 => exact absurd h (by simp [tryParseOlItem])
  | f' + 1 =>
    unfold tryParseOlItem at h
    split at h
    · rename_i hb
      exact hb
    · rename_i pfxLen g2 hol
      split at h
      rename_i cont n hcol
      split at h
      · exact absurd h (by simp)
      · split at h
        · exact absurd h (by simp)
        · exact absurd h (by simp)
        · exact absurd h (by simp)

/-! ## Claim C10: the item loops and rule wrappers advance the cursor -/

theorem simpleListItems_adv (f : Nat) : ∀ (isOl : Bool) (lines : List Str)
    (i : Nat) (items : List (List Elem)) (e : Nat), i ≤ lines.length →
    simpleListItems f isOl lines i = .ok (items, e) →
    i ≤ e ∧ e ≤ lines.length ∧ (items ≠ [] → i < e) := by
  induction f with
  | zero =>
    intro isOl lines i items e hi h
    exact absurd h (by simp [simpleListItems])
  | succ f ih =>
    intro isOl lines i items e hi h
    unfold simpleListItems at h
    split at h
    · rename_i hslt
      split at h
      · simp only [Res.ok.injEq, Prod.mk.injEq] at h
        obtain ⟨h1, h2⟩ := h
        subst h2
        exact ⟨skipEmptyLines_ge lines i, skipEmptyLines_le lines i hi,
          fun hne => absurd h1.symm hne⟩
      · rename_i it k heq
        split at h
        · rename_i rest e' hrec
          simp only [Res.ok.injEq, Prod.mk.injEq] at h
          obtain ⟨h1, h2⟩ := h
          subst h2
          have hs_le : skipEmptyLines lines i ≤ lines.length :=
            skipEmptyLines_le lines i hi
          have hadv : skipEmptyLines lines i < k ∧ k ≤ lines.length := by
            cases isOl
            · rw [if_neg Bool.false_ne_true] at heq
              exact tryParseUlItem_adv f lines _ it k hs_le heq
            · rw [if_pos rfl] at heq
              exact tryParseOlItem_adv f lines _ it k hs_le heq
          obtain ⟨ha1, ha2⟩ := hadv
          obtain ⟨ihe1, ihe2, ihe3⟩ := ih isOl lines k rest e' ha2 hrec
          have hge := skipEmptyLines_ge lines i
          exact ⟨by omega, by omega, fun _ => by omega⟩
        · exact absurd h (by simp)
        · exact absurd h (by simp)
      · exact absurd h (by simp)
      · exact absurd h (by simp)
    · simp only [Res.ok.injEq, Prod.mk.injEq] at h
      obtain ⟨h1, h2⟩ := h
      subst h2
      exact ⟨skipEmptyLines_ge lines i, skipEmptyLines_le lines i hi,
        fun hne => absurd h1.symm hne⟩

theorem dlItems_adv (f : Nat) : ∀ (lines : List Str) (i : Nat)
    (items : List (List Str × List Elem)) (e : Nat), i ≤ lines.length →
    dlItems f lines i = .ok (items, e) →
    i ≤ e ∧ e ≤ lines.length ∧ (items ≠ [] → i < e) := by
  induction f with
  | zero =>
    intro lines i items e hi h
    exact absurd h (by simp [dlItems])
  | succ f ih =>
    intro lines i items e hi h
    unfold dlItems at h
    split at h
    · rename_i hslt
      split at h
      · simp only [Res.ok.injEq, Prod.mk.injEq] at h
        obtain ⟨h1, h2⟩ := h
        subst h2
        exact ⟨skipEmptyLines_ge lines i, skipEmptyLines_le lines i hi,
          fun hne => absurd h1.symm hne⟩
      · rename_i it k heq
        split at h
        · rename_i rest e' hrec
          simp only [Res.ok.injEq, Prod.mk.injEq] at h
          obtain ⟨h1, h2⟩ := h
          subst h2
          have hs_le : skipEmptyLines lines i ≤ lines.length :=
            skipEmptyLines_le lines i hi
          obtain ⟨ha1, ha2⟩ := tryParseDlItem_adv f lines _ it k hs_le heq
          obtain ⟨ihe1, ihe2, ihe3⟩ := ih lines k rest e' ha2 hrec
          have hge := skipEmptyLines_ge lines i
          exact ⟨by omega, by omega, fun _ => by omega⟩
        · exact absurd h (by simp)
        · exact absurd h (by simp)
      · exact absurd h (by simp)
      · exact absurd h (by simp)
    · simp only [Res.ok.injEq, Prod.mk.injEq] at h
      obtain ⟨h1, h2⟩ := h
      subst h2
      exact ⟨skipEmptyLines_ge lines i, skipEmptyLines_le lines i hi,
        fun hne => absurd h1.symm hne⟩

theorem tryParseUl_adv (f : Nat) (lines : List Str) (i : Nat) (e : Elem) (k : Nat)
    (hi : i ≤ lines.length) (h : tryParseUl f lines i = .ok (some (e, k))) :
    i < k ∧ k ≤ lines.length := by
  match f with
  | 0 => exact absurd h (by simp [tryParseUl])
  | f' + 1 =>
    unfold tryParseUl at h
    split at h
    · rename_i items e' heq
      split at h
      · exact absurd h (by simp)
      · rename_i hne
        simp only [Res.ok.injEq, Option.some.injEq, Prod.mk.injEq] at h
        obtain ⟨h1, h2⟩ := h
        subst h2
        obtain ⟨a1, a2, a3⟩ := simpleListItems_adv f' false lines i items e' hi heq
        have hit : items ≠ [] := by
          intro he2
          rw [he2] at hne
          exact hne rfl
        exact ⟨by have := a3 hit; omega, a2⟩
    · exact absurd h (by simp)
    · exact absurd h (by simp)

theorem tryParseOl_adv (f : Nat) (lines : List Str) (i : Nat) (e : Elem) (k : Nat)
    (hi : i ≤ lines.length) (h : tryParseOl f lines i = .ok (some (e, k))) :
    i < k ∧ k ≤ lines.length := by
  match f with
  | 0 => exact absurd h (by simp [tryParseOl])
  | f' + 1 =>
    unfold tryParseOl at h
    split at h
    · rename_i items e' heq
      split at h
      · exact absurd h (by simp)
      · rename_i hne
        simp only [Res.ok.injEq, Option.some.injEq, Prod.mk.injEq] at h
        obtain ⟨h1, h2⟩ := h
        subst h2
        obtain ⟨a1, a2, a3⟩ := simpleListItems_adv f' true lines i items e' hi heq
        have hit : items ≠ [] := by
          intro he2
          rw [he2] at hne
          exact hne rfl
        exact ⟨by have := a3 hit; omega, a2⟩
    · exact absurd h (by simp)
    · exact absurd h (by simp)

theorem tryParseDl_adv (f : Nat) (lines : List Str) (i : Nat) (e : Elem) (k : Nat)
    (hi : i ≤ lines.length) (h : tryParseDl f lines i = .ok (some (e, k))) :
    i < k ∧ k ≤ lines.length := by
  match f with
  | 0 => exact absurd h (by simp [tryParseDl])
  | f' + 1 =>
    unfold tryParseDl at h
    split at h
    · rename_i items e' heq
      split at h
      · exact absurd h (by simp)
      · rename_i hne
        simp only [Res.ok.injEq, Option.some.injEq, Prod.mk.injEq] at h
        obtain ⟨h1, h2⟩ := h
        subst h2
        obtain ⟨a1, a2, a3⟩ := dlItems_adv f' lines i items e' hi heq
        have hit : items ≠ [] := by
          intro he2
          rw [he2] at hne
          exact hne rfl
        exact ⟨by have := a3 hit; omega, a2⟩
    · exact absurd h (by simp)
    · exact absurd h (by simp)

theorem tryParsePreDelim_ne_gas (lines : List Str) (i : Nat) :
    tryParsePreDelim lines i ≠ .gas := by
  unfold tryParsePreDelim
  split
  · simp
  · simp
  · simp
  · rename_i heq
    exact absurd heq (tryParseDelimBlock_ne_gas _ lines i)

theorem tryParsePreDelim_adv (lines : List Str) (i : Nat) (e : Elem) (k : Nat)
    (hi : i ≤ lines.length)
    (h : tryParsePreDelim lines i = .ok (some (e, k))) :
    i < k ∧ k ≤ lines.length := by
  unfold tryParsePreDelim at h
  split at h
  · exact absurd h (by simp)
  · rename_i ls k' heq
    simp only [Res.ok.injEq, Option.some.injEq, Prod.mk.injEq] at h
    obtain ⟨h1, h2⟩ := h
    subst h2
    obtain ⟨a1, a2, a3⟩ := tryParseDelimBlock_adv _ lines i ls k' hi (by decide) heq
    exact ⟨a1, a2⟩
  · exact absurd h (by simp)
  · exact absurd h (by simp)

theorem tryParseBqDelim_adv (f : Nat) (lines : List Str) (i : Nat) (e : Elem)
    (k : Nat) (hi : i ≤ lines.length)
    (h : tryParseBqDelim f lines i = .ok (some (e, k))) :
    i < k ∧ k ≤ lines.length := by
  match f with
  | 0 => exact absurd h (by simp [tryParseBqDelim])
  | f' + 1 =>
    unfold tryParseBqDelim at h
    split at h
    · exact absurd h (by simp)
    · rename_i ls k' heq
      split at h
      · simp only [Res.ok.injEq, Option.some.injEq, Prod.mk.injEq] at h
        obtain ⟨h1, h2⟩ := h
        subst h2
        obtain ⟨a1, a2, a3⟩ := tryParseDelimBlock_adv _ lines i ls k' hi (by decide) heq
        exact ⟨a1, a2⟩
      · exact absurd h (by simp)
      · exact absurd h (by simp)
    · exact absurd h (by simp)
    · exact absurd h (by simp)

theorem tryParseAdmonDelim_adv (f : Nat) (lines : List Str) (i : Nat) (e : Elem)
    (k : Nat) (hi : i ≤ lines.length)
    (h : tryParseAdmonDelim f lines i = .ok (some (e, k))) :
    i < k ∧ k ≤ lines.length := by
  match f with
  | 0 => exact absurd h (by simp [tryParseAdmonDelim])
  | f' + 1 =>
    unfold tryParseAdmonDelim at h
    split at h
    · exact absurd h (by simp)
    · rename_i ls k' heq
      split at h
      · simp only [Res.ok.injEq, Option.some.injEq, Prod.mk.injEq] at h
        obtain ⟨h1, h2⟩ := h
        subst h2
        obtain ⟨a1, a2, a3⟩ := tryParseDelimBlock_adv _ lines i ls k' hi (by decide) heq
        exact ⟨a1, a2⟩
      · exact absurd h (by simp)
      · exact absurd h (by simp)
    · exact absurd h (by simp)
    · exact absurd h (by simp)

theorem tryParseBqPrefixed_adv (f : Nat) (lines : List Str) (i : Nat) (e : Elem)
    (k : Nat) (hi : i ≤ lines.length)
    (h : tryParseBqPrefixed f lines i = .ok (some (e, k))) :
    i < k ∧ k ≤ lines.length := by
  match f with
  | 0 => exact absurd h (by simp [tryParseBqPrefixed])
  | f' + 1 =>
    unfold tryParseBqPrefixed at h
    split at h
    rename_i ls n hcol
    split at h
    · exact absurd h (by simp)
    · rename_i hemp
      split at h
      · simp only [Res.ok.injEq, Option.some.injEq, Prod.mk.injEq] at h
        obtain ⟨h1, h2⟩ := h
        obtain ⟨c1, c2, c3⟩ := collectBqLines_spec _ _ _ hcol
        have hlen := List.length_drop i lines
        have hne : ls ≠ [] := by
          intro he
          rw [he] at hemp
          exact hemp rfl
        have hn : 1 ≤ n := by
          rcases ls with _ | ⟨a, tl⟩
          · exact absurd rfl hne
          · simp only [List.length_cons] at c2
            omega
        omega
      · exact absurd h (by simp)
      · exact absurd h (by simp)

theorem tryParseAdmonBoxRule_adv (f : Nat) (lines : List Str) (i : Nat) (e : Elem)
    (k : Nat) (hi : i ≤ lines.length)
    (h : tryParseAdmonBoxRule f lines i = .ok (some (e, k))) :
    i < k ∧ k ≤ lines.length := by
  match f with
  | 0 => exact absurd h (by simp [tryParseAdmonBoxRule])
  | f' + 1 =>
    unfold tryParseAdmonBoxRule at h
    split at h
    · rename_i hcur
      split at h
      · split at h
        rename_i ls n hcol
        split at h
        · simp only [Res.ok.injEq, Option.some.injEq, Prod.mk.injEq] at h
          obtain ⟨h1, h2⟩ := h
          have hne := head?_ne_nil (curLine lines i) _ hcur
          have hlt := curLine_ne_nil_lt lines i hne
          obtain ⟨c1, c2⟩ := collectAdmonLines_spec _ _ _ hcol
          have hlen := List.length_drop (i + 1) lines
          omega
        · exact absurd h (by simp)
        · exact absurd h (by simp)
      · exact absurd h (by simp)
    · exact absurd h (by simp)

/-! ## Claim C10: list rules accept every bullet and `. `-started line,
so the paragraph fallback never strands the cursor -/

theorem simpleListItems_ul_items (f : Nat) (lines : List Str) (i : Nat)
    (items : List (List Elem)) (e : Nat)
    (hne : curLine lines i ≠ []) (hlt : i < lines.length)
    (hb : bulletLineMatch (curLine lines i) ≠ none)
    (h : simpleListItems f false lines i = .ok (items, e)) : items ≠ [] := by
  match f with
  | 0 => exact absurd h (by simp [simpleListItems])
  | f' + 1 =>
    unfold simpleListItems at h
    rw [skipEmptyLines_stay lines i hne] at h
    rw [if_pos hlt] at h
    rw [if_neg Bool.false_ne_true] at h
    split at h
    · rename_i heq
      exact absurd (tryParseUlItem_none f' lines i heq) hb
    · rename_i it k heq
      split at h
      · simp only [Res.ok.injEq, Prod.mk.injEq] at h
        obtain ⟨h1, h2⟩ := h
        intro hcon
        rw [← h1] at hcon
        exact List.noConfusion hcon
      · exact absurd h (by simp)
      · exact absurd h (by simp)
    · exact absurd h (by simp)
    · exact absurd h (by simp)

theorem simpleListItems_ol_items (f : Nat) (lines : List Str) (i : Nat)
    (items : List (List Elem)) (e : Nat)
    (hne : curLine lines i ≠ []) (hlt : i < lines.length)
    (hb : olItemStart (curLine lines i) ≠ none)
    (h : simpleListItems f true lines i = .ok (items, e)) : items ≠ [] := by
  match f with
  | 0 => exact absurd h (by simp [simpleListItems])
  | f' + 1 =>
    unfold simpleListItems at h
    rw [skipEmptyLines_stay lines i hne] at h
    rw [if_pos hlt] at h
    rw [if_pos rfl] at h
    split at h
    · rename_i heq
      exact absurd (tryParseOlItem_none f' lines i heq) hb
    · rename_i it k heq
      split at h
      · simp only [Res.ok.injEq, Prod.mk.injEq] at h
        obtain ⟨h1, h2⟩ := h
        intro hcon
        rw [← h1] at hcon
        exact List.noConfusion hcon
      · exact absurd h (by simp)
      · exact absurd h (by simp)
    · exact absurd h (by simp)
    · exact absurd h (by simp)

theorem tryParseUl_progress (f : Nat) (lines : List Str) (i : Nat)
    (hne : curLine lines i ≠ []) (hlt : i < lines.length)
    (hb : bulletLineMatch (curLine lines i) ≠ none) :
    tryParseUl f lines i ≠ .ok none := by
  match f with
  | 0 => simp [tryParseUl]
  | f' + 1 =>
    intro h
    unfold tryParseUl at h
    split at h
    · rename_i items e heq
      split at h
      · rename_i hemp
        exact simpleListItems_ul_items f' lines i items e hne hlt hb heq
          (List.isEmpty_iff.mp hemp)
      · exact absurd h (by simp)
    · exact absurd h (by simp)
    · exact absurd h (by simp)

theorem tryParseOl_progress (f : Nat) (lines : List Str) (i : Nat)
    (hne : curLine lines i ≠ []) (hlt : i < lines.length)
    (hb : olItemStart (curLine lines i) ≠ none) :
    tryParseOl f lines i ≠ .ok none := by
  match f with
  | 0 => simp [tryParseOl]
  | f' + 1 =>
    intro h
    unfold tryParseOl at h
    split at h
    · rename_i items e heq
      split at h
      · rename_i hemp
        exact simpleListItems_ol_items f' lines i items e hne hlt hb heq
          (List.isEmpty_iff.mp hemp)
      · exact absurd h (by simp)
    · exact absurd h (by simp)
    · exact absurd h (by simp)

/-! ## Claim C10: the ordered rule chain advances the cursor on success
and always matches a non-empty line -/

theorem tryFuncs_adv (f : Nat) (lines : List Str) (i : Nat) (e : Elem) (k : Nat)
    (hi : i ≤ lines.length) (h : tryFuncs f lines i = .ok (some (e, k))) :
    i < k ∧ k ≤ lines.length := by
  match f with
  | 0 => exact absurd h (by simp [tryFuncs])
  | f' + 1 =>
    unfold tryFuncs at h
    split at h
    · rename_i r hh
      simp only [Res.ok.injEq, Option.some.injEq] at h
      subst h
      exact tryParseHeadingG_adv Elem.h1 ['='] '━' lines i e k hh
    · -- rule refused; try the next one
      split at h
      · rename_i r hh
        simp only [Res.ok.injEq, Option.some.injEq] at h
        subst h
        exact tryParseHeadingG_adv Elem.h2 ['=', '='] '─' lines i e k hh
      · -- rule refused; try the next one
        split at h
        · exact absurd h (by simp)
        · exact absurd h (by simp)
        · rename_i r hh
          simp only [Res.ok.injEq, Option.some.injEq] at h
          subst h
          exact tryParseUl_adv f' lines i e k hi hh
        · -- rule refused; try the next one
          split at h
          · exact absurd h (by simp)
          · exact absurd h (by simp)
          · rename_i r hh
            simp only [Res.ok.injEq, Option.some.injEq] at h
            subst h
            exact tryParseOl_adv f' lines i e k hi hh
          · -- rule refused; try the next one
            split at h
            · exact absurd h (by simp)
            · exact absurd h (by simp)
            · rename_i r hh
              simp only [Res.ok.injEq, Option.some.injEq] at h
              subst h
              exact tryParseDl_adv f' lines i e k hi hh
            · -- rule refused; try the next one
              split at h
              · exact absurd h (by simp)
              · exact absurd h (by simp)
              · rename_i r hh
                simp only [Res.ok.injEq, Option.some.injEq] at h
                subst h
                exact tryParsePreDelim_adv lines i e k hi hh
              · -- rule refused; try the next one
                split at h
                · exact absurd h (by simp)
                · exact absurd h (by simp)
                · rename_i r hh
                  simp only [Res.ok.injEq, Option.some.injEq] at h
                  subst h
                  exact tryParsePreIndented_adv lines i e k hi hh
                · -- rule refused; try the next one
                  split at h
                  · rename_i r hh
                    simp only [Res.ok.injEq, Option.some.injEq] at h
                    subst h
                    exact tryParseHr_adv lines i e k hh
                  · -- rule refused; try the next one
                    split at h
                    · exact absurd h (by simp)
                    · exact absurd h (by simp)
                    · rename_i r hh
                      simp only [Res.ok.injEq, Option.some.injEq] at h
                      subst h
                      exact tryParseBqDelim_adv f' lines i e k hi hh
                    · -- rule refused; try the next one
                      split at h
                      · exact absurd h (by simp)
                      · exact absurd h (by simp)
                      · rename_i r hh
                        simp only [Res.ok.injEq, Option.some.injEq] at h
                        subst h
                        exact tryParseBqPrefixed_adv f' lines i e k hi hh
                      · -- rule refused; try the next one
                        split at h
                        · exact absurd h (by simp)
                        · exact absurd h (by simp)
                        · rename_i r hh
                          simp only [Res.ok.injEq, Option.some.injEq] at h
                          subst h
                          exact tryParseAdmonDelim_adv f' lines i e k hi hh
                        · -- rule refused; try the next one
                          split at h
                          · exact absurd h (by simp)
                          · exact absurd h (by simp)
                          · rename_i r hh
                            simp only [Res.ok.injEq, Option.some.injEq] at h
                            subst h
                            exact tryParseAdmonBoxRule_adv f' lines i e k hi hh
                          · -- rule refused; try the next one
                            split at h
                            · rename_i r hh
                              simp only [Res.ok.injEq, Option.some.injEq] at h
                              subst h
                              exact tryParseVerbatim_adv lines i e k hi hh
                            · -- rule refused; try the next one
                              split at h
                              · rename_i r hh
                                simp only [Res.ok.injEq, Option.some.injEq] at h
                                subst h
                                exact tryParseP_adv lines i e k hi hh
                              · exact absurd h (by simp)

theorem tryFuncs_progress (f : Nat) (lines : List Str) (i : Nat)
    (hlt : i < lines.length) (hne : curLine lines i ≠ []) :
    tryFuncs f lines i ≠ .ok none := by
  match f with
  | 0 => simp [tryFuncs]
  | f' + 1 =>
    intro h
    unfold tryFuncs at h
    split at h
    · exact absurd h (by simp)
    · -- rule refused; try the next one
      split at h
      · exact absurd h (by simp)
      · -- rule refused; try the next one
        split at h
        · exact absurd h (by simp)
        · exact absurd h (by simp)
        · exact absurd h (by simp)
        · rename_i hul
          split at h
          · exact absurd h (by simp)
          · exact absurd h (by simp)
          · exact absurd h (by simp)
          · rename_i hol
            split at h
            · exact absurd h (by simp)
            · exact absurd h (by simp)
            · exact absurd h (by simp)
            · -- rule refused; try the next one
              split at h
              · exact absurd h (by simp)
              · exact absurd h (by simp)
              · exact absurd h (by simp)
              · -- rule refused; try the next one
                split at h
                · exact absurd h (by simp)
                · exact absurd h (by simp)
                · exact absurd h (by simp)
                · -- rule refused; try the next one
                  split at h
                  · exact absurd h (by simp)
                  · -- rule refused; try the next one
                    split at h
                    · exact absurd h (by simp)
                    · exact absurd h (by simp)
                    · exact absurd h (by simp)
                    · -- rule refused; try the next one
                      split at h
                      · exact absurd h (by simp)
                      · exact absurd h (by simp)
                      · exact absurd h (by simp)
                      · -- rule refused; try the next one
                        split at h
                        · exact absurd h (by simp)
                        · exact absurd h (by simp)
                        · exact absurd h (by simp)
                        · -- rule refused; try the next one
                          split at h
                          · exact absurd h (by simp)
                          · exact absurd h (by simp)
                          · exact absurd h (by simp)
                          · -- rule refused; try the next one
                            split at h
                            · exact absurd h (by simp)
                            · -- rule refused; try the next one
                              split at h
                              · exact absurd h (by simp)
                              · rename_i hp
                                rcases tryParseP_none lines i hlt hne hp with hb | hd
                                · refine absurd hul (tryParseUl_progress f' lines i hne hlt ?_)
                                  intro hno
                                  rw [hno] at hb
                                  simp at hb
                                · exact absurd hol (tryParseOl_progress f' lines i hne hlt (dotStart_olItemStart _ hd))

/-! ## Claim C10: fuel `10·muL + c` never runs out

The measure `muL` strictly decreases across every recursive call of the
parser (each matched rule consumes at least one input line, and each
sub-parse runs on strictly fewer characters), so a fuel budget linear in
the input size suffices for every function of the mutual block. -/

theorem parserNoGas (fuel : Nat) :
    (∀ lines i, i ≤ lines.length → 10 * muL (lines.drop i) + 1 ≤ fuel →
      tryParseUlItem fuel lines i ≠ .gas) ∧
    (∀ lines i, i ≤ lines.length → 10 * muL (lines.drop i) + 1 ≤ fuel →
      tryParseOlItem fuel lines i ≠ .gas) ∧
    (∀ lines i, i ≤ lines.length → 10 * muL (lines.drop i) + 1 ≤ fuel →
      tryParseDlItem fuel lines i ≠ .gas) ∧
    (∀ (isOl : Bool) lines i, i ≤ lines.length →
      10 * muL (lines.drop i) + 2 ≤ fuel →
      simpleListItems fuel isOl lines i ≠ .gas) ∧
    (∀ lines i, i ≤ lines.length → 10 * muL (lines.drop i) + 2 ≤ fuel →
      dlItems fuel lines i ≠ .gas) ∧
    (∀ lines i, i ≤ lines.length → 10 * muL (lines.drop i) + 3 ≤ fuel →
      tryParseUl fuel lines i ≠ .gas) ∧
    (∀ lines i, i ≤ lines.length → 10 * muL (lines.drop i) + 3 ≤ fuel →
      tryParseOl fuel lines i ≠ .gas) ∧
    (∀ lines i, i ≤ lines.length → 10 * muL (lines.drop i) + 3 ≤ fuel →
      tryParseDl fuel lines i ≠ .gas) ∧
    (∀ lines i, i ≤ lines.length → 10 * muL (lines.drop i) + 3 ≤ fuel →
      tryParseBqDelim fuel lines i ≠ .gas) ∧
    (∀ lines i, i ≤ lines.length → 10 * muL (lines.drop i) + 3 ≤ fuel →
      tryParseBqPrefixed fuel lines i ≠ .gas) ∧
    (∀ lines i, i ≤ lines.length → 10 * muL (lines.drop i) + 3 ≤ fuel →
      tryParseAdmonDelim fuel lines i ≠ .gas) ∧
    (∀ lines i, i ≤ lines.length → 10 * muL (lines.drop i) + 3 ≤ fuel →
      tryParseAdmonBoxRule fuel lines i ≠ .gas) ∧
    (∀ lines i, i ≤ lines.length → 10 * muL (lines.drop i) + 4 ≤ fuel →
      tryFuncs fuel lines i ≠ .gas) ∧
    (∀ lines i acc, i ≤ lines.length → 10 * muL (lines.drop i) + 5 ≤ fuel →
      parseLoop fuel lines i acc ≠ .gas) ∧
    (∀ lines, 10 * muL lines + 6 ≤ fuel → parse fuel lines ≠ .gas) := by
  induction fuel with
  | zero =>
    refine ⟨?_, ?_, ?_, ?_, ?_, ?_, ?_, ?_, ?_, ?_, ?_, ?_, ?_, ?_, ?_⟩
    · intro lines i hi hf h; omega
    · intro lines i hi hf h; omega
    · intro lines i hi hf h; omega
    · intro isOl lines i hi hf h; omega
    · intro lines i hi hf h; omega
    · intro lines i hi hf h; omega
    · intro lines i hi hf h; omega
    · intro lines i hi hf h; omega
    · intro lines i hi hf h; omega
    · intro lines i hi hf h; omega
    · intro lines i hi hf h; omega
    · intro lines i hi hf h; omega
    · intro lines i hi hf h; omega
    · intro lines i acc hi hf h; omega
    · intro lines hf h; omega
  | succ f ih =>
    obtain ⟨ihUlItem, ihOlItem, ihDlItem, ihSli, ihDli, ihUl, ihOl, ihDl,
      ihBqD, ihBqP, ihAdD, ihAdB, ihFuncs, ihLoop, ihParse⟩ := ih
    have hUlItemG : ∀ lines i, i ≤ lines.length →
        10 * muL (lines.drop i) + 1 ≤ f + 1 →
        tryParseUlItem (f + 1) lines i ≠ .gas := by
      intro lines i hi hf h
      unfold tryParseUlItem at h
      split at h
      · exact absurd h (by simp)
      · rename_i g1 hbul
        have hne := bulletLineMatch_ne_nil _ _ hbul
        have hlt := curLine_ne_nil_lt lines i hne
        split at h
        rename_i cont n hcol
        split at h
        · exact absurd h (by simp)
        · rename_i ls hrm
          split at h
          · exact absurd h (by simp)
          · exact absurd h (by simp)
          · rename_i hpar
            have hblen := bulletLineMatch_length _ _ hbul
            obtain ⟨c1, c2, c3⟩ := collectContLines_spec _ _ _ _ hcol
            have hrm2 := muL_removeTrailing hrm
            have hmuls := muL_cons g1 cont
            have hun := muL_unindent 2 ls
            have hmu := muAt_cons lines i hlt
            have hfb : 10 * muL (unindentLines 2 ls) + 6 ≤ f := by omega
            exact ihParse _ hfb hpar
    have hOlItemG : ∀ lines i, i ≤ lines.length →
        10 * muL (lines.drop i) + 1 ≤ f + 1 →
        tryParseOlItem (f + 1) lines i ≠ .gas := by
      intro lines i hi hf h
      unfold tryParseOlItem at h
      split at h
      · exact absurd h (by simp)
      · rename_i pfxLen g2 hol
        have hne := olItemStart_ne_nil _ _ hol
        have hlt := curLine_ne_nil_lt lines i hne
        split at h
        rename_i cont n hcol
        split at h
        · exact absurd h (by simp)
        · rename_i ls hrm
          split at h
          · exact absurd h (by simp)
          · exact absurd h (by simp)
          · rename_i hpar
            obtain ⟨holen, hp2⟩ := olItemStart_length _ _ _ hol
            obtain ⟨c1, c2, c3⟩ := collectContLines_spec _ _ _ _ hcol
            have hrm2 := muL_removeTrailing hrm
            have hmuls := muL_cons g2 cont
            have hun := muL_unindent pfxLen ls
            have hmu := muAt_cons lines i hlt
            have hfb : 10 * muL (unindentLines pfxLen ls) + 6 ≤ f := by omega
            exact ihParse _ hfb hpar
    have hDlItemG : ∀ lines i, i ≤ lines.length →
        10 * muL (lines.drop i) + 1 ≤ f + 1 →
        tryParseDlItem (f + 1) lines i ≠ .gas := by
      intro lines i hi hf h
      unfold tryParseDlItem at h
      split at h
      · rename_i t d hsl
        obtain ⟨hd4, hnil⟩ := singleLineDtMatch_length _ t d hsl
        have hlt := curLine_ne_nil_lt lines i hnil
        split at h
        · exact absurd h (by simp)
        · exact absurd h (by simp)
        · rename_i hpar
          have hmu := muAt_cons lines i hlt
          have hmud : muL [d] = d.length + 1 + muL [] := muL_cons d []
          have hmun : muL ([] : List Str) = 0 := muL_nil
          have hfb : 10 * muL [d] + 6 ≤ f := by omega
          exact ihParse _ hfb hpar
      · split at h
        rename_i terms n hterms
        split at h
        · exact absurd h (by simp)
        · rename_i hne0
          split at h
          · rename_i hguard
            obtain ⟨hg1, hg2⟩ := hguard
            split at h
            rename_i defLs m hcol
            split at h
            · exact absurd h (by simp)
            · rename_i ls hrm
              split at h
              · exact absurd h (by simp)
              · exact absurd h (by simp)
              · rename_i hpar
                obtain ⟨t1, t2⟩ := collectDlTerms_spec _ _ _ hterms
                have hterms_ne : terms ≠ [] := by
                  intro he
                  rw [he] at hne0
                  exact hne0 rfl
                have hn1 : 1 ≤ n := by
                  rcases terms with _ | ⟨x, xs⟩
                  · exact absurd rfl hterms_ne
                  · simp only [List.length_cons] at t1
                    omega
                obtain ⟨c1, c2, c3⟩ := collectContLines_spec _ _ _ _ hcol
                have hrm2 := muL_removeTrailing hrm
                have hun := muL_unindent 4 ls
                have hbet := muAt_between lines i (i + n) (by omega) (by omega)
                have hfb : 10 * muL (unindentLines 4 ls) + 6 ≤ f := by omega
                exact ihParse _ hfb hpar
          · exact absurd h (by simp)
    have hSliG : ∀ (isOl : Bool) lines i, i ≤ lines.length →
        10 * muL (lines.drop i) + 2 ≤ f + 1 →
        simpleListItems (f + 1) isOl lines i ≠ .gas := by
      intro isOl lines i hi hf h
      unfold simpleListItems at h
      split at h
      · rename_i hslt
        have hs_le := skipEmptyLines_le lines i hi
        have hge := skipEmptyLines_ge lines i
        have hmono := muL_drop_mono lines i (skipEmptyLines lines i) hge
        split at h
        · exact absurd h (by simp)
        · rename_i it k heq
          split at h
          · exact absurd h (by simp)
          · exact absurd h (by simp)
          · rename_i hrec
            have hadv : skipEmptyLines lines i < k ∧ k ≤ lines.length := by
              cases isOl
              · rw [if_neg Bool.false_ne_true] at heq
                exact tryParseUlItem_adv f lines _ it k hs_le heq
              · rw [if_pos rfl] at heq
                exact tryParseOlItem_adv f lines _ it k hs_le heq
            obtain ⟨ha1, ha2⟩ := hadv
            have hbet := muAt_between lines i k (by omega) ha2
            have hfb : 10 * muL (lines.drop k) + 2 ≤ f := by omega
            exact ihSli isOl lines k ha2 hfb hrec
        · exact absurd h (by simp)
        · rename_i hitem
          have hfb : 10 * muL (lines.drop (skipEmptyLines lines i)) + 1 ≤ f := by
            omega
          cases isOl
          · rw [if_neg Bool.false_ne_true] at hitem
            exact ihUlItem lines _ hs_le hfb hitem
          · rw [if_pos rfl] at hitem
            exact ihOlItem lines _ hs_le hfb hitem
      · exact absurd h (by simp)
    have hDliG : ∀ lines i, i ≤ lines.length →
        10 * muL (lines.drop i) + 2 ≤ f + 1 →
        dlItems (f + 1) lines i ≠ .gas := by
      intro lines i hi hf h
      unfold dlItems at h
      split at h
      · rename_i hslt
        have hs_le := skipEmptyLines_le lines i hi
        have hge := skipEmptyLines_ge lines i
        have hmono := muL_drop_mono lines i (skipEmptyLines lines i) hge
        split at h
        · exact absurd h (by simp)
        · rename_i it k heq
          split at h
          · exact absurd h (by simp)
          · exact absurd h (by simp)
          · rename_i hrec
            obtain ⟨ha1, ha2⟩ := tryParseDlItem_adv f lines _ it k hs_le heq
            have hbet := muAt_between lines i k (by omega) ha2
            have hfb : 10 * muL (lines.drop k) + 2 ≤ f := by omega
            exact ihDli lines k ha2 hfb hrec
        · exact absurd h (by simp)
        · rename_i hitem
          have hfb : 10 * muL (lines.drop (skipEmptyLines lines i)) + 1 ≤ f := by
            omega
          exact ihDlItem lines _ hs_le hfb hitem
      · exact absurd h (by simp)
    have hUlG : ∀ lines i, i ≤ lines.length →
        10 * muL (lines.drop i) + 3 ≤ f + 1 →
        tryParseUl (f + 1) lines i ≠ .gas := by
      intro lines i hi hf h
      unfold tryParseUl at h
      split at h
      · split at h
        · exact absurd h (by simp)
        · exact absurd h (by simp)
      · exact absurd h (by simp)
      · rename_i heq
        exact ihSli false lines i hi (by omega) heq
    have hOlG : ∀ lines i, i ≤ lines.length →
        10 * muL (lines.drop i) + 3 ≤ f + 1 →
        tryParseOl (f + 1) lines i ≠ .gas := by
      intro lines i hi hf h
      unfold tryParseOl at h
      split at h
      · split at h
        · exact absurd h (by simp)
        · exact absurd h (by simp)
      · exact absurd h (by simp)
      · rename_i heq
        exact ihSli true lines i hi (by omega) heq
    have hDlG : ∀ lines i, i ≤ lines.length →
        10 * muL (lines.drop i) + 3 ≤ f + 1 →
        tryParseDl (f + 1) lines i ≠ .gas := by
      intro lines i hi hf h
      unfold tryParseDl at h
      split at h
      · split at h
        · exact absurd h (by simp)
        · exact absurd h (by simp)
      · exact absurd h (by simp)
      · rename_i heq
        exact ihDli lines i hi (by omega) heq
    have hBqDG : ∀ lines i, i ≤ lines.length →
        10 * muL (lines.drop i) + 3 ≤ f + 1 →
        tryParseBqDelim (f + 1) lines i ≠ .gas := by
      intro lines i hi hf h
      unfold tryParseBqDelim at h
      split at h
      · exact absurd h (by simp)
      · rename_i ls k' heq
        split at h
        · exact absurd h (by simp)
        · exact absurd h (by simp)
        · rename_i hpar
          obtain ⟨a1, a2, a3⟩ :=
            tryParseDelimBlock_adv _ lines i ls k' hi (by decide) heq
          have hfb : 10 * muL ls + 6 ≤ f := by omega
          exact ihParse _ hfb hpar
      · exact absurd h (by simp)
      · rename_i heq
        exact absurd heq (tryParseDelimBlock_ne_gas _ lines i)
    have hBqPG : ∀ lines i, i ≤ lines.length →
        10 * muL (lines.drop i) + 3 ≤ f + 1 →
        tryParseBqPrefixed (f + 1) lines i ≠ .gas := by
      intro lines i hi hf h
      unfold tryParseBqPrefixed at h
      split at h
      rename_i ls n hcol
      split at h
      · exact absurd h (by simp)
      · rename_i hemp
        split at h
        · exact absurd h (by simp)
        · exact absurd h (by simp)
        · rename_i hpar
          obtain ⟨c1, c2, c3⟩ := collectBqLines_spec _ _ _ hcol
          have hne2 : ls ≠ [] := by
            intro he
            rw [he] at hemp
            exact hemp rfl
          have hn : 1 ≤ n := by
            rcases ls with _ | ⟨a, tl⟩
            · exact absurd rfl hne2
            · simp only [List.length_cons] at c2
              omega
          have hfb : 10 * muL ls + 6 ≤ f := by omega
          exact ihParse _ hfb hpar
    have hAdDG : ∀ lines i, i ≤ lines.length →
        10 * muL (lines.drop i) + 3 ≤ f + 1 →
        tryParseAdmonDelim (f + 1) lines i ≠ .gas := by
      intro lines i hi hf h
      unfold tryParseAdmonDelim at h
      split at h
      · exact absurd h (by simp)
      · rename_i ls k' heq
        split at h
        · exact absurd h (by simp)
        · exact absurd h (by simp)
        · rename_i hpar
          obtain ⟨a1, a2, a3⟩ :=
            tryParseDelimBlock_adv _ lines i ls k' hi (by decide) heq
          have hfb : 10 * muL ls + 6 ≤ f := by omega
          exact ihParse _ hfb hpar
      · exact absurd h (by simp)
      · rename_i heq
        exact absurd heq (tryParseDelimBlock_ne_gas _ lines i)
    have hAdBG : ∀ lines i, i ≤ lines.length →
        10 * muL (lines.drop i) + 3 ≤ f + 1 →
        tryParseAdmonBoxRule (f + 1) lines i ≠ .gas := by
      intro lines i hi hf h
      unfold tryParseAdmonBoxRule at h
      split at h
      · rename_i hcur
        split at h
        · split at h
          rename_i ls n hcol
          split at h
          · exact absurd h (by simp)
          · exact absurd h (by simp)
          · rename_i hpar
            have hne2 := head?_ne_nil (curLine lines i) _ hcur
            have hlt := curLine_ne_nil_lt lines i hne2
            obtain ⟨c1, c2⟩ := collectAdmonLines_spec _ _ _ hcol
            have hmu := muAt_cons lines i hlt
            have hclen : 1 ≤ (curLine lines i).length := by
              rcases hcl : curLine lines i with _ | ⟨a, tl⟩
              · exact absurd hcl hne2
              · simp
            have hfb : 10 * muL ls + 6 ≤ f := by omega
            exact ihParse _ hfb hpar
        · exact absurd h (by simp)
      · exact absurd h (by simp)
    have hFuncsG : ∀ lines i, i ≤ lines.length →
        10 * muL (lines.drop i) + 4 ≤ f + 1 →
        tryFuncs (f + 1) lines i ≠ .gas := by
      intro lines i hi hf h
      unfold tryFuncs at h
      split at h
      · exact absurd h (by simp)
      · -- rule refused; try the next one
        split at h
        · exact absurd h (by simp)
        · -- rule refused; try the next one
          split at h
          · exact absurd h (by simp)
          · rename_i heq
            exact ihUl lines i hi (by omega) heq
          · exact absurd h (by simp)
          · -- rule refused; try the next one
            split at h
            · exact absurd h (by simp)
            · rename_i heq
              exact ihOl lines i hi (by omega) heq
            · exact absurd h (by simp)
            · -- rule refused; try the next one
              split at h
              · exact absurd h (by simp)
              · rename_i heq
                exact ihDl lines i hi (by omega) heq
              · exact absurd h (by simp)
              · -- rule refused; try the next one
                split at h
                · exact absurd h (by simp)
                · rename_i heq
                  exact absurd heq (tryParsePreDelim_ne_gas lines i)
                · exact absurd h (by simp)
                · -- rule refused; try the next one
                  split at h
                  · exact absurd h (by simp)
                  · rename_i heq
                    exact absurd heq (tryParsePreIndented_ne_gas lines i)
                  · exact absurd h (by simp)
                  · -- rule refused; try the next one
                    split at h
                    · exact absurd h (by simp)
                    · -- rule refused; try the next one
                      split at h
                      · exact absurd h (by simp)
                      · rename_i heq
                        exact ihBqD lines i hi (by omega) heq
                      · exact absurd h (by simp)
                      · -- rule refused; try the next one
                        split at h
                        · exact absurd h (by simp)
                        · rename_i heq
                          exact ihBqP lines i hi (by omega) heq
                        · exact absurd h (by simp)
                        · -- rule refused; try the next one
                          split at h
                          · exact absurd h (by simp)
                          · rename_i heq
                            exact ihAdD lines i hi (by omega) heq
                          · exact absurd h (by simp)
                          · -- rule refused; try the next one
                            split at h
                            · exact absurd h (by simp)
                            · rename_i heq
                              exact ihAdB lines i hi (by omega) heq
                            · exact absurd h (by simp)
                            · -- rule refused; try the next one
                              split at h
                              · exact absurd h (by simp)
                              · -- rule refused; try the next one
                                split at h
                                · exact absurd h (by simp)
                                · exact absurd h (by simp)
    have hLoopG : ∀ lines i acc, i ≤ lines.length →
        10 * muL (lines.drop i) + 5 ≤ f + 1 →
        parseLoop (f + 1) lines i acc ≠ .gas := by
      intro lines i acc hi hf h
      unfold parseLoop at h
      split at h
      · rename_i hslt
        have hs_le := skipEmptyLines_le lines i hi
        have hge := skipEmptyLines_ge lines i
        have hmono := muL_drop_mono lines i (skipEmptyLines lines i) hge
        split at h
        · rename_i e k heq
          obtain ⟨a1, a2⟩ := tryFuncs_adv f lines _ e k hs_le heq
          have hbet := muAt_between lines i k (by omega) a2
          have hfb : 10 * muL (lines.drop k) + 5 ≤ f := by omega
          exact ihLoop lines k (acc ++ [e]) a2 hfb h
        · rename_i heq
          have hcur := skipEmptyLines_cur lines i hslt
          exact absurd heq (tryFuncs_progress f lines _ hslt hcur)
        · exact absurd h (by simp)
        · rename_i heq
          have hfb : 10 * muL (lines.drop (skipEmptyLines lines i)) + 4 ≤ f := by
            omega
          exact ihFuncs lines _ hs_le hfb heq
      · exact absurd h (by simp)
    have hParseG : ∀ lines, 10 * muL lines + 6 ≤ f + 1 →
        parse (f + 1) lines ≠ .gas := by
      intro lines hf h
      unfold parse at h
      have hfb : 10 * muL (lines.drop 0) + 5 ≤ f := by
        rw [List.drop_zero]
        omega
      exact ihLoop lines 0 [] (Nat.zero_le _) hfb h
    exact ⟨hUlItemG, hOlItemG, hDlItemG, hSliG, hDliG, hUlG, hOlG, hDlG,
      hBqDG, hBqPG, hAdDG, hAdBG, hFuncsG, hLoopG, hParseG⟩

/-- C10: parsing terminates on every finite input line sequence.  In the
fueled model of `_Parser._parse`, the fuel budget `parseFuelBound lines`
(linear in the total input size) is never exhausted; moreover every
success of the ordered rule chain advances the cursor past at least one
line, and at a non-blank line within bounds the chain never comes back
empty-handed — the bullet-start and `. `-start shapes that the paragraph
fallback refuses are always accepted by the unordered/ordered list rules
tried before it, so the main loop always makes progress. -/
theorem C10_parse_terminates :
    (∀ lines, parse (parseFuelBound lines) lines ≠ .gas) ∧
    (∀ fuel lines i e k, i ≤ lines.length →
      tryFuncs fuel lines i = .ok (some (e, k)) → i < k ∧ k ≤ lines.length) ∧
    (∀ fuel lines i, i < lines.length → curLine lines i ≠ [] →
      tryFuncs fuel lines i ≠ .ok none) := by
  refine ⟨?_, ?_, ?_⟩
  · intro lines
    exact (parserNoGas (parseFuelBound lines)).2.2.2.2.2.2.2.2.2.2.2.2.2.2
      lines (by unfold parseFuelBound; omega)
  · intro fuel lines i e k hi h
    exact tryFuncs_adv fuel lines i e k hi h
  · intro fuel lines i hlt hne
    exact tryFuncs_progress fuel lines i hlt hne

theorem C10_parse_terminates_witness :
    parse (parseFuelBound [strL ("***")]) [strL ("***")] ≠ .gas ∧
    ((0:Nat) < 1 ∧ 1 ≤ [strL ("***")].length) ∧
    tryFuncs 5 [strL ("***")] 0 ≠ .ok none :=
  ⟨C10_parse_terminates.1 [strL ("***")],
   C10_parse_terminates.2.1 5 [strL ("***")] 0 Elem.hr 1 (by decide) rfl,
   C10_parse_terminates.2.2 5 [strL ("***")] 0 (by decide) (by decide)⟩

end Formol
